import Mathlib

/-! LC3plus fixed-point core: basic operators, the MDCT analysis fold, the per-band
energies and the command-line front end.

Shallow embedding of `src/basic_op/basop32.h` (the operator macros), of
`src/mdct_fx.c` (`processMdct_fx`), of `src/per_band_energy_fx.c`
(`processPerBandEnergy_fx`) and of `parseCmdl` in `src/codec_exe.c`.  Machine words are
integers; every C `int` operation is followed by an explicit reduction to 32 bits,
every store into a `Word16` by a reduction to 16 bits.  Array accesses are checked: a
read or write outside a buffer makes the embedded function return `none`.
-/

namespace LC3

/-! Machine words -/

/-- Reduction of an integer to a signed 16-bit word (a store into a `Word16`). -/
def wrap16 (v : Int) : Int := (v + 32768) % 65536 - 32768

/-- Reduction of an integer to a signed 32-bit word (the result of C `int` arithmetic). -/
def wrap32 (v : Int) : Int := (v + 2147483648) % 4294967296 - 2147483648

/-- Constant `MAX_32`, defined as `(Word32)0x7fffffffL`. -/
def MAX_32 : Int := 2147483647

/-- Constant `MIN_32`, defined as `(Word32)0x80000000L`. -/
def MIN_32 : Int := -2147483648

/-- Constant `MAX_16`, defined as `(Word16)0x7fff`. -/
def MAX_16 : Int := 32767

/-- Constant `MIN_16`, defined as `(Word16)0x8000`. -/
def MIN_16 : Int := -32768

/-- The value is representable as a `Word16`. -/
def in16 (v : Int) : Prop := MIN_16 ≤ v ∧ v ≤ MAX_16

/-- The value is representable as a `Word32`. -/
def in32 (v : Int) : Prop := MIN_32 ≤ v ∧ v ≤ MAX_32

instance (v : Int) : Decidable (in16 v) := by unfold in16; infer_instance

instance (v : Int) : Decidable (in32 v) := by unfold in32; infer_instance

/-! Operator macros of `basop32.h` -/

/-- Operator `add(var1, var2)`, defined as `((Word32)(var1) + (var2))`. -/
def add (var1 var2 : Int) : Int := wrap32 (var1 + var2)

/-- Operator `sub(var1, var2)`, defined as `((Word32)(var1) - (var2))`. -/
def sub (var1 var2 : Int) : Int := wrap32 (var1 - var2)

/-- Operator `shl(var1, var2)`, defined as `((var1)<<(var2))`: an `int` shift.  C
defines it for a count in `0..31` only; any other count yields `none`. -/
def shl (var1 var2 : Int) : Option Int :=
  if 0 ≤ var2 ∧ var2 < 32 then some (wrap32 (var1 * 2 ^ var2.toNat)) else none

/-- Operator `shr(var1, var2)`, defined as `((var1)>>(var2))`: the arithmetic `int`
shift, for a count in `0..31`. -/
def shr (var1 var2 : Int) : Option Int :=
  if 0 ≤ var2 ∧ var2 < 32 then some (Int.shiftRight var1 var2.toNat) else none

/-- Operator `shl_sat`, defined as `shl` (line 134 of `basop32.h`). -/
def shl_sat (var1 var2 : Int) : Option Int := shl var1 var2

/-- Operator `shr_sat`, defined as `shr`. -/
def shr_sat (var1 var2 : Int) : Option Int := shr var1 var2

/-- Operator `mult(var1, var2)`, defined as `(((var1)*(var2))>>15)`. -/
def mult (var1 var2 : Int) : Int := Int.shiftRight (wrap32 (var1 * var2)) 15

/-- Operator `L_mult(var1, var2)`, defined as `(((var1)*(var2))<<1)`. -/
def L_mult (var1 var2 : Int) : Int := wrap32 (wrap32 (var1 * var2) * 2)

/-- Operator `extract_h(x)`, defined as `((Word16)((x)>>16))`. -/
def extract_h (x : Int) : Int := wrap16 (Int.shiftRight x 16)

/-- Operator `extract_l(x)`, defined as `((Word16)(x))`. -/
def extract_l (x : Int) : Int := wrap16 x

/-- Operator `round_fx(L_var1)`, defined as `extract_h(L_var1 + 0x00008000L)`; the
addition is a 32-bit one. -/
def round_fx (L_var1 : Int) : Int := extract_h (wrap32 (L_var1 + 32768))

/-- Operator `mult_r(var1, var2)`, defined as `(((var1)*(var2) + (1<<14)) >> 15)`. -/
def mult_r (var1 var2 : Int) : Int :=
  Int.shiftRight (wrap32 (wrap32 (var1 * var2) + 16384)) 15

/-- Operator `L_mult0(v1, v2)`, defined as `((v1) * (v2))`. -/
def L_mult0 (v1 v2 : Int) : Int := wrap32 (v1 * v2)

/-- Operator `L_mac0(L_v3, v1, v2)`, defined as `((L_v3) + (v1) * (v2))`. -/
def L_mac0 (L_v3 v1 v2 : Int) : Int := wrap32 (L_v3 + wrap32 (v1 * v2))

/-- Operator `L_msu0(L_v3, v1, v2)`, defined as `((L_v3) - (v1) * (v2))`. -/
def L_msu0 (L_v3 v1 v2 : Int) : Int := wrap32 (L_v3 - wrap32 (v1 * v2))

/-! Buffers and loops -/

/-- Checked read `a[i]`: `none` outside the buffer. -/
def rd (a : List Int) (i : Int) : Option Int := if 0 ≤ i then a[i.toNat]? else none

/-- Checked write `a[i] = v`: `none` outside the buffer. -/
def wr (a : List Int) (i : Int) (v : Int) : Option (List Int) :=
  if 0 ≤ i ∧ i < a.length then some (a.set i.toNat v) else none

/-- The iterations of a counting loop: `n` rounds of `body` from counter `i`; the
result carries the final counter. -/
def forLoopAux {σ : Type} (body : Int → σ → Option σ) : Nat → Int → σ → Option (Int × σ)
  | 0, i, st => some (i, st)
  | n + 1, i, st =>
    match body i st with
    | none => none
    | some st1 => forLoopAux body n (i + 1) st1

/-- The loop `FOR (i = i0; i < hi; i++) body`, returning the counter after the loop. -/
def forLoop {σ : Type} (i0 hi : Int) (body : Int → σ → Option σ) (st : σ) :
    Option (Int × σ) :=
  forLoopAux body (hi - i0).toNat i0 st

/-- Loop body `y[idx i] = val i`: the right-hand side is evaluated, then stored. -/
def assign (val : Int → Option Int) (idx : Int → Int) (i : Int) (y : List Int) :
    Option (List Int) :=
  (val i).bind (fun v => wr y (idx i) v)

/-- The call `basop_memmove(dst + d, src + s, n * sizeof(Word16))` between two distinct
buffers: `n` words are copied.  A negative `n`, converted to `size_t`, exceeds
every buffer. -/
def basop_memmove (dst : List Int) (d : Int) (src : List Int) (s : Int) (n : Int) :
    Option (List Int) :=
  if n < 0 then none
  else (forLoop 0 n (assign (fun k => rd src (s + k)) (fun k => d + k)) dst).map Prod.snd

/-- Modelled from the spec: `s_max` has no definition in the sources at hand; it is
the larger of two 16-bit words, the shift `s_max(0, getScaleFactor32(y, N))` being
"at least 0". -/
def s_max (a b : Int) : Int := if a ≥ b then a else b

/-! `processMdct_fx` (`mdct_fx.c`) -/

/-- Right-hand side of `y[m + i] = L_msu0(L_mult0(buf[i], w[i]), buf[2*m-1-i], w[2*m-1-i])`. -/
def foldFirstVal (m : Int) (w buf : List Int) (i : Int) : Option Int := do
  let b0 ← rd buf i
  let w0 ← rd w i
  let b1 ← rd buf (2 * m - 1 - i)
  let w1 ← rd w (2 * m - 1 - i)
  pure (L_msu0 (L_mult0 b0 w0) b1 w1)

/-- Right-hand side of `y[m - 1 - i] = L_mult0(x[2*m - memLen + i], w[2*m + i])`. -/
def foldSingleVal (m memLen : Int) (w x : List Int) (i : Int) : Option Int := do
  let x0 ← rd x (2 * m - memLen + i)
  let w0 ← rd w (2 * m + i)
  pure (L_mult0 x0 w0)

/-- Right-hand side of `y[m - 1 - i] = L_mac0(L_mult0(x[2*m - memLen + i], w[2*m + i]),
x[4*m - memLen - 1 - i], w[4*m - 1 - i])`. -/
def foldPairVal (m memLen : Int) (w x : List Int) (i : Int) : Option Int := do
  let x0 ← rd x (2 * m - memLen + i)
  let w0 ← rd w (2 * m + i)
  let x1 ← rd x (4 * m - memLen - 1 - i)
  let w1 ← rd w (4 * m - 1 - i)
  pure (L_mac0 (L_mult0 x0 w0) x1 w1)

/-- State after the fold loops: the history `mem`, the working buffer `buf` and the
folded values `y` before normalization. -/
structure MdctFolded where
  mem : List Int
  buf : List Int
  y : List Int
deriving DecidableEq, Repr

/-- Lines 61-84 of `mdct_fx.c`: the three block copies and the three fold loops.
`N`, `w`, `wLen`, `memLen` are `frame_length`, `W_fx`, `W_size` and
`stEnc_mdct_mem_len` of the encoder; `y` and `scratch` are the output buffer and the
16-bit view of the scratch buffer with their contents on entry. -/
def mdctFold (N wLen memLen : Int) (w x mem y scratch : List Int) : Option MdctFolded := do
  let z := wrap16 (2 * N - wLen)
  let m := Int.shiftRight N 1
  let buf ← basop_memmove scratch 0 mem 0 memLen
  let buf ← basop_memmove buf memLen x 0 (N - memLen)
  let mem ← basop_memmove mem 0 x (N - memLen) memLen
  let (_, y) ← forLoop 0 m (assign (foldFirstVal m w buf) (fun i => m + i)) y
  let (i, y) ← forLoop 0 z (assign (foldSingleVal m memLen w x) (fun i => m - 1 - i)) y
  let (_, y) ← forLoop i m (assign (foldPairVal m memLen w x) (fun i => m - 1 - i)) y
  pure ⟨mem, buf, y⟩

/-- Collaborators of `processMdct_fx` that the sources at hand only declare or call:
the constant `X_EXP`, the headroom query `getScaleFactor32` and the 32-bit shift
`L_shl`. -/
structure MdctEnv where
  X_EXP : Int
  getScaleFactor32 : List Int → Int → Int
  L_shl : Int → Int → Int

/-- What `processMdct_fx` hands to `dct_IV`: the buffer `y`, the exponent `y_e`;
together with the updated history `mem` and the common shift `s`. -/
structure MdctOut where
  mem : List Int
  y : List Int
  y_e : Int
  s : Int
deriving DecidableEq, Repr

/-- The function `processMdct_fx` of `mdct_fx.c` in the build without
`BTLLC_5MS_MODE`, up to the call of the external kernel `dct_IV`. -/
def processMdct_fx (env : MdctEnv) (N wLen memLen : Int) (w x mem y scratch : List Int) :
    Option MdctOut := do
  let f ← mdctFold N wLen memLen w x mem y scratch
  let s := wrap16 (s_max 0 (env.getScaleFactor32 f.y N))
  let (_, y) ← forLoop 0 N (fun i y => (rd y i).bind (fun v => wr y i (env.L_shl v s))) f.y
  let y_e := wrap16 (env.X_EXP - 2 - s)
  let y_e :=
    if sub N 20 ≤ 0 then wrap16 (add y_e 2)
    else if sub N 120 ≤ 0 then wrap16 (add y_e 1)
    else y_e
  pure ⟨f.mem, y, y_e, s⟩

/-- Geometry under which every access of `processMdct_fx` is inside its buffer:
`N` even, `0 ≤ z = 2N - wLen ≤ N/2`, `N - z ≤ memLen ≤ N`, and buffers of the
configured lengths. -/
def MdctGeom (N wLen memLen : Int) (w x mem y scratch : List Int) : Prop :=
  0 ≤ N ∧ N ≤ 32767 ∧ N % 2 = 0 ∧
  0 ≤ 2 * N - wLen ∧ 2 * N - wLen ≤ N / 2 ∧
  N - (2 * N - wLen) ≤ memLen ∧ memLen ≤ N ∧
  (w.length : Int) = wLen ∧ (x.length : Int) = N ∧ (mem.length : Int) = memLen ∧
  (y.length : Int) = N ∧ N ≤ (scratch.length : Int)

instance (N wLen memLen : Int) (w x mem y scratch : List Int) :
    Decidable (MdctGeom N wLen memLen w x mem y scratch) := by
  unfold MdctGeom; infer_instance

/-- Every entry of the buffer is a 16-bit word. -/
def Words16 (l : List Int) : Prop := ∀ v ∈ l, in16 v

instance (l : List Int) : Decidable (Words16 l) := by unfold Words16; infer_instance

/-- Every entry of the buffer is zero. -/
def AllZero (l : List Int) : Prop := ∀ v ∈ l, v = 0

instance (l : List Int) : Decidable (AllZero l) := by unfold AllZero; infer_instance

/-- Zero-extended read: the entry at index `j`, and `0` outside the buffer. -/
def zext (l : List Int) (j : Int) : Int := (rd l j).getD 0

/-- Reference fold of the second half against the window `W` extended by zeros,
`T[N+i]*W[N+i] + T[2N-1-i]*W[2N-1-i]`, over the integers. -/
def tdacFoldRef (N : Int) (W T : List Int) (i : Int) : Int :=
  zext T (N + i) * zext W (N + i) + zext T (2 * N - 1 - i) * zext W (2 * N - 1 - i)

/-- An instance of the collaborators for concrete evaluations: `X_EXP = 15`, the
headroom query answers `s`, and `L_shl` is the 32-bit left shift. -/
def shiftEnv (s : Int) : MdctEnv :=
  { X_EXP := 15, getScaleFactor32 := fun _ _ => s, L_shl := fun v n => wrap32 (v * 2 ^ n.toNat) }

/-! `processPerBandEnergy_fx` (`per_band_energy_fx.c`) -/

/-- Operator `L_deposit_h(var1)`, defined as `((var1)<<16)`. -/
def L_deposit_h (var1 : Int) : Int := wrap32 (var1 * 65536)

/-- Operator `L_deposit_l(var1)`, defined as `(var1)`. -/
def L_deposit_l (var1 : Int) : Int := var1

/-- Modelled from the spec: `s_min` has no definition in the sources at hand; it is
the smaller of two 16-bit words ("capped at 15", "clamped to at most 31"). -/
def s_min (a b : Int) : Int := if a ≤ b then a else b

/-- Modelled from the spec: `L_min` has no definition in the sources at hand; it is
the smaller of two 32-bit words (the first square is "clamped" to `0x3FFFFFFF`). -/
def L_min (a b : Int) : Int := if a ≤ b then a else b

/-- Collaborators of `processPerBandEnergy_fx` that the sources at hand only declare
or use: the build switch `BTLLC_5MS_MODE`, whether `ASSERT` is compiled in, the
constant `MAX_BW`, the operators `norm_l`, `L_shl`, `L_shr`, `Mpy_32_16` and the
constant tables. -/
structure BandEnv where
  BTLLC_5MS_MODE : Int
  asserts : Bool
  MAX_BW : Int
  norm_l : Int → Int
  L_shl : Int → Int → Int
  L_shr : Int → Int → Int
  Mpy_32_16 : Int → Int → Int
  bands_nrg_scale : List Int
  InvIntTable : List Int
  bands_offset_with_one_max_5ms : List Int
  bands_offset_with_two_max_5ms : List Int
  bands_offset_with_one_max_lin_5ms : List Int
  bands_offset_with_two_max_lin_5ms : List Int

/-- The statement `ASSERT(c)`: it stops the call when assertions are compiled in and
`c` is false, and is empty otherwise. -/
def ASSERT (env : BandEnv) (c : Prop) [Decidable c] : Option Unit :=
  if env.asserts = true ∧ ¬ c then none else some ()

/-- The statement `ASSERT((band_offsets[band + 1] - band_offsets[band]) == width)`;
the table is read only when assertions are compiled in. -/
def assertWidth (env : BandEnv) (band_offsets : List Int) (band width : Int) : Option Unit :=
  if env.asserts = true then do
    let hi ← rd band_offsets (band + 1)
    let lo ← rd band_offsets band
    ASSERT env (wrap32 (hi - lo) = width)
  else some ()

/-- The statements `s = norm_l(d); if (d != 0) s2 = s_min(s2, s);` as the new value of
the `Word16` variable `s2`. -/
def normShift (env : BandEnv) (d s2 : Int) : Int :=
  if d ≠ 0 then wrap16 (s_min s2 (wrap16 (env.norm_l d))) else s2

/-- Lines 95-103 (and, with the same text, 120-128): the normalized square of the
coefficient `d_fx[idx]`, as the pair of the values stored in `d2_fx[band]` and in
`d2_band_fx_exp[band]`. -/
def singleEnergy (env : BandEnv) (d_fx : List Int) (idx : Int) : Option (Int × Int) := do
  let d ← rd d_fx idx
  let s2 := normShift env d 15
  let tmp16 := extract_h (env.L_shl d s2)
  let e ← shl s2 1
  pure (L_mult0 tmp16 tmp16, wrap16 (sub 1 e))

/-- Lines 135-149: the in-bandwidth energy of the width-2 band with coefficients
`d_fx[i]` and `d_fx[i + 1]`. -/
def pairEnergy (env : BandEnv) (d_fx : List Int) (i : Int) : Option (Int × Int) := do
  let d0 ← rd d_fx i
  let s2 := normShift env d0 15
  let d1 ← rd d_fx (i + 1)
  let s2 := normShift env d1 s2
  let tmp16 := extract_h (env.L_shl d0 s2)
  let nrg := L_mult0 tmp16 tmp16
  let nrg := L_min nrg 1073741823
  let tmp16 := extract_h (env.L_shl d1 s2)
  let e ← shl s2 1
  pure (env.L_shr (L_mac0 nrg tmp16 tmp16) 1, wrap16 (sub 1 e))

/-- Lines 111-150: the values stored for a width-2 band, at running index `i`. -/
def widthTwoVal (env : BandEnv) (maxBwBin : Int) (d_fx : List Int) (band i : Int) :
    Option (Int × Int) :=
  if sub (add i 1) maxBwBin ≥ 0 then
    if sub i maxBwBin ≥ 0 then do
      let e ← shl 15 1
      pure (0, wrap16 (sub 1 e))
    else singleEnergy env d_fx band
  else do
    ASSERT env (i + 1 < maxBwBin)
    pairEnergy env d_fx i

/-- Lines 160-176 of the body of the third loop, at running index `i`: the
normalization loop over the coefficients below `stopBand`, the band width with its
assertion and its clamp, and the shift `s2 = sub(s1, bands_nrg_scale[nbands])`.  The
result is `stopBand`, `nbands` and `s2`. -/
def wideShift (env : BandEnv) (maxBwBin : Int) (band_offsets d_fx : List Int) (band i : Int) :
    Option (Int × Int × Int) := do
  let hi ← rd band_offsets (band + 1)
  let stopBand := wrap16 (s_min hi maxBwBin)
  let (_, s1) ← forLoop i stopBand
    (fun k s1 => (rd d_fx k).map (fun d => normShift env d s1)) 15
  let lo ← rd band_offsets band
  let nbands := wrap16 (sub hi lo)
  ASSERT env (nbands < 32)
  let nbands := wrap16 (s_min (s_max 0 nbands) 31)
  let c ← rd env.bands_nrg_scale nbands
  pure (stopBand, nbands, wrap16 (sub s1 c))

/-- Lines 181-185: the accumulation loop `FOR (; i < stopBand; i++)` with the shift
`s2`, from the running index `i` and the accumulator `nrg`.  The result is the index
and the accumulator after the loop. -/
def wideAccum (env : BandEnv) (d_fx : List Int) (s2 i stopBand nrg : Int) :
    Option (Int × Int) :=
  forLoop i stopBand
    (fun i nrg => (rd d_fx i).map (fun d =>
      L_mac0 nrg (extract_h (env.L_shl d s2)) (extract_h (env.L_shl d s2)))) nrg

/-- Lines 159-193: the values stored for a band of the third regime, at running
index `i`: the shift (`wideShift`), `nrg = 0` and the accumulation loop (`wideAccum`),
the mean and its normalization. -/
def wideVal (env : BandEnv) (maxBwBin : Int) (band_offsets d_fx : List Int) (band i : Int) :
    Option (Int × Int) := do
  let (stopBand, nbands, s2) ← wideShift env maxBwBin band_offsets d_fx band i
  let (_, nrg) ← wideAccum env d_fx s2 i stopBand 0
  let r ← rd env.InvIntTable nbands
  let nrg := env.Mpy_32_16 nrg r
  let s := wrap16 (env.norm_l nrg)
  let e2 ← shl s2 1
  pure (env.L_shl nrg s, wrap16 (sub 1 (add e2 s)))

/-- Body of the width-1 loop (lines 92-103) as a step from the running index `i` to
the new running index and the two stored values; the loop does not touch `i`. -/
def widthOneStep (env : BandEnv) (maxBwBin : Int) (band_offsets d_fx : List Int)
    (band i : Int) : Option (Int × Int × Int) := do
  assertWidth env band_offsets band 1
  ASSERT env (band < maxBwBin)
  let (v, e) ← singleEnergy env d_fx band
  pure (i, v, e)

/-- Body of the width-2 loop (lines 110-151), ending with `i = add(i, 2)`. -/
def widthTwoStep (env : BandEnv) (maxBwBin : Int) (band_offsets d_fx : List Int)
    (band i : Int) : Option (Int × Int × Int) := do
  assertWidth env band_offsets band 2
  let (v, e) ← widthTwoVal env maxBwBin d_fx band i
  pure (add i 2, v, e)

/-- Body of the loop over the bands of the third regime (lines 158-193), with
`i = band_offsets[band + 1]`. -/
def wideStep (env : BandEnv) (maxBwBin : Int) (band_offsets d_fx : List Int)
    (band i : Int) : Option (Int × Int × Int) := do
  let (v, e) ← wideVal env maxBwBin band_offsets d_fx band i
  let hi ← rd band_offsets (band + 1)
  pure (hi, v, e)

/-- State of the band loops: the running coefficient index `i`, the energies
`d2_fx` and the per-band exponents `d2_band_fx_exp`. -/
structure BandState where
  i : Int
  d2_fx : List Int
  d2_band_fx_exp : List Int
deriving DecidableEq, Repr

/-- One round of a band loop: the step is taken, then `d2_fx[band]` and
`d2_band_fx_exp[band]` are stored. -/
def bandBody (step : Int → Int → Option (Int × Int × Int)) (band : Int) (st : BandState) :
    Option BandState := do
  let (i1, v, e) ← step band st.i
  let d2 ← wr st.d2_fx band v
  let ex ← wr st.d2_band_fx_exp band e
  pure ⟨i1, d2, ex⟩

/-- Lines 90-194: the three band loops, for given `maxBwBin`, `bandsOffsetOne` and
`bandsOffsetTwo`; `d2` and `ex` are the output buffer and the exponent view of the
scratch buffer on entry. -/
def bandLoops (env : BandEnv) (maxBwBin bandsOffsetOne bandsOffsetTwo n_bands : Int)
    (d_fx band_offsets d2 ex : List Int) : Option BandState := do
  let (band, st) ← forLoop 0 bandsOffsetOne
    (bandBody (widthOneStep env maxBwBin band_offsets d_fx)) ⟨0, d2, ex⟩
  let st : BandState := ⟨bandsOffsetOne, st.d2_fx, st.d2_band_fx_exp⟩
  let (band, st) ← forLoop band bandsOffsetTwo
    (bandBody (widthTwoStep env maxBwBin band_offsets d_fx)) st
  let (_, st) ← forLoop band n_bands
    (bandBody (wideStep env maxBwBin band_offsets d_fx)) st
  pure st

/-- Result of `processPerBandEnergy_fx`: the rescaled energies `d2_fx` and the shared
exponent `d2_fx_exp`; together with the per-band exponents, the energies before the
rescale (`pre`) and `smax`. -/
structure BandOut where
  d2_fx : List Int
  d2_fx_exp : Int
  d2_band_fx_exp : List Int
  pre : List Int
  smax : Int
deriving DecidableEq, Repr

/-- Lines 90-208 of `per_band_energy_fx.c`: the band loops, the maximum exponent, the
rescale and the shared exponent, for given `maxBwBin`, `bandsOffsetOne` and
`bandsOffsetTwo`. -/
def perBandEnergyFrom (env : BandEnv) (maxBwBin bandsOffsetOne bandsOffsetTwo n_bands : Int)
    (d_fx : List Int) (d_fx_exp : Int) (band_offsets d2 ex : List Int) : Option BandOut := do
  let st ← bandLoops env maxBwBin bandsOffsetOne bandsOffsetTwo n_bands d_fx band_offsets d2 ex
  let (_, smax) ← forLoop 0 n_bands
    (fun band smax => (rd st.d2_band_fx_exp band).map (fun e => wrap16 (s_max smax e))) (-31)
  let (_, out) ← forLoop 0 n_bands
    (fun band d2 => (rd d2 band).bind (fun v => (rd st.d2_band_fx_exp band).bind (fun e =>
      wr d2 band (env.L_shr v (s_min (sub smax e) 31))))) st.d2_fx
  let e2 ← shl d_fx_exp 1
  pure ⟨out, wrap16 (add e2 smax), st.d2_band_fx_exp, st.d2_fx, smax⟩

/-- The locals set up in lines 38-84: `maxBwBin` and the two band counts, which stay
unassigned (`none`) on the paths that do not write them. -/
structure BandCfg where
  maxBwBin : Int
  bandsOffsetOne : Option Int
  bandsOffsetTwo : Option Int
deriving DecidableEq, Repr

/-- Lines 38-84: the set-up of `maxBwBin`, `bandsOffsetOne` and `bandsOffsetTwo` from
the build switch, `frame_dms`, `linear` and `fs_idx`. -/
def bandSetup (env : BandEnv) (fs_idx linear frame_dms : Int) : Option BandCfg :=
  if env.BTLLC_5MS_MODE ≠ 0 then
    if linear ≠ 0 then some ⟨wrap16 (Int.shiftRight env.MAX_BW 1), some 0, some 0⟩
    else some ⟨wrap16 (Int.shiftRight env.MAX_BW 1), some 21, some 29⟩
  else do
    let c1 : BandCfg ←
      if frame_dms = 50 then do
        let a ← rd env.bands_offset_with_one_max_5ms fs_idx
        let b ← rd env.bands_offset_with_two_max_5ms fs_idx
        pure ⟨wrap16 (Int.shiftRight env.MAX_BW 1), some a, some b⟩
      else pure ⟨wrap16 env.MAX_BW, none, none⟩
    if sub linear 1 = 0 then
      if frame_dms = 50 then do
        let a ← rd env.bands_offset_with_one_max_lin_5ms fs_idx
        let b ← rd env.bands_offset_with_two_max_lin_5ms fs_idx
        pure ⟨c1.maxBwBin, some a, some b⟩
      else pure c1
    else pure c1

/-- The function `processPerBandEnergy_fx`.  With `BTLLC_5MS_MODE == 2` the width-1
and width-2 loops are replaced by `band = 0; i = 0`, which is their run with both band
counts `0`; otherwise the band counts are read, and reading an unassigned one stops
the call. -/
def processPerBandEnergy_fx (env : BandEnv) (d2_fx ex d_fx : List Int) (d_fx_exp : Int)
    (band_offsets : List Int) (fs_idx n_bands linear frame_dms : Int) : Option BandOut := do
  let cfg ← bandSetup env fs_idx linear frame_dms
  if env.BTLLC_5MS_MODE = 2 then
    perBandEnergyFrom env cfg.maxBwBin 0 0 n_bands d_fx d_fx_exp band_offsets d2_fx ex
  else do
    let b1 ← cfg.bandsOffsetOne
    let b2 ← cfg.bandsOffsetTwo
    perBandEnergyFrom env cfg.maxBwBin b1 b2 n_bands d_fx d_fx_exp band_offsets d2_fx ex

/-- Geometry of a call of the band loops: the band counts are ordered, the buffers
have the configured lengths, every band offset is an index into the coefficient
buffer, the first `bandsOffsetOne` bands have width 1 and the next ones up to
`bandsOffsetTwo` width 2 from offset 0 (the asserted layout), the width-1 bands lie
below `maxBwBin` when assertions are compiled in (`ASSERT(band < maxBwBin)`), the
remaining bands have a width in `0..31` (asserted), and the two constant tables have
32 entries. -/
def BandGeom (env : BandEnv) (maxBwBin b1 b2 n : Int) (d_fx bo d2 ex : List Int) : Prop :=
  0 ≤ b1 ∧ b1 ≤ b2 ∧ b2 ≤ n ∧
  (bo.length : Int) = n + 1 ∧ (d2.length : Int) = n ∧ n ≤ (ex.length : Int) ∧
  in16 maxBwBin ∧ (env.asserts = true → b1 ≤ maxBwBin) ∧
  (∀ k : Nat, k < bo.length →
    0 ≤ zext bo (k : Int) ∧ zext bo (k : Int) ≤ (d_fx.length : Int) ∧
      zext bo (k : Int) ≤ 32767) ∧
  (∀ k : Nat, k < bo.length → (k : Int) ≤ b1 → zext bo (k : Int) = (k : Int)) ∧
  (∀ k : Nat, k < bo.length → b1 ≤ (k : Int) → (k : Int) ≤ b2 →
    zext bo (k : Int) = b1 + 2 * ((k : Int) - b1)) ∧
  (∀ k : Nat, k < bo.length → k + 1 < bo.length → b2 ≤ (k : Int) →
    zext bo (k : Int) ≤ zext bo ((k : Int) + 1) ∧
      zext bo ((k : Int) + 1) - zext bo (k : Int) < 32) ∧
  env.bands_nrg_scale.length = 32 ∧ env.InvIntTable.length = 32

instance (env : BandEnv) (maxBwBin b1 b2 n : Int) (d_fx bo d2 ex : List Int) :
    Decidable (BandGeom env maxBwBin b1 b2 n d_fx bo d2 ex) := by
  unfold BandGeom; infer_instance

/-- Modelled from the spec: `norm_l` is declared in `basop32.h` without a body.  It
returns "the number of left shifts a ... 32-bit value can tolerate before its
magnitude would overflow the representable range", counted among the shifts by
`1..31`, and `0` for `0`. -/
def norm_l (x : Int) : Int :=
  if x = 0 then 0
  else (((List.range 31).filter (fun n => decide (in32 (x * 2 ^ (n + 1))))).length : Int)

/-- Modelled from the spec: `L_shl` is declared in `basop32.h` without a body.  It is
an arithmetic shift of a 32-bit word, "left-shift-by-negative is defined as a right
shift". -/
def L_shl (x n : Int) : Int :=
  if 0 ≤ n then wrap32 (x * 2 ^ n.toNat) else Int.shiftRight x (-n).toNat

/-- Modelled from the spec: `L_shr` is declared in `basop32.h` without a body.  It is
an arithmetic shift of a 32-bit word, the sign of the count flipping the direction. -/
def L_shr (x n : Int) : Int :=
  if 0 ≤ n then Int.shiftRight x n.toNat else wrap32 (x * 2 ^ (-n).toNat)

/-- Modelled from the spec: `Mpy_32_16` has no definition in the sources at hand.  It
is the "fixed-point multiply of a 32-bit operand by a 16-bit operand producing a 32-bit
result", the 16-bit operand being a Q15 fraction: `floor(x*y / 2^15)`. -/
def Mpy_32_16 (x y : Int) : Int := wrap32 (Int.shiftRight (x * y) 15)

/-- An instance of the collaborators for concrete evaluations, with the operators
above, the reciprocal table `InvIntTable[n] = 2^15 / n` (Q15, `0x7FFF` for `n ≤ 1`),
the margins `bands_nrg_scale[n]` = `0`, `1`, `2` for `n ≤ 1`, `n ≤ 7`, `n ≤ 31`, and
band-count tables of one entry. -/
def refBandEnv (mode : Int) (asserts : Bool) (maxBw : Int) : BandEnv :=
  { BTLLC_5MS_MODE := mode
    asserts := asserts
    MAX_BW := maxBw
    norm_l := norm_l
    L_shl := L_shl
    L_shr := L_shr
    Mpy_32_16 := Mpy_32_16
    bands_nrg_scale := (List.range 32).map (fun n => if n ≤ 1 then 0 else if n ≤ 7 then 1 else 2)
    InvIntTable := (List.range 32).map (fun n => if n ≤ 1 then 32767 else ((32768 + n / 2) / n : Nat))
    bands_offset_with_one_max_5ms := [2]
    bands_offset_with_two_max_5ms := [3]
    bands_offset_with_one_max_lin_5ms := [0]
    bands_offset_with_two_max_lin_5ms := [0] }

/-- Sum over the bands of the stored value times `2^(band exponent)`: the energy that
two arrays of band values and band exponents represent, as the claim on the sum of
the band energies words it. -/
def energySum (vals exps : List Int) : ℚ :=
  ((vals.zip exps).map (fun p => (p.1 : ℚ) * 2 ^ p.2)).sum

/-- The pair of values (energy, exponent) that the band loops compute for `band`, by
regime: `singleEnergy` below `bandsOffsetOne`, `widthTwoVal` at the running index
`bandsOffsetOne + 2 (band - bandsOffsetOne)` below `bandsOffsetTwo`, `wideVal` at the
running index `band_offsets[band]` from there on. -/
def bandVal (env : BandEnv) (maxBwBin b1 b2 : Int) (bo d_fx : List Int) (band : Int) :
    Option (Int × Int) :=
  if band < b1 then singleEnergy env d_fx band
  else if band < b2 then widthTwoVal env maxBwBin d_fx band (b1 + 2 * (band - b1))
  else wideVal env maxBwBin bo d_fx band (zext bo band)

/-- The coefficients `d_fx[lo], ..., d_fx[hi - 1]` as a list (none when `hi ≤ lo`). -/
def coeffRange (d_fx : List Int) (lo hi : Int) : List Int :=
  (List.range (hi - lo).toNat).map (fun k : Nat => zext d_fx (lo + (k : Int)))

/-- The headroom of a band in the words of the claim on wide bands: `min(15, min of
norm_l(d) over the nonzero coefficients d)`. -/
def headroomRef (env : BandEnv) (ds : List Int) : Int :=
  ds.foldl (fun s d => if d = 0 then s else min s (env.norm_l d)) 15

/-- The band width clamped to `[0, 31]`, in the words of the claim on wide bands. -/
def wideWidthRef (bo : List Int) (band : Int) : Int :=
  min (max 0 (zext bo (band + 1) - zext bo band)) 31

/-- The coefficients of a wide band that lie below the bandwidth limit: indices
`band_offsets[band] ≤ k < min(band_offsets[band + 1], maxBwBin)`. -/
def wideCoeffsRef (maxBwBin : Int) (bo d_fx : List Int) (band : Int) : List Int :=
  coeffRange d_fx (zext bo band) (min (zext bo (band + 1)) maxBwBin)

/-- The working shift of a wide band in the words of the claim:
`s2 = s1 - bands_nrg_scale[n]` with `s1` the headroom of its coefficients. -/
def wideShiftRef (env : BandEnv) (maxBwBin : Int) (bo d_fx : List Int) (band : Int) : Int :=
  headroomRef env (wideCoeffsRef maxBwBin bo d_fx band) -
    zext env.bands_nrg_scale (wideWidthRef bo band)

/-- The accumulated energy of a wide band in the words of the claim: the sum of
`extract_h(L_shl(d, s2))^2` over its coefficients below the bandwidth limit. -/
def wideSumRef (env : BandEnv) (maxBwBin : Int) (bo d_fx : List Int) (band : Int) : Int :=
  ((wideCoeffsRef maxBwBin bo d_fx band).map (fun d =>
    extract_h (env.L_shl d (wideShiftRef env maxBwBin bo d_fx band)) ^ 2)).sum

/-- The mean energy of a wide band in the words of the claim:
`Mpy_32_16(sum, InvIntTable[n])` over the full width `n`. -/
def wideMeanRef (env : BandEnv) (maxBwBin : Int) (bo d_fx : List Int) (band : Int) : Int :=
  env.Mpy_32_16 (wideSumRef env maxBwBin bo d_fx band)
    (zext env.InvIntTable (wideWidthRef bo band))

/-! `parseCmdl` (`codec_exe.c`) -/

/-- Outcome of a run of the command-line front end: a normal return, `exit(code)`, or a
step that C leaves undefined (reading `av` beyond `av[ac]`, or handing the null pointer
`av[ac]` to `strcmp` or `atoi`).  The text written to the standard output is not part
of the outcome. -/
inductive Run (α : Type) where
  | ret (a : α)
  | exit (code : Int)
  | fault
deriving DecidableEq, Repr

/-- Sequencing of two steps: `exit` and `fault` end the run. -/
def Run.bind {α β : Type} (r : Run α) (f : α → Run β) : Run β :=
  match r with
  | Run.ret a => f a
  | Run.exit c => Run.exit c
  | Run.fault => Run.fault

instance : Monad Run where
  pure := Run.ret
  bind := Run.bind

/-- A `float` field of the front end, kept symbolic: `0` after `memset`, the constant
`10`, or `(float)atof(s)` for an argument `s`. -/
inductive FloatVal where
  | zero
  | ten
  | atof (s : String)
deriving DecidableEq, Repr

/-- The struct `Arguments` of `codec_exe.c`; a `char *` field is `none` when null. -/
structure Arguments where
  inputFilename : Option String
  outputFilename : Option String
  bitrate : Int
  bitrate_file : Option String
  encoder_only : Int
  decoder_only : Int
  bipsOut : Int
  formatG192 : Int
  configFilenameG192 : Option String
  frame_ms : FloatVal
  hide_counter : Int
  verbose : Int
  plcMeth : Int
  epf : Option String
  epmode : Int
  epmode_file : Option String
  edf : Option String
  ept : Int
  hrmode : Int
  dc : Int
  bandwidth : Option String
  channel_coder_vars_file : Option String
deriving DecidableEq, Repr

/-- The struct after `memset(arg, 0, sizeof(*arg))`. -/
def Arguments.cleared : Arguments :=
  { inputFilename := none, outputFilename := none, bitrate := 0, bitrate_file := none,
    encoder_only := 0, decoder_only := 0, bipsOut := 0, formatG192 := 0,
    configFilenameG192 := none, frame_ms := FloatVal.zero, hide_counter := 0, verbose := 0,
    plcMeth := 0, epf := none, epmode := 0, epmode_file := none, edf := none, ept := 0,
    hrmode := 0, dc := 0, bandwidth := none, channel_coder_vars_file := none }

/-- What `parseCmdl` uses and the sources at hand do not define: the constants
`LC3_WARNING` and `LC3_PLC_ADVANCED` of `lc3.h` and the C library function `atoi`. -/
structure CmdEnv where
  LC3_WARNING : Int
  LC3_PLC_ADVANCED : Int
  atoi : String → Int

/-- The C truth value of a condition. -/
def truth (c : Prop) [Decidable c] : Int := if c then 1 else 0

/-- The function `exit_if(condition, message)`: when the condition holds the message is
printed, and the process exits with status 1 if `condition < LC3_WARNING`. -/
def exit_if (env : CmdEnv) (condition : Int) : Run Unit :=
  if condition ≠ 0 then
    if condition < env.LC3_WARNING then Run.exit 1 else Run.ret ()
  else Run.ret ()

/-- The pointer `av[pos]`: the argument at `pos`, the null pointer at the end of the
argument vector, undefined beyond. -/
def ptrAt (av : List String) (pos : Int) : Run (Option String) :=
  if 0 ≤ pos ∧ pos < av.length then Run.ret av[pos.toNat]?
  else if pos = av.length then Run.ret none
  else Run.fault

/-- The string `av[pos]` as handed to `strcmp`, `atoi` or indexed by `[0]`. -/
def strAt (av : List String) (pos : Int) : Run String :=
  if 0 ≤ pos then
    match av[pos.toNat]? with
    | some s => Run.ret s
    | none => Run.fault
  else Run.fault

/-- State of the option loop: the position `pos` and the struct `*arg`. -/
structure ParseState where
  pos : Int
  arg : Arguments
deriving DecidableEq, Repr

/-- An option without value: `if (!strcmp(av[pos], name)) { set }`. -/
def flagOpt (name : String) (set : Arguments → Arguments) (av : List String)
    (st : ParseState) : Run ParseState := do
  let s ← strAt av st.pos
  pure (if s = name then ⟨st.pos, set st.arg⟩ else st)

/-- An option with a value: `if (!strcmp(av[pos], name) && pos + 1 < ac) { ... av[++pos]
... }`, where `set` is what the branch does with the value `av[++pos]`. -/
def valueOpt (name : String) (ac : Int) (av : List String)
    (set : String → Arguments → Run Arguments) (st : ParseState) : Run ParseState := do
  let s ← strAt av st.pos
  if s = name ∧ st.pos + 1 < ac then do
    let v ← strAt av (st.pos + 1)
    let a ← set v st.arg
    pure ⟨st.pos + 1, a⟩
  else pure st

/-- Lines 540-546: the branch of `-bps`. -/
def bpsSet (env : CmdEnv) (v : String) (a : Arguments) : Run Arguments := do
  let b := wrap32 (env.atoi v)
  exit_if env (truth (b ≠ 16 ∧ b ≠ 24 ∧ b ≠ 32))
  pure { a with bipsOut := b }

/-- Lines 547-552: the branch of `-dc`. -/
def dcSet (env : CmdEnv) (v : String) (a : Arguments) : Run Arguments := do
  let d := wrap32 (env.atoi v)
  exit_if env (truth (d < 0 ∨ d > 2))
  pure { a with dc := d }

/-- Lines 570-584: the branch of `-epmode`. -/
def epmodeSet (env : CmdEnv) (v : String) (a : Arguments) : Run Arguments := do
  let e := wrap32 (env.atoi v)
  exit_if env (truth (e % 4294967296 > 5))
  pure (if e = 0 ∧ v ≠ "0" then { a with epmode := 1, epmode_file := some v }
    else { a with epmode := e })

/-- Lines 495-597: one round of the option loop, the tests in the order of the source;
a branch that consumes a value moves `pos`, and the tests after it see the new
`av[pos]`. -/
def optionBody (env : CmdEnv) (ac : Int) (av : List String) (st : ParseState) :
    Run ParseState := do
  let s ← strAt av st.pos
  let st ← (if s = "-h" then Run.exit 0 else Run.ret st)
  let st ← flagOpt "-q" (fun a => { a with hide_counter := 1 }) av st
  let st ← flagOpt "-v" (fun a => { a with verbose := 1 }) av st
  let st ← flagOpt "-E" (fun a => { a with encoder_only := 1 }) av st
  let st ← flagOpt "-D" (fun a => { a with decoder_only := 1 }) av st
  let st ← flagOpt "-formatG192" (fun a => { a with formatG192 := 1 }) av st
  let st ← valueOpt "-cfgG192" ac av
    (fun v a => Run.ret { a with configFilenameG192 := some v }) st
  let st ← valueOpt "-epf" ac av (fun v a => Run.ret { a with epf := some v }) st
  let st ← flagOpt "-ept" (fun a => { a with ept := 1 }) av st
  let st ← valueOpt "-bps" ac av (bpsSet env) st
  let st ← valueOpt "-dc" ac av (dcSet env) st
  let st ← valueOpt "-bandwidth" ac av (fun v a => Run.ret { a with bandwidth := some v }) st
  let st ← valueOpt "-frame_ms" ac av
    (fun v a => Run.ret { a with frame_ms := FloatVal.atof v }) st
  let st ← valueOpt "-swf" ac av (fun v a => Run.ret { a with bitrate_file := some v }) st
  let st ← valueOpt "-epmode" ac av (epmodeSet env) st
  let st ← valueOpt "-edf" ac av (fun v a => Run.ret { a with edf := some v }) st
  valueOpt "-ep_dbg" ac av
    (fun v a => Run.ret { a with channel_coder_vars_file := some v }) st

/-- The loop `for (; pos < ac && av[pos][0] == '-'; pos++)`.  Each round moves `pos`
forward, so `ac - pos` rounds are enough: with that many rounds left to spend the loop
ends by its own test. -/
def optionLoop (env : CmdEnv) (ac : Int) (av : List String) : Nat → ParseState →
    Run ParseState
  | 0, st => Run.ret st
  | fuel + 1, st =>
    if st.pos < ac then do
      let s ← strAt av st.pos
      if s.data.head? = some '-' then do
        let st1 ← optionBody env ac av st
        optionLoop env ac av fuel ⟨st1.pos + 1, st1.arg⟩
      else Run.ret st
    else Run.ret st

/-- The function `parseCmdl(ac, av, arg)`, returning the struct it fills; `ac` is the
number of entries of `av`. -/
def parseCmdl (env : CmdEnv) (ac : Int) (av : List String) : Run Arguments := do
  let arg : Arguments :=
    { Arguments.cleared with
      bipsOut := 16, frame_ms := FloatVal.ten, dc := 0, plcMeth := env.LC3_PLC_ADVANCED }
  exit_if env (truth (ac ≤ 1))
  let st ← optionLoop env ac av (ac - 1).toNat ⟨1, arg⟩
  exit_if env (truth (st.arg.encoder_only ≠ 0 ∧ st.arg.decoder_only ≠ 0))
  exit_if env (truth (st.arg.ept ≠ 0 ∧ (st.arg.epf = none ∧ st.arg.encoder_only ≠ 0)))
  exit_if env (truth (st.pos + 1 ≥ ac))
  let inF ← ptrAt av st.pos
  let outF ← ptrAt av (st.pos + 1)
  let arg : Arguments := { st.arg with inputFilename := inF, outputFilename := outF }
  if arg.decoder_only = 0 then do
    exit_if env (truth (st.pos + 2 ≥ ac))
    let s ← strAt av (st.pos + 2)
    let br := wrap32 (env.atoi s)
    if br = 0 then Run.ret { arg with bitrate := 64000, bitrate_file := some s }
    else Run.ret { arg with bitrate := br }
  else Run.ret arg

/-- The decimal value of a run of digits, continuing from `acc`; it ends at the first
character that is no digit. -/
def atoiDigits : List Char → Int → Int
  | [], acc => acc
  | c :: cs, acc =>
    if 48 ≤ c.toNat ∧ c.toNat ≤ 57 then atoiDigits cs (acc * 10 + ((c.toNat : Int) - 48))
    else acc

/-- Modelled from the spec: `atoi` is a function of the C library, not of the sources
at hand; it skips leading blanks, reads an optional sign and the decimal digits that
follow, and yields `0` when there are none. -/
def atoiRef (s : String) : Int :=
  match s.data.dropWhile (fun c => c = ' ') with
  | '-' :: r => -atoiDigits r 0
  | '+' :: r => atoiDigits r 0
  | r => atoiDigits r 0

/-- An instance of the collaborators for concrete evaluations: `LC3_WARNING = 16` (its
place in the table `ERROR_MESSAGE`), `LC3_PLC_ADVANCED = 1` and the reference `atoi`. -/
def refCmdEnv : CmdEnv :=
  { LC3_WARNING := 16, LC3_PLC_ADVANCED := 1, atoi := atoiRef }

/-! `saturate` and `div_s` (`basop32.h`) -/

/-- Modelled from the spec: `saturate` is defined by an intrinsic
(`__nds32__clips(x, 15)`) or by the function `saturate_c`, neither of which is in the
sources at hand; it is to "clip a 32-bit value into the 16-bit signed range". -/
def saturate (x : Int) : Int :=
  if x > MAX_16 then MAX_16 else if x < MIN_16 then MIN_16 else x

/-- Operator `div_s(a, b)`, defined as `saturate(((a)<<15) / (b))`: the C `int`
division, which truncates toward zero and has no value for a zero divisor or for
`INT_MIN / -1`. -/
def div_s (a b : Int) : Option Int := do
  let n ← shl a 15
  if b = 0 ∨ (n = MIN_32 ∧ b = -1) then none
  else pure (saturate (wrap32 (Int.tdiv n b)))

/-- Round `i` of the fold loop number `k` (1, 2, 3 in the order of lines 70-84 of
`mdct_fx.c`) stores into `y[j]`: the loop bounds and the store indices `m + i`,
`m - 1 - i`, `m - 1 - i` of the three loops, with `z` and `m` as in `mdctFold`. -/
def foldStores (N wLen : Int) (k i j : Int) : Prop :=
  (k = 1 ∧ 0 ≤ i ∧ i < Int.shiftRight N 1 ∧ Int.shiftRight N 1 + i = j) ∨
  (k = 2 ∧ 0 ≤ i ∧ i < wrap16 (2 * N - wLen) ∧ Int.shiftRight N 1 - 1 - i = j) ∨
  (k = 3 ∧ wrap16 (2 * N - wLen) ≤ i ∧ i < Int.shiftRight N 1 ∧
    Int.shiftRight N 1 - 1 - i = j)

/-! `write_bitstream_frame` and `read_bitstream_frame` (`codec_exe.c`) -/

/-- The two bytes of a `uint16_t` as `fwrite` puts them into the file: the bytes of
the object in memory, in the byte order of the machine (`le` for little endian). -/
def u16Bytes (le : Bool) (v : Int) : List Int :=
  if le then [v % 256, v / 256 % 256] else [v / 256 % 256, v % 256]

/-- The `uint16_t` that `fread` assembles from two bytes of the file, in the byte order
of the machine. -/
def u16OfBytes (le : Bool) (b0 b1 : Int) : Int :=
  if le then b0 + 256 * b1 else 256 * b0 + b1

/-- The function `write_bitstream_frame(bitstream_file, bytes, size)`.  The file is the
list of the bytes written so far; `fwrite` and `putc` append to it (a write that fails
is not modelled).  The result is the file after the call. -/
def write_bitstream_frame (le : Bool) (file bytes : List Int) (size : Int) :
    Option (List Int) := do
  let nbytes := size % 65536
  let file := file ++ u16Bytes le nbytes
  let (_, file) ← forLoop 0 size (fun i f => (rd bytes i).map (fun b => f ++ [b % 256])) file
  pure file

/-- The function `read_bitstream_frame(bitstream_file, bytes, size)`.  The stream is
the list of the bytes of the file from the read position on.  The result is the
returned `int`, the buffer `bytes` and the stream after the call.  `fread` fails when
fewer than two bytes are left (what is left is consumed); `getc` at the end of the file
yields `EOF`, stored into a `uint8_t` as `255`. -/
def read_bitstream_frame (le : Bool) (stream bytes : List Int) (size : Int) :
    Option (Int × List Int × List Int) :=
  match stream with
  | b0 :: b1 :: rest => do
    let nbytes := u16OfBytes le b0 b1
    let (_, st) ← forLoop 0 (min nbytes size)
      (fun i (st : List Int × List Int) =>
        match st.2 with
        | [] => (wr st.1 i 255).map (fun b => (b, []))
        | c :: t => (wr st.1 i c).map (fun b => (b, t)))
      (bytes, rest)
    pure (nbytes, st.1, st.2)
  | _ => some (-1, bytes, [])

/-! Word arithmetic lemmas -/

theorem wrap32_of_in32 {v : Int} (h : in32 v) : wrap32 v = v := by
  unfold in32 MIN_32 MAX_32 at h
  unfold wrap32
  omega

theorem wrap16_of_in16 {v : Int} (h : in16 v) : wrap16 v = v := by
  unfold in16 MIN_16 MAX_16 at h
  unfold wrap16
  omega

theorem in16_wrap16 (v : Int) : in16 (wrap16 v) := by
  unfold in16 MIN_16 MAX_16 wrap16
  omega

theorem in32_wrap32 (v : Int) : in32 (wrap32 v) := by
  unfold in32 MIN_32 MAX_32 wrap32
  omega

/-- The product of two 16-bit words lies in `[-2^30 + 2^15, 2^30]`. -/
theorem mul16_bounds {a b : Int} (ha : in16 a) (hb : in16 b) :
    -1073709056 ≤ a * b ∧ a * b ≤ 1073741824 := by
  unfold in16 MIN_16 MAX_16 at ha hb
  obtain ⟨ha1, ha2⟩ := ha
  obtain ⟨hb1, hb2⟩ := hb
  constructor
  · nlinarith [mul_nonneg (sub_nonneg.mpr ha1) (sub_nonneg.mpr hb2),
      mul_nonneg (sub_nonneg.mpr ha2) (sub_nonneg.mpr hb1)]
  · nlinarith [mul_nonneg (sub_nonneg.mpr ha1) (sub_nonneg.mpr hb1),
      mul_nonneg (sub_nonneg.mpr ha2) (sub_nonneg.mpr hb2)]

/-- Away from the corner `(-32768, -32768)` the product is at most `2^30 - 2^15`. -/
theorem mul16_le_of_not_corner {a b : Int} (ha : in16 a) (hb : in16 b)
    (hc : ¬ (a = -32768 ∧ b = -32768)) : a * b ≤ 1073709056 := by
  unfold in16 MIN_16 MAX_16 at ha hb
  obtain ⟨ha1, ha2⟩ := ha
  obtain ⟨hb1, hb2⟩ := hb
  by_cases h : a = -32768
  · have hb3 : -32767 ≤ b := by
      by_contra hlt
      exact hc ⟨h, by omega⟩
    subst h
    nlinarith
  · have ha3 : -32767 ≤ a := by omega
    nlinarith [mul_nonneg (sub_nonneg.mpr ha2) (sub_nonneg.mpr hb1),
      mul_nonneg (sub_nonneg.mpr ha3) (sub_nonneg.mpr hb2)]

theorem mul16_in32 {a b : Int} (ha : in16 a) (hb : in16 b) : in32 (a * b) := by
  have h := mul16_bounds ha hb
  unfold in32 MIN_32 MAX_32
  omega

/-- The arithmetic right shift is the floor division by a power of two. -/
theorem shiftRight_eq_div (v : Int) (n : Nat) : Int.shiftRight v n = v / 2 ^ n := by
  have h := Int.shiftRight_eq_div_pow v n
  push_cast at h
  exact h

/-- The rational floor of a quotient by a power of two is the arithmetic right shift. -/
theorem floor_div_two_pow (v : Int) (n : Nat) :
    ⌊(v : ℚ) / 2 ^ n⌋ = Int.shiftRight v n := by
  rw [shiftRight_eq_div]
  have h := Rat.floor_intCast_div_natCast v (2 ^ n)
  push_cast at h
  exact h

/-! Buffer and loop lemmas -/

theorem wr_some {a : List Int} {i : Int} (v : Int) (h0 : 0 ≤ i) (h1 : i < a.length) :
    wr a i v = some (a.set i.toNat v) := by
  unfold wr
  rw [if_pos ⟨h0, h1⟩]

theorem rd_set_same {a : List Int} {i : Int} (v : Int) (h0 : 0 ≤ i) (h1 : i < a.length) :
    rd (a.set i.toNat v) i = some v := by
  unfold rd
  rw [if_pos h0]
  have : i.toNat < a.length := by omega
  simp [this]

theorem rd_set_other (a : List Int) {i j : Int} (v : Int) (h0 : 0 ≤ i) (hne : j ≠ i) :
    rd (a.set i.toNat v) j = rd a j := by
  unfold rd
  by_cases hj : 0 ≤ j
  · rw [if_pos hj, if_pos hj]
    have : i.toNat ≠ j.toNat := by omega
    simp [this]
  · rw [if_neg hj, if_neg hj]

theorem rd_isSome {a : List Int} {i : Int} (h0 : 0 ≤ i) (h1 : i < a.length) :
    ∃ v, rd a i = some v := by
  unfold rd
  rw [if_pos h0]
  have : i.toNat < a.length := by omega
  exact ⟨a[i.toNat], by simp [this]⟩

theorem forLoopAux_assign (val : Int → Option Int) (idx : Int → Int) (f : Int → Int) :
    ∀ (n : Nat) (i0 : Int) (y0 : List Int),
      (∀ k : Nat, k < n → val (i0 + k) = some (f (i0 + k))) →
      (∀ k : Nat, k < n → 0 ≤ idx (i0 + k) ∧ idx (i0 + k) < y0.length) →
      (∀ k l : Nat, k < n → l < n → idx (i0 + k) = idx (i0 + l) → k = l) →
      ∃ y, forLoopAux (assign val idx) n i0 y0 = some (i0 + n, y) ∧
        y.length = y0.length ∧
        (∀ k : Nat, k < n → rd y (idx (i0 + k)) = some (f (i0 + k))) ∧
        (∀ j : Int, (∀ k : Nat, k < n → idx (i0 + k) ≠ j) → rd y j = rd y0 j) := by
  intro n
  induction n with
  | zero =>
    intro i0 y0 _ _ _
    refine ⟨y0, by simp [forLoopAux], rfl, ?_, ?_⟩
    · intro k hk
      omega
    · intro j _
      rfl
  | succ n ih =>
    intro i0 y0 hval hidx hinj
    have hv0 : val i0 = some (f i0) := by simpa using hval 0 (Nat.succ_pos n)
    have hi0 : 0 ≤ idx i0 ∧ idx i0 < y0.length := by simpa using hidx 0 (Nat.succ_pos n)
    have hstep : assign val idx i0 y0 = some (y0.set (idx i0).toNat (f i0)) := by
      unfold assign
      rw [hv0]
      exact wr_some (f i0) hi0.1 hi0.2
    have hshift : ∀ k : Nat, i0 + 1 + (k : Int) = i0 + ((k + 1 : Nat) : Int) := by
      intro k
      push_cast
      ring
    obtain ⟨y, hy, hlen, hin, hout⟩ := ih (i0 + 1) (y0.set (idx i0).toNat (f i0))
      (by
        intro k hk
        rw [hshift k]
        exact hval (k + 1) (Nat.succ_lt_succ hk))
      (by
        intro k hk
        rw [hshift k, List.length_set]
        exact hidx (k + 1) (Nat.succ_lt_succ hk))
      (by
        intro k l hk hl h
        rw [hshift k, hshift l] at h
        have := hinj (k + 1) (l + 1) (Nat.succ_lt_succ hk) (Nat.succ_lt_succ hl) h
        omega)
    refine ⟨y, ?_, ?_, ?_, ?_⟩
    · simp only [forLoopAux, hstep]
      rw [hy]
      congr 2
      push_cast
      ring
    · rw [hlen, List.length_set]
    · intro k hk
      cases k with
      | zero =>
        have h1 : rd y (idx i0) = rd (y0.set (idx i0).toNat (f i0)) (idx i0) := by
          apply hout
          intro l hl h
          rw [hshift l] at h
          have := hinj (l + 1) 0 (Nat.succ_lt_succ hl) (Nat.succ_pos n) (by simpa using h)
          omega
        simp only [Nat.cast_zero, add_zero]
        rw [h1]
        exact rd_set_same (f i0) hi0.1 hi0.2
      | succ k =>
        rw [← hshift k]
        exact hin k (Nat.lt_of_succ_lt_succ hk)
    · intro j hj
      have h1 : rd y j = rd (y0.set (idx i0).toNat (f i0)) j := by
        apply hout
        intro l hl
        rw [hshift l]
        exact hj (l + 1) (Nat.succ_lt_succ hl)
      rw [h1]
      apply rd_set_other y0 (f i0) hi0.1
      have := hj 0 (Nat.succ_pos n)
      simp only [Nat.cast_zero, add_zero] at this
      exact fun h => this h.symm

theorem forLoop_assign (val : Int → Option Int) (idx : Int → Int) (f : Int → Int)
    (i0 hi : Int) (y0 : List Int) (hle : i0 ≤ hi)
    (hval : ∀ i, i0 ≤ i → i < hi → val i = some (f i))
    (hidx : ∀ i, i0 ≤ i → i < hi → 0 ≤ idx i ∧ idx i < y0.length)
    (hinj : ∀ i j, i0 ≤ i → i < hi → i0 ≤ j → j < hi → idx i = idx j → i = j) :
    ∃ y, forLoop i0 hi (assign val idx) y0 = some (hi, y) ∧
      y.length = y0.length ∧
      (∀ i, i0 ≤ i → i < hi → rd y (idx i) = some (f i)) ∧
      (∀ j, (∀ i, i0 ≤ i → i < hi → idx i ≠ j) → rd y j = rd y0 j) := by
  obtain ⟨y, hy, hlen, hin, hout⟩ := forLoopAux_assign val idx f (hi - i0).toNat i0 y0
    (fun k hk => hval _ (by omega) (by omega))
    (fun k hk => hidx _ (by omega) (by omega))
    (fun k l hk hl h => by
      have := hinj _ _ (by omega) (by omega) (by omega) (by omega) h
      omega)
  refine ⟨y, ?_, hlen, ?_, ?_⟩
  · unfold forLoop
    rw [hy]
    congr 2
    omega
  · intro i h1 h2
    have := hin (i - i0).toNat (by omega)
    have he : i0 + ((i - i0).toNat : Int) = i := by omega
    rw [he] at this
    exact this
  · intro j hj
    apply hout
    intro k hk
    exact hj _ (by omega) (by omega)

theorem basop_memmove_spec (dst : List Int) (d : Int) (src : List Int) (s n : Int)
    (hn : 0 ≤ n) (hd : 0 ≤ d) (hdl : d + n ≤ dst.length) (hs : 0 ≤ s)
    (hsl : s + n ≤ src.length) :
    ∃ r, basop_memmove dst d src s n = some r ∧ r.length = dst.length ∧
      (∀ k, 0 ≤ k → k < n → rd r (d + k) = rd src (s + k)) ∧
      (∀ j, j < d ∨ d + n ≤ j → rd r j = rd dst j) := by
  have hval : ∀ k, 0 ≤ k → k < n →
      rd src (s + k) = some ((rd src (s + k)).getD 0) := by
    intro k h0 h1
    obtain ⟨v, hv⟩ := rd_isSome (a := src) (i := s + k) (by omega) (by omega)
    rw [hv]
    rfl
  obtain ⟨r, hr, hlen, hin, hout⟩ := forLoop_assign (fun k => rd src (s + k))
    (fun k => d + k) (fun k => (rd src (s + k)).getD 0) 0 n dst hn hval
    (fun k h0 h1 => by dsimp only; omega) (fun i j _ _ _ _ h => by dsimp only at h; omega)
  refine ⟨r, ?_, hlen, ?_, ?_⟩
  · unfold basop_memmove
    rw [if_neg (by omega), hr]
    rfl
  · intro k h0 h1
    rw [hin k h0 h1]
    exact (hval k h0 h1).symm
  · intro j hj
    apply hout
    intro i h0 h1
    dsimp only
    omega

/-! The fold stage -/

theorem some_getD_of_isSome {o : Option Int} (h : ∃ v, o = some v) : o = some (o.getD 0) := by
  obtain ⟨v, hv⟩ := h
  rw [hv]
  rfl

theorem foldFirstVal_eq {m : Int} {w buf : List Int} {i a b c d : Int}
    (ha : rd buf i = some a) (hb : rd w i = some b) (hc : rd buf (2 * m - 1 - i) = some c)
    (hd : rd w (2 * m - 1 - i) = some d) :
    foldFirstVal m w buf i = some (L_msu0 (L_mult0 a b) c d) := by
  simp [foldFirstVal, ha, hb, hc, hd]

theorem foldSingleVal_eq {m memLen : Int} {w x : List Int} {i a b : Int}
    (ha : rd x (2 * m - memLen + i) = some a) (hb : rd w (2 * m + i) = some b) :
    foldSingleVal m memLen w x i = some (L_mult0 a b) := by
  simp [foldSingleVal, ha, hb]

theorem foldPairVal_eq {m memLen : Int} {w x : List Int} {i a b c d : Int}
    (ha : rd x (2 * m - memLen + i) = some a) (hb : rd w (2 * m + i) = some b)
    (hc : rd x (4 * m - memLen - 1 - i) = some c) (hd : rd w (4 * m - 1 - i) = some d) :
    foldPairVal m memLen w x i = some (L_mac0 (L_mult0 a b) c d) := by
  simp [foldPairVal, ha, hb, hc, hd]

theorem foldFirstVal_isSome {m : Int} {w buf : List Int} {i : Int}
    (h1 : 0 ≤ i) (h2 : 0 ≤ 2 * m - 1 - i) (hb1 : i < buf.length)
    (hb2 : 2 * m - 1 - i < buf.length) (hw1 : i < w.length)
    (hw2 : 2 * m - 1 - i < w.length) : ∃ v, foldFirstVal m w buf i = some v := by
  obtain ⟨a, ha⟩ := rd_isSome (a := buf) h1 hb1
  obtain ⟨b, hb⟩ := rd_isSome (a := w) h1 hw1
  obtain ⟨c, hc⟩ := rd_isSome (a := buf) h2 hb2
  obtain ⟨d, hd⟩ := rd_isSome (a := w) h2 hw2
  exact ⟨_, foldFirstVal_eq ha hb hc hd⟩

theorem foldSingleVal_isSome {m memLen : Int} {w x : List Int} {i : Int}
    (h1 : 0 ≤ 2 * m - memLen + i) (h2 : 2 * m - memLen + i < x.length)
    (h3 : 0 ≤ 2 * m + i) (h4 : 2 * m + i < w.length) :
    ∃ v, foldSingleVal m memLen w x i = some v := by
  obtain ⟨a, ha⟩ := rd_isSome (a := x) h1 h2
  obtain ⟨b, hb⟩ := rd_isSome (a := w) h3 h4
  exact ⟨_, foldSingleVal_eq ha hb⟩

theorem foldPairVal_isSome {m memLen : Int} {w x : List Int} {i : Int}
    (h1 : 0 ≤ 2 * m - memLen + i) (h2 : 2 * m - memLen + i < x.length)
    (h3 : 0 ≤ 2 * m + i) (h4 : 2 * m + i < w.length)
    (h5 : 0 ≤ 4 * m - memLen - 1 - i) (h6 : 4 * m - memLen - 1 - i < x.length)
    (h7 : 0 ≤ 4 * m - 1 - i) (h8 : 4 * m - 1 - i < w.length) :
    ∃ v, foldPairVal m memLen w x i = some v := by
  obtain ⟨a, ha⟩ := rd_isSome (a := x) h1 h2
  obtain ⟨b, hb⟩ := rd_isSome (a := w) h3 h4
  obtain ⟨c, hc⟩ := rd_isSome (a := x) h5 h6
  obtain ⟨d, hd⟩ := rd_isSome (a := w) h7 h8
  exact ⟨_, foldPairVal_eq ha hb hc hd⟩

theorem mdctFold_spec {N wLen memLen : Int} {w x mem y scratch : List Int}
    (hg : MdctGeom N wLen memLen w x mem y scratch) :
    ∃ r, mdctFold N wLen memLen w x mem y scratch = some r ∧
      (r.mem.length : Int) = memLen ∧ (r.y.length : Int) = N ∧
      (∀ j, 0 ≤ j → j < memLen → rd r.mem j = rd x (N - memLen + j)) ∧
      (∀ j, 0 ≤ j → j < memLen → rd r.buf j = rd mem j) ∧
      (∀ j, memLen ≤ j → j < N → rd r.buf j = rd x (j - memLen)) ∧
      (∀ i, 0 ≤ i → i < N / 2 →
        ∃ v, foldFirstVal (N / 2) w r.buf i = some v ∧ rd r.y (N / 2 + i) = some v) ∧
      (∀ i, 0 ≤ i → i < 2 * N - wLen →
        ∃ v, foldSingleVal (N / 2) memLen w x i = some v ∧
          rd r.y (N / 2 - 1 - i) = some v) ∧
      (∀ i, 2 * N - wLen ≤ i → i < N / 2 →
        ∃ v, foldPairVal (N / 2) memLen w x i = some v ∧
          rd r.y (N / 2 - 1 - i) = some v) := by
  obtain ⟨h0, h1, h2, hz0, hz1, hm0, hm1, hw, hx, hmem, hy, hs⟩ := hg
  have hzw : wrap16 (2 * N - wLen) = 2 * N - wLen := by
    unfold wrap16
    omega
  have hm : Int.shiftRight N 1 = N / 2 := by
    rw [shiftRight_eq_div]
    norm_num
  -- the three block copies
  obtain ⟨b1, hb1, hb1len, hb1in, -⟩ := basop_memmove_spec scratch 0 mem 0 memLen
    (by omega) le_rfl (by omega) le_rfl (by omega)
  obtain ⟨b2, hb2, hb2len, hb2in, hb2out⟩ := basop_memmove_spec b1 memLen x 0 (N - memLen)
    (by omega) (by omega) (by omega) le_rfl (by omega)
  obtain ⟨m1, hm1eq, hm1len, hm1in, -⟩ := basop_memmove_spec mem 0 x (N - memLen) memLen
    (by omega) le_rfl (by omega) (by omega) (by omega)
  -- the first-half loop
  obtain ⟨y1, hy1, hy1len, hy1in, hy1out⟩ := forLoop_assign (foldFirstVal (N / 2) w b2)
    (fun i => N / 2 + i) (fun i => (foldFirstVal (N / 2) w b2 i).getD 0) 0 (N / 2) y
    (by omega)
    (fun i hi0 hi1 => some_getD_of_isSome (foldFirstVal_isSome hi0 (by omega) (by omega)
      (by omega) (by omega) (by omega)))
    (fun i hi0 hi1 => by dsimp only; omega)
    (fun i j _ _ _ _ h => by dsimp only at h; omega)
  -- the single-product loop
  obtain ⟨y2, hy2, hy2len, hy2in, hy2out⟩ := forLoop_assign
    (foldSingleVal (N / 2) memLen w x) (fun i => N / 2 - 1 - i)
    (fun i => (foldSingleVal (N / 2) memLen w x i).getD 0) 0 (2 * N - wLen) y1 hz0
    (fun i hi0 hi1 => some_getD_of_isSome (foldSingleVal_isSome (by omega) (by omega)
      (by omega) (by omega)))
    (fun i hi0 hi1 => by dsimp only; omega)
    (fun i j _ _ _ _ h => by dsimp only at h; omega)
  -- the two-product loop
  obtain ⟨y3, hy3, hy3len, hy3in, hy3out⟩ := forLoop_assign
    (foldPairVal (N / 2) memLen w x) (fun i => N / 2 - 1 - i)
    (fun i => (foldPairVal (N / 2) memLen w x i).getD 0) (2 * N - wLen) (N / 2) y2 hz1
    (fun i hi0 hi1 => some_getD_of_isSome (foldPairVal_isSome (by omega) (by omega)
      (by omega) (by omega) (by omega) (by omega) (by omega) (by omega)))
    (fun i hi0 hi1 => by dsimp only; omega)
    (fun i j _ _ _ _ h => by dsimp only at h; omega)
  refine ⟨⟨m1, b2, y3⟩, ?_, ?_, ?_, ?_, ?_, ?_, ?_, ?_, ?_⟩
  · simp [mdctFold, hzw, hm, hb1, hb2, hm1eq, hy1, hy2, hy3]
  · show (m1.length : Int) = memLen
    omega
  · show (y3.length : Int) = N
    omega
  · intro j hj0 hj1
    have := hm1in j hj0 hj1
    simpa using this
  · intro j hj0 hj1
    show rd b2 j = rd mem j
    rw [hb2out j (Or.inl hj1)]
    simpa using hb1in j hj0 hj1
  · intro j hj0 hj1
    show rd b2 j = rd x (j - memLen)
    have := hb2in (j - memLen) (by omega) (by omega)
    simpa using this
  · intro i hi0 hi1
    show ∃ v, foldFirstVal (N / 2) w b2 i = some v ∧ rd y3 (N / 2 + i) = some v
    refine ⟨_, some_getD_of_isSome (foldFirstVal_isSome hi0 (by omega) (by omega)
      (by omega) (by omega) (by omega)), ?_⟩
    rw [hy3out _ (fun k _ _ => by omega), hy2out _ (fun k _ _ => by omega)]
    exact hy1in i hi0 hi1
  · intro i hi0 hi1
    show ∃ v, foldSingleVal (N / 2) memLen w x i = some v ∧ rd y3 (N / 2 - 1 - i) = some v
    refine ⟨_, some_getD_of_isSome (foldSingleVal_isSome (by omega) (by omega)
      (by omega) (by omega)), ?_⟩
    rw [hy3out _ (fun k _ _ => by omega)]
    exact hy2in i hi0 hi1
  · intro i hi0 hi1
    exact ⟨_, some_getD_of_isSome (foldPairVal_isSome (by omega) (by omega)
      (by omega) (by omega) (by omega) (by omega) (by omega) (by omega)), hy3in i hi0 hi1⟩

theorem forLoopAux_update (g : Int → Int) :
    ∀ (n : Nat) (i0 : Int) (y0 : List Int), 0 ≤ i0 → i0 + n ≤ y0.length →
      ∃ y, forLoopAux (fun i y => (rd y i).bind (fun v => wr y i (g v))) n i0 y0 =
          some (i0 + n, y) ∧
        y.length = y0.length ∧
        (∀ j, i0 ≤ j → j < i0 + n → rd y j = (rd y0 j).map g) ∧
        (∀ j, j < i0 ∨ i0 + n ≤ j → rd y j = rd y0 j) := by
  intro n
  induction n with
  | zero =>
    intro i0 y0 _ _
    refine ⟨y0, by simp [forLoopAux], rfl, ?_, ?_⟩
    · intro j h1 h2
      simp at h2
      omega
    · intro j _
      rfl
  | succ n ih =>
    intro i0 y0 h0 hlen
    push_cast at hlen
    obtain ⟨v, hv⟩ := rd_isSome (a := y0) h0 (by omega)
    have hstep : (rd y0 i0).bind (fun v => wr y0 i0 (g v)) = some (y0.set i0.toNat (g v)) := by
      rw [hv]
      exact wr_some (g v) h0 (by omega)
    obtain ⟨y, hy, hylen, hin, hout⟩ := ih (i0 + 1) (y0.set i0.toNat (g v)) (by omega)
      (by rw [List.length_set]; omega)
    refine ⟨y, ?_, ?_, ?_, ?_⟩
    · simp only [forLoopAux, hstep]
      rw [hy]
      congr 2
      push_cast
      ring
    · rw [hylen, List.length_set]
    · intro j h1 h2
      push_cast at h2
      by_cases hj : j = i0
      · subst hj
        rw [hout j (Or.inl (by omega)), rd_set_same (g v) h0 (by omega), hv]
        rfl
      · rw [hin j (by omega) (by omega), rd_set_other y0 (g v) h0 hj]
    · intro j hj
      push_cast at hj
      rw [hout j (by omega), rd_set_other y0 (g v) h0 (by omega)]

theorem exponent_correction (X S N : Int) (h0 : 0 ≤ N) (h1 : N ≤ 32767) :
    (if sub N 20 ≤ 0 then wrap16 (add (wrap16 (X - 2 - S)) 2)
      else if sub N 120 ≤ 0 then wrap16 (add (wrap16 (X - 2 - S)) 1)
      else wrap16 (X - 2 - S)) =
      wrap16 (X - 2 - S + (if N ≤ 20 then 2 else if N ≤ 120 then 1 else 0)) := by
  have hs20 : sub N 20 = N - 20 := by
    unfold sub wrap32
    omega
  have hs120 : sub N 120 = N - 120 := by
    unfold sub wrap32
    omega
  rw [hs20, hs120]
  by_cases h20 : N ≤ 20
  · rw [if_pos (by omega), if_pos h20]
    unfold add wrap16 wrap32
    omega
  · rw [if_neg (by omega), if_neg h20]
    by_cases h120 : N ≤ 120
    · rw [if_pos (by omega), if_pos h120]
      unfold add wrap16 wrap32
      omega
    · rw [if_neg (by omega), if_neg h120]
      simp

theorem processMdct_fx_spec (env : MdctEnv) {N wLen memLen : Int}
    {w x mem y scratch : List Int} (hg : MdctGeom N wLen memLen w x mem y scratch) :
    ∃ f r, mdctFold N wLen memLen w x mem y scratch = some f ∧
      processMdct_fx env N wLen memLen w x mem y scratch = some r ∧
      r.mem = f.mem ∧
      r.s = wrap16 (s_max 0 (env.getScaleFactor32 f.y N)) ∧
      (r.y.length : Int) = N ∧
      (∀ j, 0 ≤ j → j < N → rd r.y j = (rd f.y j).map (fun v => env.L_shl v r.s)) ∧
      r.y_e = wrap16 (env.X_EXP - 2 - r.s +
        (if N ≤ 20 then 2 else if N ≤ 120 then 1 else 0)) := by
  obtain ⟨f, hf, -, hylen, -⟩ := mdctFold_spec hg
  obtain ⟨h0, h1, -⟩ := hg
  obtain ⟨y1, hy1, hy1len, hy1in, -⟩ := forLoopAux_update
    (fun v => env.L_shl v (wrap16 (s_max 0 (env.getScaleFactor32 f.y N)))) N.toNat 0 f.y
    le_rfl (by omega)
  have hloop : forLoop 0 N (fun i y => (rd y i).bind (fun v => wr y i
      (env.L_shl v (wrap16 (s_max 0 (env.getScaleFactor32 f.y N)))))) f.y = some (N, y1) := by
    unfold forLoop
    simp only [sub_zero]
    rw [hy1]
    congr 2
    omega
  refine ⟨f, ⟨f.mem, y1,
    (if sub N 20 ≤ 0 then
      wrap16 (add (wrap16 (env.X_EXP - 2 - wrap16 (s_max 0 (env.getScaleFactor32 f.y N)))) 2)
    else if sub N 120 ≤ 0 then
      wrap16 (add (wrap16 (env.X_EXP - 2 - wrap16 (s_max 0 (env.getScaleFactor32 f.y N)))) 1)
    else wrap16 (env.X_EXP - 2 - wrap16 (s_max 0 (env.getScaleFactor32 f.y N)))),
    wrap16 (s_max 0 (env.getScaleFactor32 f.y N))⟩, hf, ?_, rfl, rfl, ?_, ?_, ?_⟩
  · simp only [processMdct_fx, hf, hloop, Option.bind_eq_bind, Option.some_bind, pure]
  · show (y1.length : Int) = N
    omega
  · intro j hj0 hj1
    exact hy1in j hj0 (by omega)
  · exact exponent_correction _ _ _ h0 h1

theorem rd_mem {l : List Int} {i v : Int} (h : rd l i = some v) : v ∈ l := by
  unfold rd at h
  split at h
  · exact List.getElem?_mem h
  · exact absurd h (by simp)

theorem rd_none_of_le {l : List Int} {i : Int} (h : (l.length : Int) ≤ i) : rd l i = none := by
  unfold rd
  split
  · apply List.getElem?_eq_none
    omega
  · rfl

theorem rd_append_left {a : List Int} (b : List Int) {j : Int} (h : j < a.length) :
    rd (a ++ b) j = rd a j := by
  unfold rd
  split
  · apply List.getElem?_append_left
    omega
  · rfl

theorem rd_append_right (a b : List Int) {j : Int} (h : (a.length : Int) ≤ j) :
    rd (a ++ b) j = rd b (j - a.length) := by
  unfold rd
  have h0 : 0 ≤ j := by omega
  rw [if_pos h0, if_pos (by omega), List.getElem?_append_right (by omega)]
  congr 1
  omega

theorem rd_take (a : List Int) {n : Nat} {j : Int} (h : j < n) : rd (a.take n) j = rd a j := by
  unfold rd
  split
  · apply List.getElem?_take_of_lt
    omega
  · rfl

theorem msu0_exact {a b c d : Int} (ha : in16 a) (hb : in16 b) (hc : in16 c) (hd : in16 d) :
    L_msu0 (L_mult0 a b) c d = a * b - c * d ∧ in32 (a * b - c * d) := by
  have h1 := mul16_bounds ha hb
  have h2 := mul16_bounds hc hd
  have h3 : in32 (a * b - c * d) := by
    unfold in32 MIN_32 MAX_32
    omega
  refine ⟨?_, h3⟩
  unfold L_msu0 L_mult0
  rw [wrap32_of_in32 (mul16_in32 ha hb), wrap32_of_in32 (mul16_in32 hc hd), wrap32_of_in32 h3]

theorem mac0_wrap {a b c d : Int} (ha : in16 a) (hb : in16 b) (hc : in16 c) (hd : in16 d) :
    L_mac0 (L_mult0 a b) c d = wrap32 (a * b + c * d) := by
  unfold L_mac0 L_mult0
  rw [wrap32_of_in32 (mul16_in32 ha hb), wrap32_of_in32 (mul16_in32 hc hd)]

theorem mult0_exact {a b : Int} (ha : in16 a) (hb : in16 b) : L_mult0 a b = a * b :=
  wrap32_of_in32 (mul16_in32 ha hb)

/-- A product with a window coefficient other than `-32768` has magnitude at most
`2^30 - 2^15`. -/
theorem mul16_abs_le {a b : Int} (ha : in16 a) (hb : in16 b) (hne : b ≠ -32768) :
    -1073709056 ≤ a * b ∧ a * b ≤ 1073709056 := by
  unfold in16 MIN_16 MAX_16 at ha hb
  obtain ⟨ha1, ha2⟩ := ha
  obtain ⟨hb1, hb2⟩ := hb
  have hb3 : -32767 ≤ b := by omega
  constructor
  · nlinarith [mul_nonneg (sub_nonneg.mpr ha1) (sub_nonneg.mpr hb2),
      mul_nonneg (sub_nonneg.mpr ha2) (sub_nonneg.mpr hb3)]
  · nlinarith [mul_nonneg (sub_nonneg.mpr ha1) (sub_nonneg.mpr hb3),
      mul_nonneg (sub_nonneg.mpr ha2) (sub_nonneg.mpr hb2)]

/-- The working buffer of the fold holds the previous history followed by the head
of the current block. -/
theorem rd_workbuf {N memLen : Int} {x mem buf : List Int}
    (hmem : (mem.length : Int) = memLen) (hm1 : memLen ≤ N)
    (h1 : ∀ j, 0 ≤ j → j < memLen → rd buf j = rd mem j)
    (h2 : ∀ j, memLen ≤ j → j < N → rd buf j = rd x (j - memLen))
    {j : Int} (hj0 : 0 ≤ j) (hj1 : j < N) :
    rd buf j = rd (mem ++ x.take (N - memLen).toNat) j := by
  by_cases hj : j < memLen
  · rw [rd_append_left _ (by omega), h1 j hj0 hj]
  · rw [rd_append_right _ _ (by omega), rd_take _ (by omega), h2 j (by omega) hj1, hmem]

theorem foldFirstVal_congr {m : Int} {w buf t : List Int} {i : Int}
    (h1 : rd buf i = rd t i) (h2 : rd buf (2 * m - 1 - i) = rd t (2 * m - 1 - i)) :
    foldFirstVal m w buf i = foldFirstVal m w t i := by
  unfold foldFirstVal
  rw [h1, h2]

theorem mult0_zero (b : Int) : L_mult0 0 b = 0 := by
  simp [L_mult0, wrap32]

theorem mac0_zero (b d : Int) : L_mac0 (L_mult0 0 b) 0 d = 0 := by
  simp [L_mac0, L_mult0, wrap32]

theorem msu0_zero (b d : Int) : L_msu0 (L_mult0 0 b) 0 d = 0 := by
  simp [L_msu0, L_mult0, wrap32]

theorem foldSingleVal_zero {m memLen : Int} {w x : List Int} {i v : Int} (hx : AllZero x)
    (h : foldSingleVal m memLen w x i = some v) : v = 0 := by
  unfold foldSingleVal at h
  cases h1 : rd x (2 * m - memLen + i) with
  | none => simp [h1] at h
  | some a =>
    cases h2 : rd w (2 * m + i) with
    | none => simp [h1, h2] at h
    | some b =>
      have ha : a = 0 := hx a (rd_mem h1)
      subst ha
      simp [h1, h2, mult0_zero] at h
      exact h.symm

theorem foldPairVal_zero {m memLen : Int} {w x : List Int} {i v : Int} (hx : AllZero x)
    (h : foldPairVal m memLen w x i = some v) : v = 0 := by
  unfold foldPairVal at h
  cases h1 : rd x (2 * m - memLen + i) with
  | none => simp [h1] at h
  | some a =>
    cases h2 : rd w (2 * m + i) with
    | none => simp [h1, h2] at h
    | some b =>
      cases h3 : rd x (4 * m - memLen - 1 - i) with
      | none => simp [h1, h2, h3] at h
      | some c =>
        cases h4 : rd w (4 * m - 1 - i) with
        | none => simp [h1, h2, h3, h4] at h
        | some d =>
          have ha : a = 0 := hx a (rd_mem h1)
          have hc : c = 0 := hx c (rd_mem h3)
          subst ha hc
          simp [h1, h2, h3, h4, mac0_zero] at h
          exact h.symm

theorem foldFirstVal_zero {m : Int} {w buf : List Int} {i v : Int}
    (hb1 : ∀ a, rd buf i = some a → a = 0)
    (hb2 : ∀ a, rd buf (2 * m - 1 - i) = some a → a = 0)
    (h : foldFirstVal m w buf i = some v) : v = 0 := by
  unfold foldFirstVal at h
  cases h1 : rd buf i with
  | none => simp [h1] at h
  | some a =>
    cases h2 : rd w i with
    | none => simp [h1, h2] at h
    | some b =>
      cases h3 : rd buf (2 * m - 1 - i) with
      | none => simp [h1, h2, h3] at h
      | some c =>
        cases h4 : rd w (2 * m - 1 - i) with
        | none => simp [h1, h2, h3, h4] at h
        | some d =>
          have ha : a = 0 := hb1 a h1
          have hc : c = 0 := hb2 c h3
          subst ha hc
          simp [h1, h2, h3, h4, msu0_zero] at h
          exact h.symm

/-! Claims on the operator macros -/

/-- C1 (the code at the failing input): `shl_sat` is the plain shift, so
`shl_sat(32767, 1)` is `65534`, a value above `MAX_16`, where saturation would give
`32767`. -/
theorem C1_shl_sat_escapes_16bit :
    shl_sat 32767 1 = some 65534 ∧ ¬ in16 65534 ∧ (65534 : Int) ≠ MAX_16 := by
  refine ⟨by decide, by decide, by decide⟩

/-- C2: for all 16-bit operands `mult_r(x, y)` is `floor((x*y + 2^14) / 2^15)`. -/
theorem C2_mult_r_rounds (x y : Int) (hx : in16 x) (hy : in16 y) :
    mult_r x y = ⌊((x * y + 2 ^ 14 : Int) : ℚ) / 2 ^ 15⌋ := by
  have hb := mul16_bounds hx hy
  have h1 : wrap32 (x * y) = x * y := wrap32_of_in32 (mul16_in32 hx hy)
  have h2 : wrap32 (x * y + 16384) = x * y + 16384 := by
    apply wrap32_of_in32
    unfold in32 MIN_32 MAX_32
    omega
  rw [floor_div_two_pow]
  unfold mult_r
  rw [h1, h2]
  norm_num

theorem C2_mult_r_rounds_witness :
    in16 (-32768) ∧ in16 12345 ∧
      mult_r (-32768) 12345 = ⌊(((-32768) * 12345 + 2 ^ 14 : Int) : ℚ) / 2 ^ 15⌋ :=
  ⟨by decide, by decide, C2_mult_r_rounds (-32768) 12345 (by decide) (by decide)⟩

/-- C3 (counterexample): at `a = b = -32768` the value of `mult` is `32768`, which is
`floor(a*b / 2^15)` but lies outside the signed 16-bit range. -/
theorem C3_mult_corner_counterexample :
    in16 (-32768) ∧ mult (-32768) (-32768) = 32768 ∧ ¬ in16 (mult (-32768) (-32768)) := by
  refine ⟨by decide, by decide, by decide⟩

/-- C3 (amended): for all 16-bit operands `mult(a, b)` is `floor(a*b / 2^15)`; it
lies in `[-32768, 32768]`, and in the signed 16-bit range for every operand pair
other than `a = b = -32768`. -/
theorem C3_mult_floor (a b : Int) (ha : in16 a) (hb : in16 b) :
    mult a b = ⌊((a * b : Int) : ℚ) / 2 ^ 15⌋ ∧
      MIN_16 ≤ mult a b ∧ mult a b ≤ 32768 ∧
      (¬ (a = -32768 ∧ b = -32768) → in16 (mult a b)) := by
  have hb0 := mul16_bounds ha hb
  have h1 : wrap32 (a * b) = a * b := wrap32_of_in32 (mul16_in32 ha hb)
  have hm : mult a b = a * b / 32768 := by
    unfold mult
    rw [h1, shiftRight_eq_div]
    norm_num
  refine ⟨?_, ?_, ?_, ?_⟩
  · rw [floor_div_two_pow]
    unfold mult
    rw [h1]
  · rw [hm]
    unfold MIN_16
    omega
  · rw [hm]
    omega
  · intro hc
    have hle := mul16_le_of_not_corner ha hb hc
    rw [hm]
    unfold in16 MIN_16 MAX_16
    omega

theorem C3_mult_floor_witness :
    in16 (-32768) ∧ in16 32767 ∧
      (mult (-32768) 32767 = ⌊(((-32768) * 32767 : Int) : ℚ) / 2 ^ 15⌋ ∧
        MIN_16 ≤ mult (-32768) 32767 ∧ mult (-32768) 32767 ≤ 32768 ∧
        (¬ ((-32768 : Int) = -32768 ∧ (32767 : Int) = -32768) →
          in16 (mult (-32768) 32767))) :=
  ⟨by decide, by decide, C3_mult_floor (-32768) 32767 (by decide) (by decide)⟩

/-- C4 (counterexample): at `a = b = -32768` the doubled product `2^31` does not fit
a 32-bit signed word; `L_mult` yields `-2^31`. -/
theorem C4_L_mult_corner_counterexample :
    in16 (-32768) ∧ L_mult (-32768) (-32768) = -2147483648 ∧
      L_mult (-32768) (-32768) ≠ 2 * (-32768) * (-32768) := by
  refine ⟨by decide, by decide, by decide⟩

/-- C4 (amended): for all 16-bit operands `L_mult0(a, b)` is the exact product and
the value of `L_mult` is a 32-bit word; for every operand pair other than
`a = b = -32768`, `L_mult(a, b)` is exactly `2*a*b`. -/
theorem C4_L_mult_exact (a b : Int) (ha : in16 a) (hb : in16 b) :
    L_mult0 a b = a * b ∧ in32 (L_mult0 a b) ∧ in32 (L_mult a b) ∧
      (¬ (a = -32768 ∧ b = -32768) → L_mult a b = 2 * a * b) := by
  have hb0 := mul16_bounds ha hb
  have h1 : wrap32 (a * b) = a * b := wrap32_of_in32 (mul16_in32 ha hb)
  refine ⟨h1, ?_, in32_wrap32 _, ?_⟩
  · unfold L_mult0
    rw [h1]
    exact mul16_in32 ha hb
  · intro hc
    have hle := mul16_le_of_not_corner ha hb hc
    unfold L_mult
    rw [h1]
    have h2 : wrap32 (a * b * 2) = a * b * 2 := by
      apply wrap32_of_in32
      unfold in32 MIN_32 MAX_32
      omega
    rw [h2]
    ring

theorem C4_L_mult_exact_witness :
    in16 (-32768) ∧ in16 32767 ∧
      (L_mult0 (-32768) 32767 = (-32768) * 32767 ∧ in32 (L_mult0 (-32768) 32767) ∧
        in32 (L_mult (-32768) 32767) ∧
        (¬ ((-32768 : Int) = -32768 ∧ (32767 : Int) = -32768) →
          L_mult (-32768) 32767 = 2 * (-32768) * 32767)) :=
  ⟨by decide, by decide, C4_L_mult_exact (-32768) 32767 (by decide) (by decide)⟩

/-- C5 (counterexample): at `x = 0x7FFFFFFF` half-up rounding gives `32768`, but the
32-bit addition wraps and `round_fx` yields `-32768`. -/
theorem C5_round_fx_top_counterexample :
    in32 2147483647 ∧ round_fx 2147483647 = -32768 ∧
      ⌊((2147483647 + 2 ^ 15 : Int) : ℚ) / 2 ^ 16⌋ = 32768 := by
  refine ⟨by decide, by decide, ?_⟩
  rw [floor_div_two_pow]
  decide

/-- C5 (amended): for every 32-bit `x` below `2^31 - 2^15`, `round_fx(x)` is
`floor((x + 2^15) / 2^16)`; for every 32-bit `x` it is a signed 16-bit word, equal
to that floor reduced modulo `2^16`. -/
theorem C5_round_fx_half_up (x : Int) (hx : in32 x) :
    in16 (round_fx x) ∧
      round_fx x = wrap16 ⌊((x + 2 ^ 15 : Int) : ℚ) / 2 ^ 16⌋ ∧
      (x < 2147450880 → round_fx x = ⌊((x + 2 ^ 15 : Int) : ℚ) / 2 ^ 16⌋) := by
  unfold in32 MIN_32 MAX_32 at hx
  have hfl : ⌊((x + 2 ^ 15 : Int) : ℚ) / 2 ^ 16⌋ = (x + 32768) / 65536 := by
    rw [floor_div_two_pow, shiftRight_eq_div]
    norm_num
  have hr : round_fx x = wrap16 (wrap32 (x + 32768) / 65536) := by
    unfold round_fx extract_h
    rw [shiftRight_eq_div]
    norm_num
  refine ⟨?_, ?_, ?_⟩
  · rw [hr]
    exact in16_wrap16 _
  · rw [hr, hfl]
    unfold wrap16 wrap32
    omega
  · intro hlt
    rw [hr, hfl]
    unfold wrap16 wrap32
    omega

theorem C5_round_fx_half_up_witness :
    in32 98304 ∧
      (in16 (round_fx 98304) ∧
        round_fx 98304 = wrap16 ⌊((98304 + 2 ^ 15 : Int) : ℚ) / 2 ^ 16⌋ ∧
        ((98304 : Int) < 2147450880 →
          round_fx 98304 = ⌊((98304 + 2 ^ 15 : Int) : ℚ) / 2 ^ 16⌋)) :=
  ⟨by decide, C5_round_fx_half_up 98304 (by decide)⟩

/-! Claims on `processMdct_fx` -/

/-- C6: the carry-over history is written once, from the tail of the current block:
after the call `mem[j] = x[N - memLen + j]` for every `0 ≤ j < memLen`, while the
folded values of the call are those of the fold over the previous contents of `mem`
(first half: the working buffer `previous mem ++ head of x`; second half: `x` alone),
each then shifted by the common shift. -/
theorem C6_history_saved_after_use (env : MdctEnv) (N wLen memLen : Int)
    (w x mem y scratch : List Int) (hg : MdctGeom N wLen memLen w x mem y scratch) :
    ∃ f r, mdctFold N wLen memLen w x mem y scratch = some f ∧
      processMdct_fx env N wLen memLen w x mem y scratch = some r ∧
      (r.mem.length : Int) = memLen ∧
      (∀ j, 0 ≤ j → j < memLen →
        ∃ v, rd x (N - memLen + j) = some v ∧ rd r.mem j = some v) ∧
      (∀ i, 0 ≤ i → i < N / 2 →
        ∃ v, foldFirstVal (N / 2) w (mem ++ x.take (N - memLen).toNat) i = some v ∧
          rd f.y (N / 2 + i) = some v) ∧
      (∀ i, 0 ≤ i → i < N / 2 →
        ∃ v, (if i < 2 * N - wLen then foldSingleVal (N / 2) memLen w x i
            else foldPairVal (N / 2) memLen w x i) = some v ∧
          rd f.y (N / 2 - 1 - i) = some v) ∧
      (∀ j, 0 ≤ j → j < N → ∃ v, rd f.y j = some v ∧ rd r.y j = some (env.L_shl v r.s)) := by
  obtain ⟨f, r, hf, hr, hrmem, -, -, hry, -⟩ := processMdct_fx_spec env hg
  obtain ⟨f2, hf2, hmlen, hylen, hmem, hbuf1, hbuf2, hfirst, hsingle, hpair⟩ :=
    mdctFold_spec hg
  have hff : f2 = f := Option.some.inj (hf2.symm.trans hf)
  subst hff
  obtain ⟨h0, h1, h2, hz0, hz1, hm0, hm1, hw, hx, hmemlen, hy, hs⟩ := hg
  refine ⟨f2, r, hf, hr, ?_, ?_, ?_, ?_, ?_⟩
  · rw [hrmem]
    exact hmlen
  · intro j hj0 hj1
    obtain ⟨v, hv⟩ := rd_isSome (a := x) (i := N - memLen + j) (by omega) (by omega)
    exact ⟨v, hv, by rw [hrmem, hmem j hj0 hj1, hv]⟩
  · intro i hi0 hi1
    obtain ⟨v, hv, hyv⟩ := hfirst i hi0 hi1
    refine ⟨v, ?_, hyv⟩
    rw [← hv]
    symm
    apply foldFirstVal_congr
    · exact rd_workbuf hmemlen hm1 hbuf1 hbuf2 hi0 (by omega)
    · exact rd_workbuf hmemlen hm1 hbuf1 hbuf2 (by omega) (by omega)
  · intro i hi0 hi1
    by_cases hiz : i < 2 * N - wLen
    · rw [if_pos hiz]
      exact hsingle i hi0 hiz
    · rw [if_neg hiz]
      exact hpair i (by omega) hi1
  · intro j hj0 hj1
    obtain ⟨v, hv⟩ := rd_isSome (a := f2.y) hj0 (by omega)
    exact ⟨v, hv, by rw [hry j hj0 hj1, hv]; rfl⟩

theorem C6_history_saved_after_use_witness :
    MdctGeom 4 7 3 [1, 2, 3, 4, 5, 6, 7] [10, 20, 30, 40] [7, 8, 9] [0, 0, 0, 0]
        [0, 0, 0, 0, 0] ∧
      ∃ f r, mdctFold 4 7 3 [1, 2, 3, 4, 5, 6, 7] [10, 20, 30, 40] [7, 8, 9] [0, 0, 0, 0]
          [0, 0, 0, 0, 0] = some f ∧
        processMdct_fx (shiftEnv 3) 4 7 3 [1, 2, 3, 4, 5, 6, 7] [10, 20, 30, 40] [7, 8, 9]
          [0, 0, 0, 0] [0, 0, 0, 0, 0] = some r ∧
        (r.mem.length : Int) = 3 ∧
        (∀ j, 0 ≤ j → j < 3 →
          ∃ v, rd [10, 20, 30, 40] (4 - 3 + j) = some v ∧ rd r.mem j = some v) ∧
        (∀ i, 0 ≤ i → i < 4 / 2 →
          ∃ v, foldFirstVal (4 / 2) [1, 2, 3, 4, 5, 6, 7]
              ([7, 8, 9] ++ [10, 20, 30, 40].take (4 - 3 : Int).toNat) i = some v ∧
            rd f.y (4 / 2 + i) = some v) ∧
        (∀ i, 0 ≤ i → i < 4 / 2 →
          ∃ v, (if i < 2 * 4 - 7 then foldSingleVal (4 / 2) 3 [1, 2, 3, 4, 5, 6, 7]
                [10, 20, 30, 40] i
              else foldPairVal (4 / 2) 3 [1, 2, 3, 4, 5, 6, 7] [10, 20, 30, 40] i) = some v ∧
            rd f.y (4 / 2 - 1 - i) = some v) ∧
        (∀ j, 0 ≤ j → j < 4 →
          ∃ v, rd f.y j = some v ∧ rd r.y j = some ((shiftEnv 3).L_shl v r.s)) :=
  ⟨by decide, C6_history_saved_after_use (shiftEnv 3) 4 7 3 [1, 2, 3, 4, 5, 6, 7]
    [10, 20, 30, 40] [7, 8, 9] [0, 0, 0, 0] [0, 0, 0, 0, 0] (by decide)⟩

/-- C7: first half of the fold.  For even `N` and every `0 ≤ i < N/2` the folded value
at index `N/2 + i`, before normalization, is `t[i]*w[i] - t[N-1-i]*w[N-1-i]` with
`t` the previous history followed by the first `N - memLen` samples of `x`; the value
is exact (it fits a 32-bit word). -/
theorem C7_first_half_fold (N wLen memLen : Int) (w x mem y scratch : List Int)
    (hg : MdctGeom N wLen memLen w x mem y scratch)
    (hw16 : Words16 w) (hx16 : Words16 x) (hmem16 : Words16 mem) :
    ∃ f, mdctFold N wLen memLen w x mem y scratch = some f ∧
      ∀ i, 0 ≤ i → i < N / 2 →
        ∃ a b c d, rd (mem ++ x.take (N - memLen).toNat) i = some a ∧ rd w i = some b ∧
          rd (mem ++ x.take (N - memLen).toNat) (N - 1 - i) = some c ∧
          rd w (N - 1 - i) = some d ∧
          rd f.y (N / 2 + i) = some (a * b - c * d) ∧ in32 (a * b - c * d) := by
  obtain ⟨f, hf, -, -, -, hbuf1, hbuf2, hfirst, -, -⟩ := mdctFold_spec hg
  obtain ⟨h0, h1, h2, hz0, hz1, hm0, hm1, hw, hx, hmemlen, hy, hs⟩ := hg
  refine ⟨f, hf, ?_⟩
  intro i hi0 hi1
  have hlen : ((mem ++ x.take (N - memLen).toNat).length : Int) = N := by
    rw [List.length_append, List.length_take]
    push_cast
    omega
  have h2m : 2 * (N / 2) - 1 - i = N - 1 - i := by omega
  obtain ⟨a, ha⟩ := rd_isSome (a := mem ++ x.take (N - memLen).toNat) hi0 (by omega)
  obtain ⟨b, hb⟩ := rd_isSome (a := w) hi0 (by omega)
  obtain ⟨c, hc⟩ := rd_isSome (a := mem ++ x.take (N - memLen).toNat) (i := N - 1 - i)
    (by omega) (by omega)
  obtain ⟨d, hd⟩ := rd_isSome (a := w) (i := N - 1 - i) (by omega) (by omega)
  have hin : ∀ {j v : Int}, rd (mem ++ x.take (N - memLen).toNat) j = some v → in16 v := by
    intro j v hjv
    rcases List.mem_append.mp (rd_mem hjv) with hm | hxm
    · exact hmem16 v hm
    · exact hx16 v (List.mem_of_mem_take hxm)
  obtain ⟨v, hv, hyv⟩ := hfirst i hi0 hi1
  have ha2 : rd f.buf i = some a := by
    rw [rd_workbuf hmemlen hm1 hbuf1 hbuf2 hi0 (by omega)]
    exact ha
  have hc2 : rd f.buf (2 * (N / 2) - 1 - i) = some c := by
    rw [h2m, rd_workbuf hmemlen hm1 hbuf1 hbuf2 (by omega) (by omega)]
    exact hc
  have hd2 : rd w (2 * (N / 2) - 1 - i) = some d := by
    rw [h2m]
    exact hd
  have hval := foldFirstVal_eq ha2 hb hc2 hd2
  obtain ⟨hexact, h32⟩ := msu0_exact (hin ha) (hw16 b (rd_mem hb)) (hin hc)
    (hw16 d (rd_mem hd))
  refine ⟨a, b, c, d, ha, hb, hc, hd, ?_, h32⟩
  rw [hyv, ← hexact]
  exact (hv.symm.trans hval)

theorem C7_first_half_fold_witness :
    MdctGeom 4 7 3 [1, 2, 3, 4, 5, 6, 7] [10, 20, 30, 40] [7, 8, 9] [0, 0, 0, 0]
        [0, 0, 0, 0, 0] ∧
      Words16 [1, 2, 3, 4, 5, 6, 7] ∧ Words16 [10, 20, 30, 40] ∧ Words16 [7, 8, 9] ∧
      ∃ f, mdctFold 4 7 3 [1, 2, 3, 4, 5, 6, 7] [10, 20, 30, 40] [7, 8, 9] [0, 0, 0, 0]
          [0, 0, 0, 0, 0] = some f ∧
        ∀ i, 0 ≤ i → i < 4 / 2 →
          ∃ a b c d,
            rd ([7, 8, 9] ++ [10, 20, 30, 40].take (4 - 3 : Int).toNat) i = some a ∧
            rd [1, 2, 3, 4, 5, 6, 7] i = some b ∧
            rd ([7, 8, 9] ++ [10, 20, 30, 40].take (4 - 3 : Int).toNat) (4 - 1 - i) = some c ∧
            rd [1, 2, 3, 4, 5, 6, 7] (4 - 1 - i) = some d ∧
            rd f.y (4 / 2 + i) = some (a * b - c * d) ∧ in32 (a * b - c * d) :=
  ⟨by decide, by decide, by decide, by decide,
    C7_first_half_fold 4 7 3 [1, 2, 3, 4, 5, 6, 7] [10, 20, 30, 40] [7, 8, 9] [0, 0, 0, 0]
      [0, 0, 0, 0, 0] (by decide) (by decide) (by decide) (by decide)⟩

/-- C8 (counterexample): with every sample and window coefficient involved equal to
`-32768` the reference value is `2^31`, which no 32-bit word holds; the folded value
is `-2^31`. -/
theorem C8_second_half_wrap_counterexample :
    MdctGeom 2 4 2 [0, 0, -32768, -32768] [-32768, -32768] [0, 0] [0, 0] [0, 0] ∧
      Words16 [0, 0, -32768, -32768] ∧ Words16 [-32768, -32768] ∧
      mdctFold 2 4 2 [0, 0, -32768, -32768] [-32768, -32768] [0, 0] [0, 0] [0, 0] =
        some ⟨[-32768, -32768], [0, 0], [-2147483648, 0]⟩ ∧
      tdacFoldRef 2 [0, 0, -32768, -32768] ([0, 0] ++ [-32768, -32768]) 0 = 2147483648 := by
  decide

/-- C8 (amended): second half of the fold against the zero-extended window.  With `N`
even, `0 ≤ z = 2N - wLen ≤ N/2`, `N - z ≤ memLen ≤ N` and `T = previous history ++ x`,
for every `0 ≤ i < N/2` the folded value at index `N/2 - 1 - i` is
`T[N+i]*W[N+i] + T[2N-1-i]*W[2N-1-i]` reduced to a 32-bit word, and is that sum itself
whenever no window coefficient equals `-32768`; for `i < z` it is exactly the single
product `x[N-memLen+i]*w[N+i]`. -/
theorem C8_second_half_fold (N wLen memLen : Int) (w x mem y scratch : List Int)
    (hg : MdctGeom N wLen memLen w x mem y scratch)
    (hw16 : Words16 w) (hx16 : Words16 x) :
    ∃ f, mdctFold N wLen memLen w x mem y scratch = some f ∧
      ∀ i, 0 ≤ i → i < N / 2 →
        rd f.y (N / 2 - 1 - i) = some (wrap32 (tdacFoldRef N w (mem ++ x) i)) ∧
        ((∀ v ∈ w, v ≠ -32768) →
          rd f.y (N / 2 - 1 - i) = some (tdacFoldRef N w (mem ++ x) i)) ∧
        (i < 2 * N - wLen →
          ∃ a b, rd x (N - memLen + i) = some a ∧ rd w (N + i) = some b ∧
            tdacFoldRef N w (mem ++ x) i = a * b ∧
            rd f.y (N / 2 - 1 - i) = some (a * b)) := by
  obtain ⟨f, hf, -, -, -, -, -, -, hsingle, hpair⟩ := mdctFold_spec hg
  obtain ⟨h0, h1, h2, hz0, hz1, hm0, hm1, hw, hx, hmemlen, hy, hs⟩ := hg
  refine ⟨f, hf, ?_⟩
  intro i hi0 hi1
  have e1 : 2 * (N / 2) - memLen + i = N - memLen + i := by omega
  have e2 : 2 * (N / 2) + i = N + i := by omega
  have e3 : 4 * (N / 2) - memLen - 1 - i = 2 * N - memLen - 1 - i := by omega
  have e4 : 4 * (N / 2) - 1 - i = 2 * N - 1 - i := by omega
  obtain ⟨a, ha⟩ := rd_isSome (a := x) (i := N - memLen + i) (by omega) (by omega)
  obtain ⟨b, hb⟩ := rd_isSome (a := w) (i := N + i) (by omega) (by omega)
  have ha16 : in16 a := hx16 a (rd_mem ha)
  have hb16 : in16 b := hw16 b (rd_mem hb)
  have hT1 : zext (mem ++ x) (N + i) = a := by
    unfold zext
    rw [rd_append_right _ _ (by omega)]
    have e : N + i - (mem.length : Int) = N - memLen + i := by omega
    rw [e, ha]
    rfl
  have hW1 : zext w (N + i) = b := by
    unfold zext
    rw [hb]
    rfl
  by_cases hiz : i < 2 * N - wLen
  · -- only the single product remains
    have hW2 : zext w (2 * N - 1 - i) = 0 := by
      unfold zext
      rw [rd_none_of_le (by omega)]
      rfl
    have href : tdacFoldRef N w (mem ++ x) i = a * b := by
      unfold tdacFoldRef
      rw [hT1, hW1, hW2]
      ring
    obtain ⟨v, hv, hyv⟩ := hsingle i hi0 hiz
    have hval : foldSingleVal (N / 2) memLen w x i = some (L_mult0 a b) :=
      foldSingleVal_eq (by rw [e1]; exact ha) (by rw [e2]; exact hb)
    have hva : v = a * b := by
      have := Option.some.inj (hv.symm.trans hval)
      rw [this]
      exact mult0_exact ha16 hb16
    have hy1 : rd f.y (N / 2 - 1 - i) = some (a * b) := by rw [hyv, hva]
    refine ⟨?_, ?_, ?_⟩
    · rw [href, wrap32_of_in32 (mul16_in32 ha16 hb16)]
      exact hy1
    · intro _
      rw [href]
      exact hy1
    · intro _
      exact ⟨a, b, ha, hb, href, hy1⟩
  · -- both products
    obtain ⟨c, hc⟩ := rd_isSome (a := x) (i := 2 * N - memLen - 1 - i) (by omega) (by omega)
    obtain ⟨d, hd⟩ := rd_isSome (a := w) (i := 2 * N - 1 - i) (by omega) (by omega)
    have hc16 : in16 c := hx16 c (rd_mem hc)
    have hd16 : in16 d := hw16 d (rd_mem hd)
    have hT2 : zext (mem ++ x) (2 * N - 1 - i) = c := by
      unfold zext
      rw [rd_append_right _ _ (by omega)]
      have e : 2 * N - 1 - i - (mem.length : Int) = 2 * N - memLen - 1 - i := by omega
      rw [e, hc]
      rfl
    have hW2 : zext w (2 * N - 1 - i) = d := by
      unfold zext
      rw [hd]
      rfl
    have href : tdacFoldRef N w (mem ++ x) i = a * b + c * d := by
      unfold tdacFoldRef
      rw [hT1, hW1, hT2, hW2]
    obtain ⟨v, hv, hyv⟩ := hpair i (by omega) hi1
    have hval : foldPairVal (N / 2) memLen w x i = some (L_mac0 (L_mult0 a b) c d) :=
      foldPairVal_eq (by rw [e1]; exact ha) (by rw [e2]; exact hb) (by rw [e3]; exact hc)
        (by rw [e4]; exact hd)
    have hva : v = wrap32 (a * b + c * d) := by
      have := Option.some.inj (hv.symm.trans hval)
      rw [this]
      exact mac0_wrap ha16 hb16 hc16 hd16
    have hy1 : rd f.y (N / 2 - 1 - i) = some (wrap32 (a * b + c * d)) := by rw [hyv, hva]
    refine ⟨?_, ?_, ?_⟩
    · rw [href]
      exact hy1
    · intro hne
      have hb1 := mul16_abs_le ha16 hb16 (hne b (rd_mem hb))
      have hd1 := mul16_abs_le hc16 hd16 (hne d (rd_mem hd))
      have h32 : in32 (a * b + c * d) := by
        unfold in32 MIN_32 MAX_32
        omega
      rw [href, hy1, wrap32_of_in32 h32]
    · intro hlt
      exact absurd hlt hiz

theorem C8_second_half_fold_witness :
    MdctGeom 4 7 3 [1, 2, 3, 4, 5, 6, 7] [10, 20, 30, 40] [7, 8, 9] [0, 0, 0, 0]
        [0, 0, 0, 0, 0] ∧
      Words16 [1, 2, 3, 4, 5, 6, 7] ∧ Words16 [10, 20, 30, 40] ∧
      ∃ f, mdctFold 4 7 3 [1, 2, 3, 4, 5, 6, 7] [10, 20, 30, 40] [7, 8, 9] [0, 0, 0, 0]
          [0, 0, 0, 0, 0] = some f ∧
        ∀ i, 0 ≤ i → i < 4 / 2 →
          rd f.y (4 / 2 - 1 - i) =
            some (wrap32 (tdacFoldRef 4 [1, 2, 3, 4, 5, 6, 7]
              ([7, 8, 9] ++ [10, 20, 30, 40]) i)) ∧
          ((∀ v ∈ [1, 2, 3, 4, 5, 6, 7], v ≠ -32768) →
            rd f.y (4 / 2 - 1 - i) =
              some (tdacFoldRef 4 [1, 2, 3, 4, 5, 6, 7] ([7, 8, 9] ++ [10, 20, 30, 40]) i)) ∧
          (i < 2 * 4 - 7 →
            ∃ a b, rd [10, 20, 30, 40] (4 - 3 + i) = some a ∧
              rd [1, 2, 3, 4, 5, 6, 7] (4 + i) = some b ∧
              tdacFoldRef 4 [1, 2, 3, 4, 5, 6, 7] ([7, 8, 9] ++ [10, 20, 30, 40]) i = a * b ∧
              rd f.y (4 / 2 - 1 - i) = some (a * b)) :=
  ⟨by decide, by decide, by decide,
    C8_second_half_fold 4 7 3 [1, 2, 3, 4, 5, 6, 7] [10, 20, 30, 40] [7, 8, 9] [0, 0, 0, 0]
      [0, 0, 0, 0, 0] (by decide) (by decide) (by decide)⟩

/-- C9: without `BTLLC_5MS_MODE` the exponent handed to the DCT-IV kernel is
`X_EXP - 2 - s + c(N)`, where `s` is the common left shift applied to every folded
value and `c(N)` is `2` for `N ≤ 20`, `1` for `20 < N ≤ 120` and `0` above; the value
is stored in a `Word16`, hence exact whenever it is representable there. -/
theorem C9_exponent_correction (env : MdctEnv) (N wLen memLen : Int)
    (w x mem y scratch : List Int) (hg : MdctGeom N wLen memLen w x mem y scratch) :
    ∃ f r, mdctFold N wLen memLen w x mem y scratch = some f ∧
      processMdct_fx env N wLen memLen w x mem y scratch = some r ∧
      r.s = wrap16 (s_max 0 (env.getScaleFactor32 f.y N)) ∧
      (∀ j, 0 ≤ j → j < N → ∃ v, rd f.y j = some v ∧ rd r.y j = some (env.L_shl v r.s)) ∧
      r.y_e = wrap16 (env.X_EXP - 2 - r.s +
        (if N ≤ 20 then 2 else if N ≤ 120 then 1 else 0)) ∧
      (in16 (env.X_EXP - 2 - r.s + (if N ≤ 20 then 2 else if N ≤ 120 then 1 else 0)) →
        r.y_e = env.X_EXP - 2 - r.s + (if N ≤ 20 then 2 else if N ≤ 120 then 1 else 0)) := by
  obtain ⟨f, r, hf, hr, -, hrs, -, hry, hye⟩ := processMdct_fx_spec env hg
  obtain ⟨f2, hf2, -, hylen, -⟩ := mdctFold_spec hg
  have hff : f2 = f := Option.some.inj (hf2.symm.trans hf)
  subst hff
  refine ⟨f2, r, hf, hr, hrs, ?_, hye, ?_⟩
  · intro j hj0 hj1
    obtain ⟨v, hv⟩ := rd_isSome (a := f2.y) hj0 (by omega)
    exact ⟨v, hv, by rw [hry j hj0 hj1, hv]; rfl⟩
  · intro h16
    rw [hye]
    exact wrap16_of_in16 h16

theorem C9_exponent_correction_witness :
    MdctGeom 4 7 3 [1, 2, 3, 4, 5, 6, 7] [10, 20, 30, 40] [7, 8, 9] [0, 0, 0, 0]
        [0, 0, 0, 0, 0] ∧
      processMdct_fx (shiftEnv 3) 4 7 3 [1, 2, 3, 4, 5, 6, 7] [10, 20, 30, 40] [7, 8, 9]
        [0, 0, 0, 0] [0, 0, 0, 0, 0] = some ⟨[20, 30, 40], [3680, 800, -264, -88], 12, 3⟩ ∧
      ∃ f r, mdctFold 4 7 3 [1, 2, 3, 4, 5, 6, 7] [10, 20, 30, 40] [7, 8, 9] [0, 0, 0, 0]
          [0, 0, 0, 0, 0] = some f ∧
        processMdct_fx (shiftEnv 3) 4 7 3 [1, 2, 3, 4, 5, 6, 7] [10, 20, 30, 40] [7, 8, 9]
          [0, 0, 0, 0] [0, 0, 0, 0, 0] = some r ∧
        r.s = wrap16 (s_max 0 ((shiftEnv 3).getScaleFactor32 f.y 4)) ∧
        (∀ j, 0 ≤ j → j < 4 →
          ∃ v, rd f.y j = some v ∧ rd r.y j = some ((shiftEnv 3).L_shl v r.s)) ∧
        r.y_e = wrap16 ((shiftEnv 3).X_EXP - 2 - r.s +
          (if (4 : Int) ≤ 20 then 2 else if (4 : Int) ≤ 120 then 1 else 0)) ∧
        (in16 ((shiftEnv 3).X_EXP - 2 - r.s +
            (if (4 : Int) ≤ 20 then 2 else if (4 : Int) ≤ 120 then 1 else 0)) →
          r.y_e = (shiftEnv 3).X_EXP - 2 - r.s +
            (if (4 : Int) ≤ 20 then 2 else if (4 : Int) ≤ 120 then 1 else 0)) :=
  ⟨by decide, by decide, C9_exponent_correction (shiftEnv 3) 4 7 3 [1, 2, 3, 4, 5, 6, 7]
    [10, 20, 30, 40] [7, 8, 9] [0, 0, 0, 0] [0, 0, 0, 0, 0] (by decide)⟩

/-- C10 (counterexample): an all-zero block after a non-zero history.  The first-half
value `mem[0]*w[0] - mem[1]*w[1] = 1` is folded from the history, and the kernel
receives `2^30` at index 1. -/
theorem C10_nonzero_history_counterexample :
    MdctGeom 2 4 2 [1, 0, 0, 0] [0, 0] [1, 0] [0, 0] [0, 0] ∧ AllZero [0, 0] ∧
      mdctFold 2 4 2 [1, 0, 0, 0] [0, 0] [1, 0] [0, 0] [0, 0] =
        some ⟨[0, 0], [1, 0], [0, 1]⟩ ∧
      processMdct_fx (shiftEnv 30) 2 4 2 [1, 0, 0, 0] [0, 0] [1, 0] [0, 0] [0, 0] =
        some ⟨[0, 0], [0, 1073741824], -15, 30⟩ := by
  decide

/-- C10 (amended): for an all-zero block `x`, every window and every history, the
second-half values (indices below `N/2`, which read `x` alone) handed to the kernel
are zero; if the carried history is all zero as well, all `N` values are zero
(a shift of `0` being `0`). -/
theorem C10_zero_block_fold (env : MdctEnv) (N wLen memLen : Int)
    (w x mem y scratch : List Int) (hg : MdctGeom N wLen memLen w x mem y scratch)
    (hx0 : AllZero x) (hshl : ∀ s, env.L_shl 0 s = 0) :
    ∃ r, processMdct_fx env N wLen memLen w x mem y scratch = some r ∧
      (∀ j, 0 ≤ j → j < N / 2 → rd r.y j = some 0) ∧
      (AllZero mem → ∀ j, 0 ≤ j → j < N → rd r.y j = some 0) := by
  obtain ⟨f, r, hf, hr, -, -, -, hry, -⟩ := processMdct_fx_spec env hg
  obtain ⟨f2, hf2, -, -, -, hbuf1, hbuf2, hfirst, hsingle, hpair⟩ := mdctFold_spec hg
  have hff : f2 = f := Option.some.inj (hf2.symm.trans hf)
  subst hff
  obtain ⟨h0, h1, h2, hz0, hz1, hm0, hm1, hw, hx, hmemlen, hy, hs⟩ := hg
  have hlow : ∀ j, 0 ≤ j → j < N / 2 → rd r.y j = some 0 := by
    intro j hj0 hj1
    have hfy : rd f2.y j = some 0 := by
      have hj : N / 2 - 1 - (N / 2 - 1 - j) = j := by omega
      by_cases hiz : N / 2 - 1 - j < 2 * N - wLen
      · obtain ⟨v, hv, hyv⟩ := hsingle (N / 2 - 1 - j) (by omega) hiz
        rw [hj] at hyv
        rw [hyv, foldSingleVal_zero hx0 hv]
      · obtain ⟨v, hv, hyv⟩ := hpair (N / 2 - 1 - j) (by omega) (by omega)
        rw [hj] at hyv
        rw [hyv, foldPairVal_zero hx0 hv]
    rw [hry j hj0 (by omega), hfy]
    show some (env.L_shl 0 r.s) = some 0
    rw [hshl]
  refine ⟨r, hr, hlow, ?_⟩
  intro hmem0 j hj0 hj1
  by_cases hjl : j < N / 2
  · exact hlow j hj0 hjl
  · have hbz : ∀ k, 0 ≤ k → k < N → ∀ a, rd f2.buf k = some a → a = 0 := by
      intro k hk0 hk1 a hka
      by_cases hk : k < memLen
      · rw [hbuf1 k hk0 hk] at hka
        exact hmem0 a (rd_mem hka)
      · rw [hbuf2 k (by omega) hk1] at hka
        exact hx0 a (rd_mem hka)
    have hfy : rd f2.y j = some 0 := by
      obtain ⟨v, hv, hyv⟩ := hfirst (j - N / 2) (by omega) (by omega)
      have hj : N / 2 + (j - N / 2) = j := by omega
      rw [hj] at hyv
      rw [hyv, foldFirstVal_zero (hbz _ (by omega) (by omega))
        (hbz _ (by omega) (by omega)) hv]
    rw [hry j hj0 hj1, hfy]
    show some (env.L_shl 0 r.s) = some 0
    rw [hshl]

theorem C10_zero_block_fold_witness :
    MdctGeom 4 7 3 [1, 2, 3, 4, 5, 6, 7] [0, 0, 0, 0] [0, 0, 0] [5, 5, 5, 5]
        [0, 0, 0, 0, 0] ∧
      AllZero [0, 0, 0, 0] ∧ (∀ s, (shiftEnv 3).L_shl 0 s = 0) ∧
      ∃ r, processMdct_fx (shiftEnv 3) 4 7 3 [1, 2, 3, 4, 5, 6, 7] [0, 0, 0, 0] [0, 0, 0]
          [5, 5, 5, 5] [0, 0, 0, 0, 0] = some r ∧
        (∀ j, 0 ≤ j → j < 4 / 2 → rd r.y j = some 0) ∧
        (AllZero [0, 0, 0] → ∀ j, 0 ≤ j → j < 4 → rd r.y j = some 0) :=
  ⟨by decide, by decide, fun s => by simp [shiftEnv, wrap32],
    C10_zero_block_fold (shiftEnv 3) 4 7 3 [1, 2, 3, 4, 5, 6, 7] [0, 0, 0, 0] [0, 0, 0]
      [5, 5, 5, 5] [0, 0, 0, 0, 0] (by decide) (by decide)
      (fun s => by simp [shiftEnv, wrap32])⟩

/-! Loop invariants -/

theorem forLoopAux_inv {σ : Type} (body : Int → σ → Option σ) (P : Int → σ → Prop) :
    ∀ (n : Nat) (i0 : Int) (st : σ), P i0 st →
      (∀ k : Nat, k < n → ∀ s, P (i0 + k) s →
        ∃ s1, body (i0 + k) s = some s1 ∧ P (i0 + k + 1) s1) →
      ∃ st1, forLoopAux body n i0 st = some (i0 + n, st1) ∧ P (i0 + n) st1 := by
  intro n
  induction n with
  | zero =>
    intro i0 st h0 _
    exact ⟨st, by simp [forLoopAux], by simpa using h0⟩
  | succ n ih =>
    intro i0 st h0 hstep
    obtain ⟨s1, hb, hP⟩ := hstep 0 (Nat.succ_pos n) st (by simpa using h0)
    simp only [Nat.cast_zero, add_zero] at hb hP
    have hshift : ∀ k : Nat, i0 + 1 + (k : Int) = i0 + ((k + 1 : Nat) : Int) := by
      intro k
      push_cast
      ring
    obtain ⟨st1, hrun, hP1⟩ := ih (i0 + 1) s1 hP (by
      intro k hk s hs
      rw [hshift k] at hs ⊢
      exact hstep (k + 1) (Nat.succ_lt_succ hk) s hs)
    refine ⟨st1, ?_, ?_⟩
    · simp only [forLoopAux, hb]
      rw [hrun]
      congr 2
      push_cast
      ring
    · have e : i0 + ((n + 1 : Nat) : Int) = i0 + 1 + (n : Int) := by
        push_cast
        ring
      rw [e]
      exact hP1

/-- An invariant indexed by the loop counter holds after the loop, which returns. -/
theorem forLoop_inv {σ : Type} (body : Int → σ → Option σ) (P : Int → σ → Prop)
    (i0 hi : Int) (st : σ) (hle : i0 ≤ hi) (h0 : P i0 st)
    (hstep : ∀ i s, i0 ≤ i → i < hi → P i s → ∃ s1, body i s = some s1 ∧ P (i + 1) s1) :
    ∃ st1, forLoop i0 hi body st = some (hi, st1) ∧ P hi st1 := by
  obtain ⟨st1, hrun, hP⟩ := forLoopAux_inv body P (hi - i0).toNat i0 st h0
    (fun k hk s hs => hstep _ s (by omega) (by omega) hs)
  have e : i0 + ((hi - i0).toNat : Int) = hi := by omega
  rw [e] at hrun hP
  exact ⟨st1, hrun, hP⟩

/-- A loop whose bound is not above its start does nothing. -/
theorem forLoop_empty {σ : Type} (body : Int → σ → Option σ) {i0 hi : Int} (st : σ)
    (h : hi ≤ i0) : forLoop i0 hi body st = some (i0, st) := by
  unfold forLoop
  have e : (hi - i0).toNat = 0 := by omega
  rw [e]
  rfl

/-- A property of the state kept by every round holds after the loop, which returns. -/
theorem forLoop_keeps {σ : Type} (body : Int → σ → Option σ) (Q : σ → Prop)
    (i0 hi : Int) (st : σ) (h0 : Q st)
    (hstep : ∀ i s, i0 ≤ i → i < hi → Q s → ∃ s1, body i s = some s1 ∧ Q s1) :
    ∃ c st1, forLoop i0 hi body st = some (c, st1) ∧ Q st1 := by
  by_cases hle : i0 ≤ hi
  · obtain ⟨st1, hrun, hQ⟩ := forLoop_inv body (fun _ s => Q s) i0 hi st hle h0 hstep
    exact ⟨hi, st1, hrun, hQ⟩
  · exact ⟨i0, st, forLoop_empty body st (by omega), h0⟩

theorem wr_isSome {a : List Int} {i : Int} (v : Int) (h0 : 0 ≤ i) (h1 : i < a.length) :
    ∃ a1, wr a i v = some a1 ∧ a1.length = a.length ∧ rd a1 i = some v ∧
      ∀ j, j ≠ i → rd a1 j = rd a j :=
  ⟨a.set i.toNat v, wr_some v h0 h1, List.length_set _ _ _, rd_set_same v h0 h1,
    fun _ hj => rd_set_other a v h0 hj⟩

/-- A band loop whose steps succeed stores, for every band of its range, the two
values of the step taken at the running index of that band, and nothing else. -/
theorem bandLoop_spec (step : Int → Int → Option (Int × Int × Int))
    (iseq V E : Int → Int) (lo hi : Int) (st0 : BandState) (hle : lo ≤ hi) (hlo : 0 ≤ lo)
    (hi0 : st0.i = iseq lo) (hd2 : hi ≤ st0.d2_fx.length)
    (hex : hi ≤ st0.d2_band_fx_exp.length)
    (hstep : ∀ b, lo ≤ b → b < hi → step b (iseq b) = some (iseq (b + 1), V b, E b)) :
    ∃ st, forLoop lo hi (bandBody step) st0 = some (hi, st) ∧ st.i = iseq hi ∧
      st.d2_fx.length = st0.d2_fx.length ∧
      st.d2_band_fx_exp.length = st0.d2_band_fx_exp.length ∧
      (∀ b, lo ≤ b → b < hi →
        rd st.d2_fx b = some (V b) ∧ rd st.d2_band_fx_exp b = some (E b)) ∧
      (∀ b, b < lo ∨ hi ≤ b →
        rd st.d2_fx b = rd st0.d2_fx b ∧
        rd st.d2_band_fx_exp b = rd st0.d2_band_fx_exp b) := by
  obtain ⟨st, hrun, hP⟩ := forLoop_inv (bandBody step)
    (fun band st => st.i = iseq band ∧ st.d2_fx.length = st0.d2_fx.length ∧
      st.d2_band_fx_exp.length = st0.d2_band_fx_exp.length ∧
      (∀ b, lo ≤ b → b < band →
        rd st.d2_fx b = some (V b) ∧ rd st.d2_band_fx_exp b = some (E b)) ∧
      (∀ b, b < lo ∨ band ≤ b →
        rd st.d2_fx b = rd st0.d2_fx b ∧
        rd st.d2_band_fx_exp b = rd st0.d2_band_fx_exp b))
    lo hi st0 hle
    ⟨hi0, rfl, rfl, fun b h1 h2 => absurd h2 (by omega), fun b _ => ⟨rfl, rfl⟩⟩
    (by
      intro band s h1 h2 ⟨hsi, hl1, hl2, hin, hout⟩
      obtain ⟨d2, hw1, hd2len, hd2same, hd2other⟩ :=
        wr_isSome (a := s.d2_fx) (i := band) (V band) (by omega) (by omega)
      obtain ⟨ex, hw2, hexlen, hexsame, hexother⟩ :=
        wr_isSome (a := s.d2_band_fx_exp) (i := band) (E band) (by omega) (by omega)
      refine ⟨⟨iseq (band + 1), d2, ex⟩, ?_, rfl, ?_, ?_, ?_, ?_⟩
      · simp [bandBody, hsi, hstep band h1 h2, hw1, hw2]
      · show d2.length = _
        omega
      · show ex.length = _
        omega
      · intro b hb1 hb2
        show rd d2 b = _ ∧ rd ex b = _
        by_cases hb : b = band
        · subst hb
          exact ⟨hd2same, hexsame⟩
        · rw [hd2other b hb, hexother b hb]
          exact hin b hb1 (by omega)
      · intro b hb
        show rd d2 b = _ ∧ rd ex b = _
        rw [hd2other b (by omega), hexother b (by omega)]
        exact hout b (by omega))
  obtain ⟨hsi, hl1, hl2, hin, hout⟩ := hP
  exact ⟨st, hrun, hsi, hl1, hl2, hin, hout⟩

/-! The band loops -/

theorem rd_zext {l : List Int} {j : Int} (h0 : 0 ≤ j) (h1 : j < l.length) :
    rd l j = some (zext l j) := by
  obtain ⟨v, hv⟩ := rd_isSome (a := l) h0 h1
  unfold zext
  rw [hv]
  rfl

theorem shl_one (x : Int) : shl x 1 = some (wrap32 (x * 2)) := by
  simp [shl]

theorem ASSERT_true (env : BandEnv) {c : Prop} [Decidable c] (h : c) :
    ASSERT env c = some () := by
  unfold ASSERT
  rw [if_neg (fun hh => hh.2 h)]

theorem ASSERT_off {env : BandEnv} (h : env.asserts = false) (c : Prop) [Decidable c] :
    ASSERT env c = some () := by
  unfold ASSERT
  rw [if_neg (fun hh => by rw [h] at hh; exact absurd hh.1 (by decide))]

theorem assertWidth_ok (env : BandEnv) {bo : List Int} {band width hi lo : Int}
    (h1 : rd bo (band + 1) = some hi) (h2 : rd bo band = some lo)
    (h : wrap32 (hi - lo) = width) : assertWidth env bo band width = some () := by
  unfold assertWidth
  split
  · simp [h1, h2, ASSERT_true env h]
  · rfl

theorem in16_normShift (env : BandEnv) (d : Int) {s2 : Int} (h : in16 s2) :
    in16 (normShift env d s2) := by
  unfold normShift
  split
  · exact in16_wrap16 _
  · exact h

theorem singleEnergy_eq (env : BandEnv) {d_fx : List Int} {idx d : Int}
    (h : rd d_fx idx = some d) :
    singleEnergy env d_fx idx =
      some (L_mult0 (extract_h (env.L_shl d (normShift env d 15)))
          (extract_h (env.L_shl d (normShift env d 15))),
        wrap16 (sub 1 (wrap32 (normShift env d 15 * 2)))) := by
  simp [singleEnergy, h, shl_one]

theorem pairEnergy_eq (env : BandEnv) {d_fx : List Int} {i d0 d1 : Int}
    (h0 : rd d_fx i = some d0) (h1 : rd d_fx (i + 1) = some d1) :
    pairEnergy env d_fx i =
      some (env.L_shr (L_mac0
            (L_min (L_mult0 (extract_h (env.L_shl d0 (normShift env d1 (normShift env d0 15))))
              (extract_h (env.L_shl d0 (normShift env d1 (normShift env d0 15))))) 1073741823)
            (extract_h (env.L_shl d1 (normShift env d1 (normShift env d0 15))))
            (extract_h (env.L_shl d1 (normShift env d1 (normShift env d0 15))))) 1,
        wrap16 (sub 1 (wrap32 (normShift env d1 (normShift env d0 15) * 2)))) := by
  simp [pairEnergy, h0, h1, shl_one]

theorem singleEnergy_in16 {env : BandEnv} {d_fx : List Int} {idx v e : Int}
    (h : singleEnergy env d_fx idx = some (v, e)) : in16 e := by
  cases hd : rd d_fx idx with
  | none => simp [singleEnergy, hd] at h
  | some d =>
    rw [singleEnergy_eq env hd] at h
    have := (Prod.mk.inj (Option.some.inj h)).2
    rw [← this]
    exact in16_wrap16 _

theorem pairEnergy_in16 {env : BandEnv} {d_fx : List Int} {i v e : Int}
    (h : pairEnergy env d_fx i = some (v, e)) : in16 e := by
  cases h0 : rd d_fx i with
  | none => simp [pairEnergy, h0] at h
  | some d0 =>
    cases h1 : rd d_fx (i + 1) with
    | none => simp [pairEnergy, h0, h1] at h
    | some d1 =>
      rw [pairEnergy_eq env h0 h1] at h
      have := (Prod.mk.inj (Option.some.inj h)).2
      rw [← this]
      exact in16_wrap16 _

theorem widthTwoVal_in16 {env : BandEnv} {maxBwBin : Int} {d_fx : List Int}
    {band i v e : Int} (h : widthTwoVal env maxBwBin d_fx band i = some (v, e)) :
    in16 e := by
  unfold widthTwoVal at h
  split at h
  · split at h
    · simp [shl] at h
      rw [← h.2]
      exact in16_wrap16 _
    · exact singleEnergy_in16 h
  · cases ha : ASSERT env (i + 1 < maxBwBin) with
    | none => simp [ha] at h
    | some u =>
      simp [ha] at h
      exact pairEnergy_in16 h

theorem clampWidth_range (x : Int) :
    0 ≤ wrap16 (s_min (s_max 0 x) 31) ∧ wrap16 (s_min (s_max 0 x) 31) ≤ 31 := by
  unfold s_min s_max wrap16
  split_ifs <;> omega

/-- The values of the third-regime step in terms of the results of its two inner
loops and of its two table reads. -/
theorem wideVal_eq (env : BandEnv) {maxBwBin : Int} {bo d_fx : List Int}
    {band i hi lo c1 s1 c c2 nrg r : Int}
    (h1 : rd bo (band + 1) = some hi) (h2 : rd bo band = some lo)
    (hl1 : forLoop i (wrap16 (s_min hi maxBwBin))
      (fun k s1 => (rd d_fx k).map (fun d => normShift env d s1)) 15 = some (c1, s1))
    (hA : env.asserts = true → wrap16 (sub hi lo) < 32)
    (hc : rd env.bands_nrg_scale (wrap16 (s_min (s_max 0 (wrap16 (sub hi lo))) 31)) = some c)
    (hl2 : forLoop i (wrap16 (s_min hi maxBwBin))
      (fun i nrg => (rd d_fx i).map (fun d =>
        L_mac0 nrg (extract_h (env.L_shl d (wrap16 (sub s1 c))))
          (extract_h (env.L_shl d (wrap16 (sub s1 c)))))) 0 = some (c2, nrg))
    (hr : rd env.InvIntTable (wrap16 (s_min (s_max 0 (wrap16 (sub hi lo))) 31)) = some r) :
    wideVal env maxBwBin bo d_fx band i =
      some (env.L_shl (env.Mpy_32_16 nrg r) (wrap16 (env.norm_l (env.Mpy_32_16 nrg r))),
        wrap16 (sub 1 (add (wrap32 (wrap16 (sub s1 c) * 2))
          (wrap16 (env.norm_l (env.Mpy_32_16 nrg r)))))) := by
  have hassert : ASSERT env (wrap16 (sub hi lo) < 32) = some () := by
    cases ha : env.asserts with
    | false => exact ASSERT_off ha _
    | true => exact ASSERT_true env (hA ha)
  simp [wideVal, wideShift, wideAccum, h1, h2, hl1, hassert, hc, hl2, hr, shl_one]

/-- The third-regime step returns once its table reads and its coefficient reads are
in range and its assertion holds; the exponent it stores is a 16-bit word. -/
theorem wideVal_isSome (env : BandEnv) {maxBwBin : Int} {bo d_fx : List Int}
    {band i hi lo : Int} (h1 : rd bo (band + 1) = some hi) (h2 : rd bo band = some lo)
    (hrd : ∀ k, i ≤ k → k < wrap16 (s_min hi maxBwBin) → ∃ d, rd d_fx k = some d)
    (hA : wrap16 (sub hi lo) < 32)
    (ht1 : env.bands_nrg_scale.length = 32) (ht2 : env.InvIntTable.length = 32) :
    ∃ v e, wideVal env maxBwBin bo d_fx band i = some (v, e) ∧ in16 e := by
  obtain ⟨c1, s1, hl1, -⟩ := forLoop_keeps
    (fun k s1 => (rd d_fx k).map (fun d => normShift env d s1)) (fun _ => True)
    i (wrap16 (s_min hi maxBwBin)) 15 trivial
    (fun k s hk1 hk2 _ => by
      obtain ⟨d, hd⟩ := hrd k hk1 hk2
      refine ⟨normShift env d s, ?_, trivial⟩
      dsimp only
      rw [hd]
      rfl)
  have hn := clampWidth_range (wrap16 (sub hi lo))
  obtain ⟨c, hc⟩ := rd_isSome (a := env.bands_nrg_scale)
    (i := wrap16 (s_min (s_max 0 (wrap16 (sub hi lo))) 31)) hn.1 (by rw [ht1]; omega)
  obtain ⟨r, hr⟩ := rd_isSome (a := env.InvIntTable)
    (i := wrap16 (s_min (s_max 0 (wrap16 (sub hi lo))) 31)) hn.1 (by rw [ht2]; omega)
  obtain ⟨c2, nrg, hl2, -⟩ := forLoop_keeps
    (fun i nrg => (rd d_fx i).map (fun d =>
      L_mac0 nrg (extract_h (env.L_shl d (wrap16 (sub s1 c))))
        (extract_h (env.L_shl d (wrap16 (sub s1 c))))))
    (fun _ => True) i (wrap16 (s_min hi maxBwBin)) 0 trivial
    (fun k s hk1 hk2 _ => by
      obtain ⟨d, hd⟩ := hrd k hk1 hk2
      refine ⟨L_mac0 s (extract_h (env.L_shl d (wrap16 (sub s1 c))))
        (extract_h (env.L_shl d (wrap16 (sub s1 c)))), ?_, trivial⟩
      dsimp only
      rw [hd]
      rfl)
  exact ⟨_, _, wideVal_eq env h1 h2 hl1 (fun _ => hA) hc hl2 hr, in16_wrap16 _⟩

theorem bandGeom_offset {env : BandEnv} {maxBwBin b1 b2 n : Int} {d_fx bo d2 ex : List Int}
    (hg : BandGeom env maxBwBin b1 b2 n d_fx bo d2 ex) {band : Int} (h0 : 0 ≤ band)
    (h1 : band ≤ n) :
    rd bo band = some (zext bo band) ∧ 0 ≤ zext bo band ∧
      zext bo band ≤ (d_fx.length : Int) ∧ zext bo band ≤ 32767 ∧
      (band ≤ b1 → zext bo band = band) ∧
      (b1 ≤ band → band ≤ b2 → zext bo band = b1 + 2 * (band - b1)) ∧
      (b2 ≤ band → band < n →
        zext bo band ≤ zext bo (band + 1) ∧ zext bo (band + 1) - zext bo band < 32) := by
  obtain ⟨-, -, -, hbo, -, -, -, -, hA, hB, hC, hD, -, -⟩ := hg
  have hk : ((band.toNat : Nat) : Int) = band := by omega
  have hlt : band.toNat < bo.length := by omega
  have a := hA band.toNat hlt
  have b := hB band.toNat hlt
  have c := hC band.toNat hlt
  have d := hD band.toNat hlt
  rw [hk] at a b c d
  exact ⟨rd_zext h0 (by omega), a.1, a.2.1, a.2.2, b, c, fun h2 h3 => d (by omega) h2⟩

theorem sub_exact {a b : Int} (ha : -65536 ≤ a ∧ a ≤ 65536) (hb : -65536 ≤ b ∧ b ≤ 65536) :
    sub a b = a - b := by
  unfold sub wrap32
  omega

theorem add_exact {a b : Int} (ha : -65536 ≤ a ∧ a ≤ 65536) (hb : -65536 ≤ b ∧ b ≤ 65536) :
    add a b = a + b := by
  unfold add wrap32
  omega

/-- A width-2 band whose first index is at or beyond `maxBwBin` stores `0` with
exponent `-29`. -/
theorem widthTwoVal_beyond (env : BandEnv) {maxBwBin : Int} (d_fx : List Int) (band : Int)
    {i : Int} (hi : 0 ≤ i ∧ i ≤ 32767) (hm : in16 maxBwBin) (h : maxBwBin ≤ i) :
    widthTwoVal env maxBwBin d_fx band i = some (0, -29) := by
  unfold in16 MIN_16 MAX_16 at hm
  have e1 : sub (add i 1) maxBwBin = i + 1 - maxBwBin := by
    rw [add_exact (by omega) (by omega), sub_exact (by omega) (by omega)]
  have e2 : sub i maxBwBin = i - maxBwBin := sub_exact (by omega) (by omega)
  unfold widthTwoVal
  rw [e1, e2, if_pos (by omega), if_pos (by omega)]
  decide

/-- A width-2 band with only its first index below `maxBwBin` stores the normalized
square of `d_fx[band]`. -/
theorem widthTwoVal_boundary (env : BandEnv) {maxBwBin : Int} (d_fx : List Int) (band : Int)
    {i : Int} (hi : 0 ≤ i ∧ i ≤ 32767) (hm : in16 maxBwBin) (h1 : i < maxBwBin)
    (h2 : maxBwBin ≤ i + 1) :
    widthTwoVal env maxBwBin d_fx band i = singleEnergy env d_fx band := by
  unfold in16 MIN_16 MAX_16 at hm
  have e1 : sub (add i 1) maxBwBin = i + 1 - maxBwBin := by
    rw [add_exact (by omega) (by omega), sub_exact (by omega) (by omega)]
  have e2 : sub i maxBwBin = i - maxBwBin := sub_exact (by omega) (by omega)
  unfold widthTwoVal
  rw [e1, e2, if_pos (by omega), if_neg (by omega)]

/-- A width-2 band with both indices below `maxBwBin` stores the energy of the pair
`d_fx[i]`, `d_fx[i + 1]`. -/
theorem widthTwoVal_inside (env : BandEnv) {maxBwBin : Int} (d_fx : List Int) (band : Int)
    {i : Int} (hi : 0 ≤ i ∧ i ≤ 32767) (hm : in16 maxBwBin) (h : i + 1 < maxBwBin) :
    widthTwoVal env maxBwBin d_fx band i = pairEnergy env d_fx i := by
  unfold in16 MIN_16 MAX_16 at hm
  have e1 : sub (add i 1) maxBwBin = i + 1 - maxBwBin := by
    rw [add_exact (by omega) (by omega), sub_exact (by omega) (by omega)]
  unfold widthTwoVal
  rw [e1, if_neg (by omega)]
  simp [ASSERT_true env h]

theorem pair_getD {o : Option (Int × Int)} (h : ∃ v e, o = some (v, e)) :
    o = some ((o.getD (0, 0)).1, (o.getD (0, 0)).2) := by
  obtain ⟨v, e, hv⟩ := h
  rw [hv]
  rfl

/-- The band loops return under the geometry, and every band holds the two values
its regime computes at the running index of the band: `band` itself in the width-1
regime, `b1 + 2 (band - b1)` in the width-2 regime, `band_offsets[band]` in the third
one.  Every stored exponent is a 16-bit word. -/
theorem bandLoops_spec {env : BandEnv} {maxBwBin b1 b2 n : Int} {d_fx bo d2 ex : List Int}
    (hg : BandGeom env maxBwBin b1 b2 n d_fx bo d2 ex) :
    ∃ st, bandLoops env maxBwBin b1 b2 n d_fx bo d2 ex = some st ∧
      (st.d2_fx.length : Int) = n ∧ n ≤ (st.d2_band_fx_exp.length : Int) ∧
      (∀ band, 0 ≤ band → band < b1 →
        ∃ v e, singleEnergy env d_fx band = some (v, e) ∧ in16 e ∧
          rd st.d2_fx band = some v ∧ rd st.d2_band_fx_exp band = some e) ∧
      (∀ band, b1 ≤ band → band < b2 →
        ∃ v e, widthTwoVal env maxBwBin d_fx band (b1 + 2 * (band - b1)) = some (v, e) ∧
          in16 e ∧ rd st.d2_fx band = some v ∧ rd st.d2_band_fx_exp band = some e) ∧
      (∀ band, b2 ≤ band → band < n →
        ∃ v e, wideVal env maxBwBin bo d_fx band (zext bo band) = some (v, e) ∧
          in16 e ∧ rd st.d2_fx band = some v ∧ rd st.d2_band_fx_exp band = some e) := by
  have hg0 := hg
  obtain ⟨hb1, hb12, hb2n, hbo, hd2, hexl, hmax, hb1max, -, -, -, -, ht1, ht2⟩ := hg
  have hmax2 := hmax
  unfold in16 MIN_16 MAX_16 at hmax2
  -- the three regimes return
  have hone : ∀ band, 0 ≤ band → band < b1 →
      ∃ v e, singleEnergy env d_fx band = some (v, e) ∧ in16 e ∧
        ∀ i, widthOneStep env maxBwBin bo d_fx band i = some (i, v, e) := by
    intro band h0 h1
    obtain ⟨r0, -, -, -, l0, -, -⟩ := bandGeom_offset hg0 h0 (by omega)
    obtain ⟨r1, -, u1, -, l1, -, -⟩ := bandGeom_offset hg0 (by omega : 0 ≤ band + 1)
      (by omega : band + 1 ≤ n)
    rw [l0 (by omega)] at r0
    rw [l1 (by omega)] at r1 u1
    obtain ⟨d, hd⟩ := rd_isSome (a := d_fx) h0 (by omega)
    have hs := singleEnergy_eq env hd
    refine ⟨_, _, hs, in16_wrap16 _, ?_⟩
    intro i
    have ha := assertWidth_ok env r1 r0 (by unfold wrap32; omega : wrap32 (_ - _) = 1)
    have hb : ASSERT env (band < maxBwBin) = some () := by
      cases ha : env.asserts with
      | false => exact ASSERT_off ha _
      | true => exact ASSERT_true env (by have := hb1max ha; omega)
    simp [widthOneStep, ha, hb, hs]
  have htwo : ∀ band, b1 ≤ band → band < b2 →
      ∃ v e, widthTwoVal env maxBwBin d_fx band (b1 + 2 * (band - b1)) = some (v, e) ∧
        in16 e ∧
        widthTwoStep env maxBwBin bo d_fx band (b1 + 2 * (band - b1)) =
          some (b1 + 2 * (band + 1 - b1), v, e) := by
    intro band h0 h1
    obtain ⟨r0, p0, -, q0, -, l0, -⟩ := bandGeom_offset hg0 (by omega : 0 ≤ band)
      (by omega : band ≤ n)
    obtain ⟨r1, -, u1, q1, -, l1, -⟩ := bandGeom_offset hg0 (by omega : 0 ≤ band + 1)
      (by omega : band + 1 ≤ n)
    rw [l0 h0 (by omega)] at r0 p0 q0
    rw [l1 (by omega) (by omega)] at r1 u1 q1
    have ha := assertWidth_ok env r1 r0 (by unfold wrap32; omega : wrap32 (_ - _) = 2)
    have hval : ∃ v e, widthTwoVal env maxBwBin d_fx band (b1 + 2 * (band - b1)) =
        some (v, e) := by
      by_cases c1 : b1 + 2 * (band - b1) + 1 < maxBwBin
      · rw [widthTwoVal_inside env d_fx band ⟨p0, q0⟩ hmax c1]
        obtain ⟨d0, hd0⟩ := rd_isSome (a := d_fx) (i := b1 + 2 * (band - b1)) p0 (by omega)
        obtain ⟨d1, hd1⟩ := rd_isSome (a := d_fx) (i := b1 + 2 * (band - b1) + 1)
          (by omega) (by omega)
        exact ⟨_, _, pairEnergy_eq env hd0 hd1⟩
      · by_cases c2 : b1 + 2 * (band - b1) < maxBwBin
        · rw [widthTwoVal_boundary env d_fx band ⟨p0, q0⟩ hmax c2 (by omega)]
          obtain ⟨d, hd⟩ := rd_isSome (a := d_fx) (i := band) (by omega) (by omega)
          exact ⟨_, _, singleEnergy_eq env hd⟩
        · exact ⟨_, _, widthTwoVal_beyond env d_fx band ⟨p0, q0⟩ hmax (by omega)⟩
    obtain ⟨v, e, hv⟩ := hval
    refine ⟨v, e, hv, widthTwoVal_in16 hv, ?_⟩
    have hadd : add (b1 + 2 * (band - b1)) 2 = b1 + 2 * (band + 1 - b1) := by
      rw [add_exact (by omega) (by omega)]
      ring
    simp [widthTwoStep, ha, hv, hadd]
  have hwide : ∀ band, b2 ≤ band → band < n →
      ∃ v e, wideVal env maxBwBin bo d_fx band (zext bo band) = some (v, e) ∧ in16 e ∧
        wideStep env maxBwBin bo d_fx band (zext bo band) =
          some (zext bo (band + 1), v, e) := by
    intro band h0 h1
    obtain ⟨r0, p0, -, q0, -, -, m0⟩ := bandGeom_offset hg0 (by omega : 0 ≤ band)
      (by omega : band ≤ n)
    obtain ⟨r1, p1, u1, q1, -, -, -⟩ := bandGeom_offset hg0 (by omega : 0 ≤ band + 1)
      (by omega : band + 1 ≤ n)
    have hm := m0 h0 h1
    have hstop : wrap16 (s_min (zext bo (band + 1)) maxBwBin) ≤ zext bo (band + 1) := by
      unfold s_min wrap16
      split_ifs <;> omega
    have hrd : ∀ k, zext bo band ≤ k →
        k < wrap16 (s_min (zext bo (band + 1)) maxBwBin) → ∃ d, rd d_fx k = some d :=
      fun k hk1 hk2 => rd_isSome (by omega) (by omega)
    obtain ⟨v, e, hv, he⟩ := wideVal_isSome env r1 r0 hrd
      (by rw [sub_exact (by omega) (by omega)]; unfold wrap16; omega) ht1 ht2
    refine ⟨v, e, hv, he, ?_⟩
    simp [wideStep, hv, r1]
  -- the three loops
  obtain ⟨st1, hl1, -, hd2a, hexa, hin1, -⟩ := bandLoop_spec
    (widthOneStep env maxBwBin bo d_fx) (fun _ => 0)
    (fun b => ((singleEnergy env d_fx b).getD (0, 0)).1)
    (fun b => ((singleEnergy env d_fx b).getD (0, 0)).2) 0 b1 ⟨0, d2, ex⟩ hb1 le_rfl rfl
    (by show b1 ≤ (d2.length : Int); omega) (by show b1 ≤ (ex.length : Int); omega)
    (by
      intro b h0 h1
      obtain ⟨v, e, hs, -, hstep⟩ := hone b h0 h1
      rw [hstep 0]
      dsimp only
      rw [hs]
      rfl)
  try dsimp only at hd2a hexa hin1
  obtain ⟨st2, hl2, hi2, hd2b, hexb, hin2, hout2⟩ := bandLoop_spec
    (widthTwoStep env maxBwBin bo d_fx) (fun b => b1 + 2 * (b - b1))
    (fun b => ((widthTwoVal env maxBwBin d_fx b (b1 + 2 * (b - b1))).getD (0, 0)).1)
    (fun b => ((widthTwoVal env maxBwBin d_fx b (b1 + 2 * (b - b1))).getD (0, 0)).2)
    b1 b2 ⟨b1, st1.d2_fx, st1.d2_band_fx_exp⟩ hb12 hb1
    (by show b1 = b1 + 2 * (b1 - b1); ring)
    (by show b2 ≤ (st1.d2_fx.length : Int); omega)
    (by show b2 ≤ (st1.d2_band_fx_exp.length : Int); omega)
    (by
      intro b h0 h1
      obtain ⟨v, e, hs, -, hstep⟩ := htwo b h0 h1
      rw [hstep]
      dsimp only
      rw [hs]
      rfl)
  try dsimp only at hi2 hd2b hexb hin2 hout2
  have hlay : zext bo b2 = b1 + 2 * (b2 - b1) :=
    (bandGeom_offset hg0 (by omega : 0 ≤ b2) hb2n).2.2.2.2.2.1 hb12 le_rfl
  obtain ⟨st3, hl3, -, hd2c, hexc, hin3, hout3⟩ := bandLoop_spec
    (wideStep env maxBwBin bo d_fx) (fun b => zext bo b)
    (fun b => ((wideVal env maxBwBin bo d_fx b (zext bo b)).getD (0, 0)).1)
    (fun b => ((wideVal env maxBwBin bo d_fx b (zext bo b)).getD (0, 0)).2)
    b2 n st2 hb2n (by omega) (by dsimp only; rw [hi2, hlay])
    (by omega) (by omega)
    (by
      intro b h0 h1
      obtain ⟨v, e, hs, -, hstep⟩ := hwide b h0 h1
      rw [hstep]
      dsimp only
      rw [hs]
      rfl)
  try dsimp only at hin3 hout3
  have hlen1 : (st3.d2_fx.length : Int) = n := by omega
  have hlen2 : n ≤ (st3.d2_band_fx_exp.length : Int) := by omega
  refine ⟨st3, ?_, hlen1, hlen2, ?_, ?_, ?_⟩
  · simp [bandLoops, hl1, hl2, hl3]
  · intro band h0 h1
    obtain ⟨v, e, hs, he, -⟩ := hone band h0 h1
    refine ⟨v, e, hs, he, ?_, ?_⟩
    · rw [(hout3 band (Or.inl (by omega))).1, (hout2 band (Or.inl h1)).1,
        (hin1 band h0 h1).1, hs]
      rfl
    · rw [(hout3 band (Or.inl (by omega))).2, (hout2 band (Or.inl h1)).2,
        (hin1 band h0 h1).2, hs]
      rfl
  · intro band h0 h1
    obtain ⟨v, e, hs, he, -⟩ := htwo band h0 h1
    refine ⟨v, e, hs, he, ?_, ?_⟩
    · rw [(hout3 band (Or.inl h1)).1, (hin2 band h0 h1).1, hs]
      rfl
    · rw [(hout3 band (Or.inl h1)).2, (hin2 band h0 h1).2, hs]
      rfl
  · intro band h0 h1
    obtain ⟨v, e, hs, he, -⟩ := hwide band h0 h1
    refine ⟨v, e, hs, he, ?_, ?_⟩
    · rw [(hin3 band h0 h1).1, hs]
      rfl
    · rw [(hin3 band h0 h1).2, hs]
      rfl

theorem s_max_in16 {a b : Int} (ha : in16 a) (hb : in16 b) :
    wrap16 (s_max a b) = s_max a b ∧ in16 (s_max a b) ∧ a ≤ s_max a b ∧ b ≤ s_max a b ∧
      (s_max a b = a ∨ s_max a b = b) := by
  unfold in16 MIN_16 MAX_16 at *
  unfold s_max wrap16
  split_ifs <;> omega

/-- The whole of lines 90-208 returns under the geometry: `smax` is the largest of
`-31` and the per-band exponents, every band is shifted right by
`s_min(sub(smax, e), 31)`, and the shared exponent is `add(shl_pos(d_fx_exp, 1), smax)`
stored in a `Word16`. -/
theorem perBandEnergyFrom_spec {env : BandEnv} {maxBwBin b1 b2 n : Int}
    {d_fx bo d2 ex : List Int} (hg : BandGeom env maxBwBin b1 b2 n d_fx bo d2 ex)
    (d_fx_exp : Int) :
    ∃ st r, bandLoops env maxBwBin b1 b2 n d_fx bo d2 ex = some st ∧
      perBandEnergyFrom env maxBwBin b1 b2 n d_fx d_fx_exp bo d2 ex = some r ∧
      r.pre = st.d2_fx ∧ r.d2_band_fx_exp = st.d2_band_fx_exp ∧
      (r.d2_fx.length : Int) = n ∧
      in16 r.smax ∧ -31 ≤ r.smax ∧
      (∀ b, 0 ≤ b → b < n → ∀ e, rd st.d2_band_fx_exp b = some e → e ≤ r.smax) ∧
      (r.smax = -31 ∨ ∃ b, 0 ≤ b ∧ b < n ∧ rd st.d2_band_fx_exp b = some r.smax) ∧
      (∀ b, 0 ≤ b → b < n → ∀ v e, rd st.d2_fx b = some v →
        rd st.d2_band_fx_exp b = some e →
        rd r.d2_fx b = some (env.L_shr v (s_min (sub r.smax e) 31))) ∧
      r.d2_fx_exp = wrap16 (add (wrap32 (d_fx_exp * 2)) r.smax) := by
  obtain ⟨st, hst, hlen1, hlen2, hone, htwo, hwide⟩ := bandLoops_spec hg
  obtain ⟨hb1, hb12, hb2n, -⟩ := hg
  have hn0 : 0 ≤ n := by omega
  -- every band holds an energy and a 16-bit exponent
  have hall : ∀ b, 0 ≤ b → b < n →
      ∃ v e, rd st.d2_fx b = some v ∧ rd st.d2_band_fx_exp b = some e ∧ in16 e := by
    intro b h0 h1
    by_cases c1 : b < b1
    · obtain ⟨v, e, -, he, hv, hee⟩ := hone b h0 c1
      exact ⟨v, e, hv, hee, he⟩
    · by_cases c2 : b < b2
      · obtain ⟨v, e, -, he, hv, hee⟩ := htwo b (by omega) c2
        exact ⟨v, e, hv, hee, he⟩
      · obtain ⟨v, e, -, he, hv, hee⟩ := hwide b (by omega) h1
        exact ⟨v, e, hv, hee, he⟩
  -- the maximum exponent
  obtain ⟨smax, hsm, hs16, hs31, hsge, hsat⟩ := forLoop_inv
    (fun band smax => (rd st.d2_band_fx_exp band).map (fun e => wrap16 (s_max smax e)))
    (fun band smax => in16 smax ∧ -31 ≤ smax ∧
      (∀ b, 0 ≤ b → b < band → ∀ e, rd st.d2_band_fx_exp b = some e → e ≤ smax) ∧
      (smax = -31 ∨ ∃ b, 0 ≤ b ∧ b < band ∧ rd st.d2_band_fx_exp b = some smax))
    0 n (-31) hn0
    ⟨by decide, le_rfl, fun b h0 h1 => absurd h1 (by omega), Or.inl rfl⟩
    (by
      intro band s h0 h1 ⟨p16, p31, pge, pat⟩
      obtain ⟨v, e, -, he, he16⟩ := hall band h0 h1
      obtain ⟨q1, q2, q3, q4, q5⟩ := s_max_in16 p16 he16
      refine ⟨s_max s e, ?_, q2, by omega, ?_, ?_⟩
      · dsimp only
        rw [he]
        show some (wrap16 (s_max s e)) = _
        rw [q1]
      · intro b hb0 hb1 e2 he2
        by_cases hb : b = band
        · subst hb
          rw [he] at he2
          have := Option.some.inj he2
          omega
        · have := pge b hb0 (by omega) e2 he2
          omega
      · rcases q5 with q | q
        · rcases pat with p | ⟨b, pb0, pb1, pb2⟩
          · exact Or.inl (by rw [q, p])
          · exact Or.inr ⟨b, pb0, by omega, by rw [q]; exact pb2⟩
        · exact Or.inr ⟨band, h0, by omega, by rw [q]; exact he⟩)
  -- the rescale
  obtain ⟨out, hout, holen, hoin, -⟩ := forLoop_inv
    (fun band d2 => (rd d2 band).bind (fun v => (rd st.d2_band_fx_exp band).bind (fun e =>
      wr d2 band (env.L_shr v (s_min (sub smax e) 31)))))
    (fun band cur => cur.length = st.d2_fx.length ∧
      (∀ b, 0 ≤ b → b < band → ∀ v e, rd st.d2_fx b = some v →
        rd st.d2_band_fx_exp b = some e →
        rd cur b = some (env.L_shr v (s_min (sub smax e) 31))) ∧
      (∀ b, band ≤ b → rd cur b = rd st.d2_fx b))
    0 n st.d2_fx hn0
    ⟨rfl, fun b h0 h1 => absurd h1 (by omega), fun b _ => rfl⟩
    (by
      intro band cur h0 h1 ⟨plen, pin, pout⟩
      obtain ⟨v, e, hv, he, -⟩ := hall band h0 h1
      obtain ⟨cur1, hw, hwlen, hwsame, hwother⟩ := wr_isSome (a := cur) (i := band)
        (env.L_shr v (s_min (sub smax e) 31)) h0 (by omega)
      refine ⟨cur1, ?_, by omega, ?_, ?_⟩
      · dsimp only
        rw [pout band le_rfl, hv, he]
        exact hw
      · intro b hb0 hb1 v2 e2 hv2 he2
        by_cases hb : b = band
        · subst hb
          rw [hv] at hv2
          rw [he] at he2
          rw [← Option.some.inj hv2, ← Option.some.inj he2]
          exact hwsame
        · rw [hwother b hb]
          exact pin b hb0 (by omega) v2 e2 hv2 he2
      · intro b hb
        rw [hwother b (by omega)]
        exact pout b (by omega))
  refine ⟨st, ⟨out, wrap16 (add (wrap32 (d_fx_exp * 2)) smax), st.d2_band_fx_exp, st.d2_fx,
    smax⟩, hst, ?_, rfl, rfl, ?_, hs16, hs31, hsge, hsat, hoin, rfl⟩
  · simp [perBandEnergyFrom, hst, hsm, hout, shl_one]
  · show (out.length : Int) = n
    omega

/-- Summary of a call of lines 90-208 under the geometry, in terms of the result:
the values stored per regime before the rescale, `smax`, the rescale and the shared
exponent. -/
theorem perBandEnergyFrom_bands {env : BandEnv} {maxBwBin b1 b2 n : Int}
    {d_fx bo d2 ex : List Int} (hg : BandGeom env maxBwBin b1 b2 n d_fx bo d2 ex)
    (d_fx_exp : Int) :
    ∃ r, perBandEnergyFrom env maxBwBin b1 b2 n d_fx d_fx_exp bo d2 ex = some r ∧
      (∀ band, 0 ≤ band → band < b1 →
        ∃ v e, singleEnergy env d_fx band = some (v, e) ∧ in16 e ∧
          rd r.pre band = some v ∧ rd r.d2_band_fx_exp band = some e) ∧
      (∀ band, b1 ≤ band → band < b2 →
        ∃ v e, widthTwoVal env maxBwBin d_fx band (b1 + 2 * (band - b1)) = some (v, e) ∧
          in16 e ∧ rd r.pre band = some v ∧ rd r.d2_band_fx_exp band = some e) ∧
      (∀ band, b2 ≤ band → band < n →
        ∃ v e, wideVal env maxBwBin bo d_fx band (zext bo band) = some (v, e) ∧
          in16 e ∧ rd r.pre band = some v ∧ rd r.d2_band_fx_exp band = some e) ∧
      in16 r.smax ∧ -31 ≤ r.smax ∧
      (∀ b, 0 ≤ b → b < n → ∀ e, rd r.d2_band_fx_exp b = some e → e ≤ r.smax) ∧
      (r.smax = -31 ∨ ∃ b, 0 ≤ b ∧ b < n ∧ rd r.d2_band_fx_exp b = some r.smax) ∧
      (∀ b, 0 ≤ b → b < n → ∀ v e, rd r.pre b = some v →
        rd r.d2_band_fx_exp b = some e →
        rd r.d2_fx b = some (env.L_shr v (s_min (sub r.smax e) 31))) ∧
      r.d2_fx_exp = wrap16 (add (wrap32 (d_fx_exp * 2)) r.smax) := by
  obtain ⟨st, r, hst, hr, hpre, hexp, -, hs16, hs31, hsge, hsat, hres, hfin⟩ :=
    perBandEnergyFrom_spec hg d_fx_exp
  obtain ⟨st2, hst2, -, -, hone, htwo, hwide⟩ := bandLoops_spec hg
  have hss : st2 = st := Option.some.inj (hst2.symm.trans hst)
  subst hss
  rw [← hpre] at hone htwo hwide hres
  rw [← hexp] at hone htwo hwide hsge hsat hres
  exact ⟨r, hr, hone, htwo, hwide, hs16, hs31, hsge, hsat, hres, hfin⟩

/-! Claims on `processPerBandEnergy_fx` and on the extraction operators -/

/-- C20: `extract_h` and `extract_l` are the upper and the lower 16 bits of a 32-bit
word: `x = extract_h(x) * 2^16 + (extract_l(x) mod 2^16)` for every 32-bit `x`, and
`extract_h(L_deposit_h(v)) = v`, `extract_l(L_deposit_l(v)) = v` for every 16-bit `v`. -/
theorem C20_extract_upper_lower (x v : Int) (hx : in32 x) (hv : in16 v) :
    x = extract_h x * 2 ^ 16 + extract_l x % 2 ^ 16 ∧
      in16 (extract_h x) ∧ in16 (extract_l x) ∧
      extract_h (L_deposit_h v) = v ∧ extract_l (L_deposit_l v) = v := by
  unfold in32 MIN_32 MAX_32 at hx
  unfold in16 MIN_16 MAX_16 at hv
  have h1 : extract_h x = x / 65536 := by
    unfold extract_h
    rw [shiftRight_eq_div]
    unfold wrap16
    norm_num
    omega
  have h2 : extract_h (L_deposit_h v) = v := by
    unfold extract_h L_deposit_h
    rw [shiftRight_eq_div]
    unfold wrap16 wrap32
    norm_num
    omega
  refine ⟨?_, in16_wrap16 _, in16_wrap16 _, h2, ?_⟩
  · rw [h1]
    unfold extract_l wrap16
    norm_num
    omega
  · unfold extract_l L_deposit_l wrap16
    omega

theorem C20_extract_upper_lower_witness :
    in32 (-2023406815) ∧ in16 (-12345) ∧
      ((-2023406815 : Int) = extract_h (-2023406815) * 2 ^ 16 +
          extract_l (-2023406815) % 2 ^ 16 ∧
        in16 (extract_h (-2023406815)) ∧ in16 (extract_l (-2023406815)) ∧
        extract_h (L_deposit_h (-12345)) = -12345 ∧
        extract_l (L_deposit_l (-12345)) = -12345) :=
  ⟨by decide, by decide, C20_extract_upper_lower (-2023406815) (-12345) (by decide)
    (by decide)⟩

theorem norm_l_range (v : Int) : 0 ≤ norm_l v ∧ norm_l v ≤ 31 := by
  unfold norm_l
  split
  · omega
  · have h := List.length_filter_le (fun n => decide (in32 (v * 2 ^ (n + 1)))) (List.range 31)
    rw [List.length_range] at h
    omega

theorem normShift_first {env : BandEnv} (hnorm : ∀ v, 0 ≤ env.norm_l v ∧ env.norm_l v ≤ 31)
    (d : Int) :
    normShift env d 15 = (if d = 0 then 15 else min 15 (env.norm_l d)) ∧
      0 ≤ normShift env d 15 ∧ normShift env d 15 ≤ 15 := by
  have h := hnorm d
  unfold normShift s_min wrap16
  split_ifs <;> omega

theorem exp_of_shift {s2 : Int} (h : -16000 ≤ s2 ∧ s2 ≤ 16000) :
    wrap16 (sub 1 (wrap32 (s2 * 2))) = 1 - 2 * s2 := by
  unfold sub wrap16 wrap32
  omega

theorem sq16 {t : Int} (h : in16 t) : L_mult0 t t = t * t ∧ 0 ≤ t * t ∧ t * t ≤ 2 ^ 30 := by
  have hb := mul16_bounds h h
  refine ⟨mult0_exact h h, mul_self_nonneg t, ?_⟩
  norm_num
  omega

/-- C18: a width-1 band with coefficient `d` stores, before the rescale, `t*t` with
`t = extract_h(L_shl(d, s2))`, where `s2 = 15` for `d = 0` and `s2 = min(15, norm_l(d))`
otherwise, and the exponent `1 - 2*s2`; the energy lies in `[0, 2^30]`, and a zero
coefficient gives energy `0` with exponent `-29` (a shift of `0` being `0`). -/
theorem C18_width_one_energy (env : BandEnv) (maxBwBin b1 b2 n : Int)
    (d_fx bo d2 ex : List Int) (d_fx_exp : Int)
    (hg : BandGeom env maxBwBin b1 b2 n d_fx bo d2 ex)
    (hnorm : ∀ v, 0 ≤ env.norm_l v ∧ env.norm_l v ≤ 31)
    (band : Int) (h0 : 0 ≤ band) (h1 : band < b1) :
    ∃ r d s2 t, perBandEnergyFrom env maxBwBin b1 b2 n d_fx d_fx_exp bo d2 ex = some r ∧
      rd d_fx band = some d ∧
      s2 = (if d = 0 then 15 else min 15 (env.norm_l d)) ∧
      t = extract_h (env.L_shl d s2) ∧
      rd r.pre band = some (t * t) ∧ rd r.d2_band_fx_exp band = some (1 - 2 * s2) ∧
      0 ≤ t * t ∧ t * t ≤ 2 ^ 30 ∧
      (d = 0 → env.L_shl 0 15 = 0 →
        rd r.pre band = some 0 ∧ rd r.d2_band_fx_exp band = some (-29)) := by
  obtain ⟨r, hr, hone, -⟩ := perBandEnergyFrom_bands hg d_fx_exp
  obtain ⟨v, e, hs, -, hv, he⟩ := hone band h0 h1
  cases hd : rd d_fx band with
  | none => simp [singleEnergy, hd] at hs
  | some d =>
    rw [singleEnergy_eq env hd] at hs
    obtain ⟨hv2, he2⟩ := Prod.mk.inj (Option.some.inj hs)
    obtain ⟨hsh, hsh0, hsh15⟩ := normShift_first hnorm d
    obtain ⟨q1, q2, q3⟩ := sq16 (in16_wrap16 (Int.shiftRight (env.L_shl d (normShift env d 15)) 16))
    have hpre : rd r.pre band = some (extract_h (env.L_shl d (normShift env d 15)) *
        extract_h (env.L_shl d (normShift env d 15))) := by
      rw [hv, ← hv2]
      exact congrArg some q1
    have hexp : rd r.d2_band_fx_exp band = some (1 - 2 * normShift env d 15) := by
      rw [he, ← he2, exp_of_shift (by omega)]
    refine ⟨r, d, normShift env d 15, _, hr, rfl, hsh, rfl, hpre, hexp, q2, q3, ?_⟩
    intro hd0 hz
    have hn : normShift env d 15 = 15 := by rw [hsh, if_pos hd0]
    rw [hn] at hpre hexp
    rw [hd0, hz] at hpre
    exact ⟨hpre, hexp⟩

theorem C18_width_one_energy_witness :
    BandGeom (refBandEnv 0 true 400) 8 2 4 6
        [100000, -3000, 70000, 5, 0, 123456789, 1, 2, 3, 4, 5, 6] [0, 1, 2, 4, 6, 9, 12]
        [0, 0, 0, 0, 0, 0] [0, 0, 0, 0, 0, 0, 0] ∧
      (∀ v, 0 ≤ (refBandEnv 0 true 400).norm_l v ∧ (refBandEnv 0 true 400).norm_l v ≤ 31) ∧
      ∃ r d s2 t, perBandEnergyFrom (refBandEnv 0 true 400) 8 2 4 6
          [100000, -3000, 70000, 5, 0, 123456789, 1, 2, 3, 4, 5, 6] 3 [0, 1, 2, 4, 6, 9, 12]
          [0, 0, 0, 0, 0, 0] [0, 0, 0, 0, 0, 0, 0] = some r ∧
        rd [100000, -3000, 70000, 5, 0, 123456789, 1, 2, 3, 4, 5, 6] 1 = some d ∧
        s2 = (if d = 0 then 15 else min 15 ((refBandEnv 0 true 400).norm_l d)) ∧
        t = extract_h ((refBandEnv 0 true 400).L_shl d s2) ∧
        rd r.pre 1 = some (t * t) ∧ rd r.d2_band_fx_exp 1 = some (1 - 2 * s2) ∧
        0 ≤ t * t ∧ t * t ≤ 2 ^ 30 ∧
        (d = 0 → (refBandEnv 0 true 400).L_shl 0 15 = 0 →
          rd r.pre 1 = some 0 ∧ rd r.d2_band_fx_exp 1 = some (-29)) :=
  ⟨by decide, norm_l_range,
    C18_width_one_energy (refBandEnv 0 true 400) 8 2 4 6
      [100000, -3000, 70000, 5, 0, 123456789, 1, 2, 3, 4, 5, 6] [0, 1, 2, 4, 6, 9, 12]
      [0, 0, 0, 0, 0, 0] [0, 0, 0, 0, 0, 0, 0] 3 (by decide) norm_l_range 1 (by decide)
      (by decide)⟩

/-- C16 (counterexample): one width-1 band at index `0` with `maxBwBin = 0`.  With
assertions compiled out the band stores the square `2^28` of its coefficient, not
`0`; with assertions compiled in the call stops at `ASSERT(band < maxBwBin)`. -/
theorem C16_width_one_counterexample :
    perBandEnergyFrom (refBandEnv 0 false 400) 0 1 1 1 [65536] 0 [0, 1] [0] [0] =
        some ⟨[268435456], -27, [-27], [268435456], -27⟩ ∧
      perBandEnergyFrom (refBandEnv 0 true 400) 0 1 1 1 [65536] 0 [0, 1] [0] [0] = none := by
  decide

theorem forLoopAux_none {σ : Type} (body : Int → σ → Option σ) :
    ∀ (n : Nat) (i0 : Int) (st : σ) (k : Nat), k < n → (∀ s, body (i0 + k) s = none) →
      forLoopAux body n i0 st = none := by
  intro n
  induction n with
  | zero =>
    intro i0 st k hk _
    omega
  | succ n ih =>
    intro i0 st k hk hnone
    cases hb : body i0 st with
    | none => simp [forLoopAux, hb]
    | some st1 =>
      cases k with
      | zero =>
        have := hnone st
        simp only [Nat.cast_zero, add_zero] at this
        rw [this] at hb
        exact absurd hb (by simp)
      | succ k =>
        simp only [forLoopAux, hb]
        refine ih (i0 + 1) st1 k (by omega) ?_
        intro s
        have := hnone s
        have e : i0 + ((k + 1 : Nat) : Int) = i0 + 1 + (k : Int) := by
          push_cast
          ring
        rw [e] at this
        exact this

/-- A loop with a round that stops the call, whatever the state it is reached in,
stops the call. -/
theorem forLoop_none {σ : Type} (body : Int → σ → Option σ) {i0 hi k : Int} (st : σ)
    (h0 : i0 ≤ k) (h1 : k < hi) (hk : ∀ s, body k s = none) :
    forLoop i0 hi body st = none := by
  unfold forLoop
  refine forLoopAux_none body (hi - i0).toNat i0 st (k - i0).toNat (by omega) ?_
  intro s
  have e : i0 + (((k - i0).toNat : Nat) : Int) = k := by omega
  rw [e]
  exact hk s

/-- With assertions compiled in, the round of the width-1 loop for a band at or
beyond `maxBwBin` stops at `ASSERT(band < maxBwBin)` (or at the assertion before it). -/
theorem widthOneStep_stops {env : BandEnv} (ha : env.asserts = true) {maxBwBin band : Int}
    (hlim : maxBwBin ≤ band) (bo d_fx : List Int) (i : Int) :
    widthOneStep env maxBwBin bo d_fx band i = none := by
  have hb : ASSERT env (band < maxBwBin) = none := by
    unfold ASSERT
    rw [if_pos ⟨ha, by omega⟩]
  unfold widthOneStep
  cases assertWidth env bo band 1 with
  | none => rfl
  | some u => simp [hb]

/-- C16 (amended): the width-1 regime has no zero-fill; `maxBwBin` occurs in it only
in `ASSERT(band < maxBwBin)`.  For a width-1 band at or beyond `maxBwBin`: with
assertions compiled in the call stops and returns no result; under the band layout,
which then has assertions compiled out, the call returns and the band stores the
square of `t = extract_h(L_shl(d, s2))` for its own coefficient `d`, with the
exponent `1 - 2*s2` of a width-1 band below the limit, which is positive whenever `t`
is not `0`. -/
theorem C16_width_one_no_zero_fill (env : BandEnv) (maxBwBin b1 b2 n : Int)
    (d_fx bo d2 ex : List Int) (d_fx_exp : Int)
    (band : Int) (h0 : 0 ≤ band) (h1 : band < b1) (hlim : maxBwBin ≤ band) :
    (env.asserts = true →
      perBandEnergyFrom env maxBwBin b1 b2 n d_fx d_fx_exp bo d2 ex = none) ∧
    (BandGeom env maxBwBin b1 b2 n d_fx bo d2 ex →
      env.asserts = false ∧
      ∃ r d t, perBandEnergyFrom env maxBwBin b1 b2 n d_fx d_fx_exp bo d2 ex = some r ∧
        rd d_fx band = some d ∧
        t = extract_h (env.L_shl d (normShift env d 15)) ∧
        rd r.pre band = some (t * t) ∧
        rd r.d2_band_fx_exp band = some (wrap16 (sub 1 (wrap32 (normShift env d 15 * 2)))) ∧
        (t ≠ 0 → 0 < t * t)) := by
  constructor
  · intro ha
    have hloop : forLoop 0 b1 (bandBody (widthOneStep env maxBwBin bo d_fx))
        (⟨0, d2, ex⟩ : BandState) = none := by
      refine forLoop_none _ _ h0 h1 ?_
      intro s
      simp [bandBody, widthOneStep_stops ha hlim]
    simp [perBandEnergyFrom, bandLoops, hloop]
  · intro hg
    have hoff : env.asserts = false := by
      cases ha : env.asserts with
      | false => rfl
      | true =>
        have := hg.2.2.2.2.2.2.2.1 ha
        omega
    obtain ⟨r, hr, hone, -⟩ := perBandEnergyFrom_bands hg d_fx_exp
    obtain ⟨v, e, hs, -, hv, he⟩ := hone band h0 h1
    cases hd : rd d_fx band with
    | none => simp [singleEnergy, hd] at hs
    | some d =>
      rw [singleEnergy_eq env hd] at hs
      obtain ⟨hv2, he2⟩ := Prod.mk.inj (Option.some.inj hs)
      obtain ⟨q1, -, -⟩ :=
        sq16 (in16_wrap16 (Int.shiftRight (env.L_shl d (normShift env d 15)) 16))
      refine ⟨hoff, r, d, _, hr, rfl, rfl, ?_, ?_, fun ht => mul_self_pos.mpr ht⟩
      · rw [hv, ← hv2]
        exact congrArg some q1
      · rw [he, ← he2]

theorem C16_width_one_no_zero_fill_witness :
    ((0 : Int) ≤ 1 ∧ (1 : Int) < 2 ∧ (1 : Int) ≤ 1) ∧
    (refBandEnv 0 true 400).asserts = true ∧
    perBandEnergyFrom (refBandEnv 0 true 400) 1 2 4 6
      [100000, -3000, 70000, 5, 0, 123456789, 1, 2, 3, 4, 5, 6] 3 [0, 1, 2, 4, 6, 9, 12]
      [0, 0, 0, 0, 0, 0] [0, 0, 0, 0, 0, 0, 0] = none ∧
    BandGeom (refBandEnv 0 false 400) 1 2 4 6
      [100000, -3000, 70000, 5, 0, 123456789, 1, 2, 3, 4, 5, 6] [0, 1, 2, 4, 6, 9, 12]
      [0, 0, 0, 0, 0, 0] [0, 0, 0, 0, 0, 0, 0] ∧
    (refBandEnv 0 false 400).asserts = false ∧
    ∃ r d t, perBandEnergyFrom (refBandEnv 0 false 400) 1 2 4 6
        [100000, -3000, 70000, 5, 0, 123456789, 1, 2, 3, 4, 5, 6] 3 [0, 1, 2, 4, 6, 9, 12]
        [0, 0, 0, 0, 0, 0] [0, 0, 0, 0, 0, 0, 0] = some r ∧
      rd [100000, -3000, 70000, 5, 0, 123456789, 1, 2, 3, 4, 5, 6] 1 = some d ∧
      t = extract_h ((refBandEnv 0 false 400).L_shl d
        (normShift (refBandEnv 0 false 400) d 15)) ∧
      rd r.pre 1 = some (t * t) ∧
      rd r.d2_band_fx_exp 1 =
        some (wrap16 (sub 1 (wrap32 (normShift (refBandEnv 0 false 400) d 15 * 2)))) ∧
      (t ≠ 0 → 0 < t * t) :=
  ⟨by decide, by decide,
    (C16_width_one_no_zero_fill (refBandEnv 0 true 400) 1 2 4 6
      [100000, -3000, 70000, 5, 0, 123456789, 1, 2, 3, 4, 5, 6] [0, 1, 2, 4, 6, 9, 12]
      [0, 0, 0, 0, 0, 0] [0, 0, 0, 0, 0, 0, 0] 3 1 (by decide) (by decide) (by decide)).1
      (by decide),
    by decide,
    (C16_width_one_no_zero_fill (refBandEnv 0 false 400) 1 2 4 6
      [100000, -3000, 70000, 5, 0, 123456789, 1, 2, 3, 4, 5, 6] [0, 1, 2, 4, 6, 9, 12]
      [0, 0, 0, 0, 0, 0] [0, 0, 0, 0, 0, 0, 0] 3 1 (by decide) (by decide) (by decide)).2
      (by decide)⟩

/-- C14: a width-2 band whose first coefficient index `i = b1 + 2 (band - b1)` (the
offset of the band) is at or beyond `maxBwBin` stores energy `0` with exponent
`1 - 2*15 = -29`, whatever the coefficients are; the rescaled output is `0` as well
(a shift of `0` being `0`). -/
theorem C14_width_two_zero_fill (env : BandEnv) (maxBwBin b1 b2 n : Int)
    (d_fx bo d2 ex : List Int) (d_fx_exp : Int)
    (hg : BandGeom env maxBwBin b1 b2 n d_fx bo d2 ex)
    (band : Int) (h0 : b1 ≤ band) (h1 : band < b2)
    (hbeyond : maxBwBin ≤ b1 + 2 * (band - b1)) :
    ∃ r, perBandEnergyFrom env maxBwBin b1 b2 n d_fx d_fx_exp bo d2 ex = some r ∧
      zext bo band = b1 + 2 * (band - b1) ∧
      rd r.pre band = some 0 ∧ rd r.d2_band_fx_exp band = some (-29) ∧
      ((∀ s, env.L_shr 0 s = 0) → rd r.d2_fx band = some 0) := by
  obtain ⟨r, hr, -, htwo, -, -, -, -, -, hres, -⟩ := perBandEnergyFrom_bands hg d_fx_exp
  obtain ⟨v, e, hs, -, hv, he⟩ := htwo band h0 h1
  obtain ⟨-, p0, -, q0, -, l0, -⟩ := bandGeom_offset hg
    (by obtain ⟨hb1, -⟩ := hg; omega : 0 ≤ band)
    (by obtain ⟨-, -, hb2n, -⟩ := hg; omega : band ≤ n)
  have hlay := l0 h0 (by omega)
  rw [hlay] at p0 q0
  rw [widthTwoVal_beyond env d_fx band ⟨p0, q0⟩ hg.2.2.2.2.2.2.1 hbeyond] at hs
  obtain ⟨hv2, he2⟩ := Prod.mk.inj (Option.some.inj hs)
  rw [← hv2] at hv
  rw [← he2] at he
  refine ⟨r, hr, hlay, hv, he, ?_⟩
  intro hshr
  have hb0 : 0 ≤ band := by obtain ⟨hb1, -⟩ := hg; omega
  have hbn : band < n := by obtain ⟨-, -, hb2n, -⟩ := hg; omega
  rw [hres band hb0 hbn 0 (-29) hv he, hshr]

theorem C14_width_two_zero_fill_witness :
    BandGeom (refBandEnv 0 true 400) 3 1 3 3 [70000, 5, 9, 123456789, -8] [0, 1, 3, 5]
        [7, 7, 7] [1, 1, 1] ∧
      (1 : Int) ≤ 2 ∧ (2 : Int) < 3 ∧ (3 : Int) ≤ 1 + 2 * (2 - 1) ∧
      ∃ r, perBandEnergyFrom (refBandEnv 0 true 400) 3 1 3 3 [70000, 5, 9, 123456789, -8] 0
          [0, 1, 3, 5] [7, 7, 7] [1, 1, 1] = some r ∧
        zext [0, 1, 3, 5] 2 = 1 + 2 * (2 - 1) ∧
        rd r.pre 2 = some 0 ∧ rd r.d2_band_fx_exp 2 = some (-29) ∧
        ((∀ s, (refBandEnv 0 true 400).L_shr 0 s = 0) → rd r.d2_fx 2 = some 0) :=
  ⟨by decide, by decide, by decide, by decide,
    C14_width_two_zero_fill (refBandEnv 0 true 400) 3 1 3 3 [70000, 5, 9, 123456789, -8]
      [0, 1, 3, 5] [7, 7, 7] [1, 1, 1] 0 (by decide) 2 (by decide) (by decide) (by decide)⟩

/-- C17 (the code at the failing input): two width-2 bands with `maxBwBin = 3`, so
that band 1 (coefficients 2 and 3) has only its first coefficient below the limit.
The band's own coefficient `d_fx[2]` is `0`, whose normalized square is `0`, yet the
band stores `1`: the square computed from `d_fx[1]`, a coefficient of band 0.  With
`d_fx[1] = 0` instead, the same band stores `0`. -/
theorem C17_boundary_reads_other_band :
    perBandEnergyFrom (refBandEnv 0 false 400) 3 0 2 2 [0, 2, 0, 0] 0 [0, 2, 4] [0, 0]
        [0, 0] = some ⟨[0, 1], -29, [-29, -29], [0, 1], -29⟩ ∧
      singleEnergy (refBandEnv 0 false 400) [0, 2, 0, 0] 2 = some (0, -29) ∧
      singleEnergy (refBandEnv 0 false 400) [0, 2, 0, 0] 1 = some (1, -29) ∧
      perBandEnergyFrom (refBandEnv 0 false 400) 3 0 2 2 [0, 0, 0, 0] 0 [0, 2, 4] [0, 0]
        [0, 0] = some ⟨[0, 0], -29, [-29, -29], [0, 0], -29⟩ := by
  decide

theorem shiftRight_neg_small {v b : Int} (hb : 0 < b) (h1 : -b ≤ v) (h2 : v < 0) :
    v / b = -1 := by
  have h3 : v / b < 0 := Int.ediv_neg' h2 hb
  have h4 : -1 ≤ v / b := (Int.le_ediv_iff_mul_le hb).mpr (by linarith)
  omega

/-- Shifting a 32-bit word right by 31 or more gives the same result as by 31. -/
theorem shiftRight_clamp {v : Int} (hv : in32 v) {k : Nat} (hk : 31 ≤ k) :
    Int.shiftRight v k = Int.shiftRight v 31 := by
  unfold in32 MIN_32 MAX_32 at hv
  rw [shiftRight_eq_div, shiftRight_eq_div]
  have hpow : (2 : Int) ^ 31 ≤ 2 ^ k := pow_le_pow_right₀ (by norm_num) hk
  have h31 : (2 : Int) ^ 31 = 2147483648 := by norm_num
  by_cases hneg : v < 0
  · rw [shiftRight_neg_small (by positivity) (by omega) hneg,
      shiftRight_neg_small (by positivity) (by omega) hneg]
  · rw [Int.ediv_eq_zero_of_lt (by omega) (by omega),
      Int.ediv_eq_zero_of_lt (by omega) (by omega)]

theorem floor_mul_zpow_neg (v : Int) {d : Int} (hd : 0 ≤ d) :
    ⌊(v : ℚ) * 2 ^ (-d)⌋ = Int.shiftRight v d.toNat := by
  rw [← floor_div_two_pow]
  congr 1
  obtain ⟨k, rfl⟩ := Int.eq_ofNat_of_zero_le hd
  rw [zpow_neg, zpow_natCast, div_eq_mul_inv, Int.toNat_natCast]

theorem s_min_eq_min (a b : Int) : s_min a b = min a b := by
  unfold s_min
  split_ifs <;> omega

/-- C13: in the global rescale every band ends as its pre-rescale value `v` shifted
arithmetically right by `min(smax - e, 31)`, a count in `[0, 31]`; for a 32-bit `v`
this is `floor(v * 2^(e - smax))`, the clamp at 31 losing nothing, and a band whose
exponent is `smax` keeps its value. -/
theorem C13_global_rescale (env : BandEnv) (maxBwBin b1 b2 n : Int)
    (d_fx bo d2 ex : List Int) (d_fx_exp : Int)
    (hg : BandGeom env maxBwBin b1 b2 n d_fx bo d2 ex)
    (hshr : ∀ v k, 0 ≤ k → k ≤ 31 → env.L_shr v k = Int.shiftRight v k.toNat)
    (band : Int) (h0 : 0 ≤ band) (h1 : band < n) :
    ∃ r v e, perBandEnergyFrom env maxBwBin b1 b2 n d_fx d_fx_exp bo d2 ex = some r ∧
      rd r.pre band = some v ∧ rd r.d2_band_fx_exp band = some e ∧
      0 ≤ min (r.smax - e) 31 ∧ min (r.smax - e) 31 ≤ 31 ∧
      rd r.d2_fx band = some (Int.shiftRight v (min (r.smax - e) 31).toNat) ∧
      (in32 v → rd r.d2_fx band = some ⌊(v : ℚ) * 2 ^ (e - r.smax)⌋) ∧
      (e = r.smax → rd r.d2_fx band = some v) := by
  obtain ⟨r, hr, hone, htwo, hwide, hs16, -, hsge, -, hres, -⟩ :=
    perBandEnergyFrom_bands hg d_fx_exp
  have hall : ∃ v e, rd r.pre band = some v ∧ rd r.d2_band_fx_exp band = some e ∧ in16 e := by
    by_cases c1 : band < b1
    · obtain ⟨v, e, -, he, hv, hee⟩ := hone band h0 c1
      exact ⟨v, e, hv, hee, he⟩
    · by_cases c2 : band < b2
      · obtain ⟨v, e, -, he, hv, hee⟩ := htwo band (by omega) c2
        exact ⟨v, e, hv, hee, he⟩
      · obtain ⟨v, e, -, he, hv, hee⟩ := hwide band (by omega) h1
        exact ⟨v, e, hv, hee, he⟩
  obtain ⟨v, e, hv, he, he16⟩ := hall
  have hle := hsge band h0 h1 e he
  have hs16b := hs16
  unfold in16 MIN_16 MAX_16 at hs16b he16
  have hcount : s_min (sub r.smax e) 31 = min (r.smax - e) 31 := by
    rw [sub_exact (by omega) (by omega), s_min_eq_min]
  have hfin : rd r.d2_fx band = some (Int.shiftRight v (min (r.smax - e) 31).toNat) := by
    rw [hres band h0 h1 v e hv he, hcount, hshr v _ (by omega) (by omega)]
  refine ⟨r, v, e, hr, hv, he, by omega, by omega, hfin, ?_, ?_⟩
  · intro hv32
    have e1 : e - r.smax = -(r.smax - e) := by ring
    rw [hfin, e1, floor_mul_zpow_neg v (by omega)]
    by_cases hbig : 31 ≤ r.smax - e
    · have e2 : (min (r.smax - e) 31).toNat = 31 := by omega
      rw [e2, shiftRight_clamp hv32 (k := (r.smax - e).toNat) (by omega)]
    · have e2 : min (r.smax - e) 31 = r.smax - e := by omega
      rw [e2]
  · intro heq
    have e2 : (min (r.smax - e) 31).toNat = 0 := by omega
    rw [hfin, e2, shiftRight_eq_div]
    simp

theorem C13_global_rescale_witness :
    BandGeom (refBandEnv 0 true 400) 8 2 4 6
        [100000, -3000, 70000, 5, 0, 123456789, 1, 2, 3, 4, 5, 6] [0, 1, 2, 4, 6, 9, 12]
        [0, 0, 0, 0, 0, 0] [0, 0, 0, 0, 0, 0, 0] ∧
      (∀ v k, 0 ≤ k → k ≤ 31 →
        (refBandEnv 0 true 400).L_shr v k = Int.shiftRight v k.toNat) ∧
      ∃ r v e, perBandEnergyFrom (refBandEnv 0 true 400) 8 2 4 6
          [100000, -3000, 70000, 5, 0, 123456789, 1, 2, 3, 4, 5, 6] 3 [0, 1, 2, 4, 6, 9, 12]
          [0, 0, 0, 0, 0, 0] [0, 0, 0, 0, 0, 0, 0] = some r ∧
        rd r.pre 2 = some v ∧ rd r.d2_band_fx_exp 2 = some e ∧
        0 ≤ min (r.smax - e) 31 ∧ min (r.smax - e) 31 ≤ 31 ∧
        rd r.d2_fx 2 = some (Int.shiftRight v (min (r.smax - e) 31).toNat) ∧
        (in32 v → rd r.d2_fx 2 = some ⌊(v : ℚ) * 2 ^ (e - r.smax)⌋) ∧
        (e = r.smax → rd r.d2_fx 2 = some v) :=
  ⟨by decide, fun v k h0 _ => by simp [refBandEnv, L_shr, h0],
    C13_global_rescale (refBandEnv 0 true 400) 8 2 4 6
      [100000, -3000, 70000, 5, 0, 123456789, 1, 2, 3, 4, 5, 6] [0, 1, 2, 4, 6, 9, 12]
      [0, 0, 0, 0, 0, 0] [0, 0, 0, 0, 0, 0, 0] 3 (by decide)
      (fun v k h0 _ => by simp [refBandEnv, L_shr, h0]) 2 (by decide) (by decide)⟩

/-- C12 (counterexample): one band of the third regime with the coefficient `4`.  Its
exponent is `-58`, the only per-band exponent, but `smax` starts at `-31` and the
shared exponent is `2*0 + (-31)`; the same through the whole function in the linear
configuration of the `BTLLC_5MS_MODE` build. -/
theorem C12_exponent_floor_counterexample :
    BandGeom (refBandEnv 0 false 400) 4 0 0 1 [4] [0, 1] [0] [0] ∧
      perBandEnergyFrom (refBandEnv 0 false 400) 4 0 0 1 [4] 0 [0, 1] [0] [0] =
        some ⟨[12], -31, [-58], [1610612736], -31⟩ ∧
      processPerBandEnergy_fx (refBandEnv 1 false 400) [0] [0] [4] 0 [0, 1] 0 1 1 100 =
        some ⟨[12], -31, [-58], [1610612736], -31⟩ ∧
      (-31 : Int) ≠ 2 * 0 + (-58) := by
  decide

/-- C12 (amended): the shared exponent is `2*d_fx_exp + smax` stored in a `Word16`,
where `smax` is the largest of `-31` and the per-band exponents; `smax` is the maximum
per-band exponent as soon as one band exponent is at least `-31`. -/
theorem C12_shared_exponent (env : BandEnv) (maxBwBin b1 b2 n : Int)
    (d_fx bo d2 ex : List Int) (d_fx_exp : Int)
    (hg : BandGeom env maxBwBin b1 b2 n d_fx bo d2 ex) :
    ∃ r, perBandEnergyFrom env maxBwBin b1 b2 n d_fx d_fx_exp bo d2 ex = some r ∧
      r.d2_fx_exp = wrap16 (2 * d_fx_exp + r.smax) ∧
      (in16 (2 * d_fx_exp + r.smax) → r.d2_fx_exp = 2 * d_fx_exp + r.smax) ∧
      -31 ≤ r.smax ∧
      (∀ band, 0 ≤ band → band < n →
        ∀ e, rd r.d2_band_fx_exp band = some e → e ≤ r.smax) ∧
      (r.smax = -31 ∨ ∃ band, 0 ≤ band ∧ band < n ∧ rd r.d2_band_fx_exp band = some r.smax) ∧
      ((∃ band e, 0 ≤ band ∧ band < n ∧ rd r.d2_band_fx_exp band = some e ∧ -31 ≤ e) →
        ∃ band, 0 ≤ band ∧ band < n ∧ rd r.d2_band_fx_exp band = some r.smax) := by
  obtain ⟨r, hr, -, -, -, -, hs31, hsge, hsat, -, hfin⟩ := perBandEnergyFrom_bands hg d_fx_exp
  have hexp : r.d2_fx_exp = wrap16 (2 * d_fx_exp + r.smax) := by
    rw [hfin]
    unfold add wrap16 wrap32
    omega
  refine ⟨r, hr, hexp, ?_, hs31, hsge, hsat, ?_⟩
  · intro h16
    rw [hexp, wrap16_of_in16 h16]
  · rintro ⟨band, e, hb0, hb1, he, he31⟩
    rcases hsat with hs | hs
    · have := hsge band hb0 hb1 e he
      have hes : e = r.smax := by omega
      exact ⟨band, hb0, hb1, by rw [← hes]; exact he⟩
    · exact hs

theorem C12_shared_exponent_witness :
    BandGeom (refBandEnv 0 true 400) 8 2 4 6
        [100000, -3000, 70000, 5, 0, 123456789, 1, 2, 3, 4, 5, 6] [0, 1, 2, 4, 6, 9, 12]
        [0, 0, 0, 0, 0, 0] [0, 0, 0, 0, 0, 0, 0] ∧
      ∃ r, perBandEnergyFrom (refBandEnv 0 true 400) 8 2 4 6
          [100000, -3000, 70000, 5, 0, 123456789, 1, 2, 3, 4, 5, 6] 3 [0, 1, 2, 4, 6, 9, 12]
          [0, 0, 0, 0, 0, 0] [0, 0, 0, 0, 0, 0, 0] = some r ∧
        r.d2_fx_exp = wrap16 (2 * 3 + r.smax) ∧
        (in16 (2 * 3 + r.smax) → r.d2_fx_exp = 2 * 3 + r.smax) ∧
        -31 ≤ r.smax ∧
        (∀ band, 0 ≤ band → band < 6 →
          ∀ e, rd r.d2_band_fx_exp band = some e → e ≤ r.smax) ∧
        (r.smax = -31 ∨
          ∃ band, 0 ≤ band ∧ band < 6 ∧ rd r.d2_band_fx_exp band = some r.smax) ∧
        ((∃ band e, 0 ≤ band ∧ band < 6 ∧ rd r.d2_band_fx_exp band = some e ∧ -31 ≤ e) →
          ∃ band, 0 ≤ band ∧ band < 6 ∧ rd r.d2_band_fx_exp band = some r.smax) :=
  ⟨by decide, C12_shared_exponent (refBandEnv 0 true 400) 8 2 4 6
      [100000, -3000, 70000, 5, 0, 123456789, 1, 2, 3, 4, 5, 6] [0, 1, 2, 4, 6, 9, 12]
      [0, 0, 0, 0, 0, 0] [0, 0, 0, 0, 0, 0, 0] 3 (by decide)⟩

theorem L_shl_zero (s : Int) : L_shl 0 s = 0 := by
  unfold L_shl
  split_ifs
  · simp [wrap32]
  · rw [shiftRight_eq_div]
    simp

theorem L_shr_zero (s : Int) : L_shr 0 s = 0 := by
  unfold L_shr
  split_ifs
  · rw [shiftRight_eq_div]
    simp
  · simp [wrap32]

theorem Mpy_32_16_zero (r : Int) : Mpy_32_16 0 r = 0 := by
  unfold Mpy_32_16
  rw [shiftRight_eq_div]
  simp [wrap32]

theorem sq_zero_word : L_mult0 (extract_h 0) (extract_h 0) = 0 := by decide

theorem mac_zero_word : L_mac0 0 (extract_h 0) (extract_h 0) = 0 := by decide

theorem normShift_zero (env : BandEnv) (s : Int) : normShift env 0 s = s := by
  simp [normShift]

theorem singleEnergy_zero {env : BandEnv} {d_fx : List Int} {idx v e : Int}
    (hz : AllZero d_fx) (hshl : ∀ s, env.L_shl 0 s = 0)
    (h : singleEnergy env d_fx idx = some (v, e)) : v = 0 ∧ e = -29 := by
  cases hd : rd d_fx idx with
  | none => simp [singleEnergy, hd] at h
  | some d =>
    have hd0 : d = 0 := hz d (rd_mem hd)
    subst hd0
    rw [singleEnergy_eq env hd, hshl, normShift_zero, sq_zero_word] at h
    obtain ⟨hv, he⟩ := Prod.mk.inj (Option.some.inj h)
    exact ⟨hv.symm, by rw [← he]; decide⟩

theorem pairEnergy_zero {env : BandEnv} {d_fx : List Int} {i v e : Int}
    (hz : AllZero d_fx) (hshl : ∀ s, env.L_shl 0 s = 0) (hshr : ∀ s, env.L_shr 0 s = 0)
    (h : pairEnergy env d_fx i = some (v, e)) : v = 0 ∧ e = -29 := by
  cases hd0 : rd d_fx i with
  | none => simp [pairEnergy, hd0] at h
  | some d0 =>
    cases hd1 : rd d_fx (i + 1) with
    | none => simp [pairEnergy, hd0, hd1] at h
    | some d1 =>
      have e0 : d0 = 0 := hz d0 (rd_mem hd0)
      have e1 : d1 = 0 := hz d1 (rd_mem hd1)
      subst e0 e1
      have hm : L_mac0 (L_min (L_mult0 (extract_h 0) (extract_h 0)) 1073741823)
          (extract_h 0) (extract_h 0) = 0 := by decide
      rw [pairEnergy_eq env hd0 hd1, normShift_zero, normShift_zero, hshl, hm, hshr] at h
      obtain ⟨hv, he⟩ := Prod.mk.inj (Option.some.inj h)
      exact ⟨hv.symm, by rw [← he]; decide⟩

theorem widthTwoVal_zero {env : BandEnv} {maxBwBin : Int} {d_fx : List Int} {band i v e : Int}
    (hz : AllZero d_fx) (hshl : ∀ s, env.L_shl 0 s = 0) (hshr : ∀ s, env.L_shr 0 s = 0)
    (h : widthTwoVal env maxBwBin d_fx band i = some (v, e)) : v = 0 ∧ e = -29 := by
  unfold widthTwoVal at h
  split_ifs at h
  · rw [shl_one] at h
    obtain ⟨hv, he⟩ := Prod.mk.inj (Option.some.inj h)
    exact ⟨hv.symm, by rw [← he]; decide⟩
  · exact singleEnergy_zero hz hshl h
  · cases ha : ASSERT env (i + 1 < maxBwBin) with
    | none => simp [ha] at h
    | some u =>
      simp [ha] at h
      exact pairEnergy_zero hz hshl hshr h

/-- A band of the third regime whose summed coefficients are all zero (in particular
one that sums no coefficient) stores the value `0`. -/
theorem wideVal_zero (env : BandEnv) {maxBwBin : Int} {bo d_fx : List Int}
    {band i hi lo : Int} (h1 : rd bo (band + 1) = some hi) (h2 : rd bo band = some lo)
    (hz : ∀ k, i ≤ k → k < wrap16 (s_min hi maxBwBin) → rd d_fx k = some 0)
    (hA : wrap16 (sub hi lo) < 32)
    (ht1 : env.bands_nrg_scale.length = 32) (ht2 : env.InvIntTable.length = 32)
    (hmpy : ∀ r, env.Mpy_32_16 0 r = 0) (hshl : ∀ s, env.L_shl 0 s = 0) :
    ∃ e, wideVal env maxBwBin bo d_fx band i = some (0, e) := by
  obtain ⟨c1, s1, hl1, -⟩ := forLoop_keeps
    (fun k s1 => (rd d_fx k).map (fun d => normShift env d s1)) (fun _ => True)
    i (wrap16 (s_min hi maxBwBin)) 15 trivial
    (fun k s hk1 hk2 _ => by
      refine ⟨normShift env 0 s, ?_, trivial⟩
      dsimp only
      rw [hz k hk1 hk2]
      rfl)
  have hn := clampWidth_range (wrap16 (sub hi lo))
  obtain ⟨c, hc⟩ := rd_isSome (a := env.bands_nrg_scale)
    (i := wrap16 (s_min (s_max 0 (wrap16 (sub hi lo))) 31)) hn.1 (by rw [ht1]; omega)
  obtain ⟨r, hr⟩ := rd_isSome (a := env.InvIntTable)
    (i := wrap16 (s_min (s_max 0 (wrap16 (sub hi lo))) 31)) hn.1 (by rw [ht2]; omega)
  obtain ⟨c2, nrg, hl2, hnrg⟩ := forLoop_keeps
    (fun i nrg => (rd d_fx i).map (fun d =>
      L_mac0 nrg (extract_h (env.L_shl d (wrap16 (sub s1 c))))
        (extract_h (env.L_shl d (wrap16 (sub s1 c))))))
    (fun nrg => nrg = 0) i (wrap16 (s_min hi maxBwBin)) 0 rfl
    (fun k s hk1 hk2 hs => by
      refine ⟨0, ?_, rfl⟩
      dsimp only
      rw [hz k hk1 hk2, hs]
      dsimp only [Option.map]
      rw [hshl, mac_zero_word])
  try dsimp only at hnrg
  subst hnrg
  have h := wideVal_eq env h1 h2 hl1 (fun _ => hA) hc hl2 hr
  rw [hmpy, hshl] at h
  exact ⟨_, h⟩

/-- C15: a band of the third regime whose first coefficient index `band_offsets[band]`
is at or beyond `maxBwBin` gets the energy `0`, before and after the rescale, whatever
the coefficients are (with `Mpy_32_16(0, r) = 0` and a shift of `0` being `0`). -/
theorem C15_wide_zero_fill (env : BandEnv) (maxBwBin b1 b2 n : Int)
    (d_fx bo d2 ex : List Int) (d_fx_exp : Int)
    (hg : BandGeom env maxBwBin b1 b2 n d_fx bo d2 ex)
    (hmpy : ∀ r, env.Mpy_32_16 0 r = 0) (hshl : ∀ s, env.L_shl 0 s = 0)
    (hshr : ∀ s, env.L_shr 0 s = 0)
    (band : Int) (h0 : b2 ≤ band) (h1 : band < n) (hbeyond : maxBwBin ≤ zext bo band) :
    ∃ r, perBandEnergyFrom env maxBwBin b1 b2 n d_fx d_fx_exp bo d2 ex = some r ∧
      rd r.pre band = some 0 ∧ rd r.d2_fx band = some 0 := by
  obtain ⟨r, hr, -, -, hwide, -, -, -, -, hres, -⟩ := perBandEnergyFrom_bands hg d_fx_exp
  obtain ⟨v, e, hw, -, hv, he⟩ := hwide band h0 h1
  have hb0 : 0 ≤ band := by
    have := hg.1
    have := hg.2.1
    omega
  obtain ⟨hlo, hlo0, -, hlo16, -, -, hw2⟩ := bandGeom_offset hg hb0 (by omega : band ≤ n)
  obtain ⟨hhi, hhi0, -, hhi16, -⟩ := bandGeom_offset hg (by omega : 0 ≤ band + 1)
    (by omega : band + 1 ≤ n)
  obtain ⟨hmono, hwidth⟩ := hw2 h0 h1
  have hm := hg.2.2.2.2.2.2.1
  unfold in16 MIN_16 MAX_16 at hm
  have hstop : wrap16 (s_min (zext bo (band + 1)) maxBwBin) ≤ zext bo band := by
    rw [s_min_eq_min]
    unfold wrap16
    omega
  have hA : wrap16 (sub (zext bo (band + 1)) (zext bo band)) < 32 := by
    rw [sub_exact (by omega) (by omega)]
    unfold wrap16
    omega
  have hzz : ∀ k, zext bo band ≤ k →
      k < wrap16 (s_min (zext bo (band + 1)) maxBwBin) → rd d_fx k = some 0 :=
    fun k hk1 hk2 => by omega
  obtain ⟨e2, hzero⟩ := wideVal_zero env hhi hlo hzz hA hg.2.2.2.2.2.2.2.2.2.2.2.2.1 hg.2.2.2.2.2.2.2.2.2.2.2.2.2
    hmpy hshl
  rw [hzero] at hw
  obtain ⟨hv0, -⟩ := Prod.mk.inj (Option.some.inj hw)
  subst hv0
  refine ⟨r, hr, hv, ?_⟩
  rw [hres band hb0 h1 0 e hv he, hshr]

theorem C15_wide_zero_fill_witness :
    BandGeom (refBandEnv 0 true 400) 8 2 4 6
        [100000, -3000, 70000, 5, 0, 123456789, 1, 2, 3, 4, 5, 6] [0, 1, 2, 4, 6, 9, 12]
        [0, 0, 0, 0, 0, 0] [0, 0, 0, 0, 0, 0, 0] ∧
      (∀ r, (refBandEnv 0 true 400).Mpy_32_16 0 r = 0) ∧
      (∀ s, (refBandEnv 0 true 400).L_shl 0 s = 0) ∧
      (∀ s, (refBandEnv 0 true 400).L_shr 0 s = 0) ∧
      (8 : Int) ≤ zext [0, 1, 2, 4, 6, 9, 12] 5 ∧
      ∃ r, perBandEnergyFrom (refBandEnv 0 true 400) 8 2 4 6
          [100000, -3000, 70000, 5, 0, 123456789, 1, 2, 3, 4, 5, 6] 3 [0, 1, 2, 4, 6, 9, 12]
          [0, 0, 0, 0, 0, 0] [0, 0, 0, 0, 0, 0, 0] = some r ∧
        rd r.pre 5 = some 0 ∧ rd r.d2_fx 5 = some 0 :=
  ⟨by decide, Mpy_32_16_zero, L_shl_zero, L_shr_zero, by decide,
    C15_wide_zero_fill (refBandEnv 0 true 400) 8 2 4 6
      [100000, -3000, 70000, 5, 0, 123456789, 1, 2, 3, 4, 5, 6] [0, 1, 2, 4, 6, 9, 12]
      [0, 0, 0, 0, 0, 0] [0, 0, 0, 0, 0, 0, 0] 3 (by decide)
      Mpy_32_16_zero L_shl_zero L_shr_zero 5 (by decide) (by decide) (by decide)⟩

/-- C19: with an all-zero spectrum the call returns, every band energy is `0` before
and after the rescale, every per-band exponent is a 16-bit word (`-29` for the bands of
width 1 and 2), every rescale count `min(smax - e, 31)` lies in `[0, 31]`, and the
shared exponent is `2*d_fx_exp + smax` as a 16-bit word (with `Mpy_32_16(0, r) = 0` and
a shift of `0` being `0`). -/
theorem C19_zero_spectrum (env : BandEnv) (maxBwBin b1 b2 n : Int)
    (d_fx bo d2 ex : List Int) (d_fx_exp : Int)
    (hg : BandGeom env maxBwBin b1 b2 n d_fx bo d2 ex) (hz : AllZero d_fx)
    (hmpy : ∀ r, env.Mpy_32_16 0 r = 0) (hshl : ∀ s, env.L_shl 0 s = 0)
    (hshr : ∀ s, env.L_shr 0 s = 0) :
    ∃ r, perBandEnergyFrom env maxBwBin b1 b2 n d_fx d_fx_exp bo d2 ex = some r ∧
      (∀ band, 0 ≤ band → band < n →
        rd r.pre band = some 0 ∧ rd r.d2_fx band = some 0 ∧
        ∃ e, rd r.d2_band_fx_exp band = some e ∧ in16 e ∧ (band < b2 → e = -29) ∧
          s_min (sub r.smax e) 31 = min (r.smax - e) 31 ∧
          0 ≤ min (r.smax - e) 31 ∧ min (r.smax - e) 31 ≤ 31) ∧
      in16 r.smax ∧ -31 ≤ r.smax ∧ r.d2_fx_exp = wrap16 (2 * d_fx_exp + r.smax) := by
  obtain ⟨r, hr, hone, htwo, hwide, hs16, hs31, hsge, -, hres, hfin⟩ :=
    perBandEnergyFrom_bands hg d_fx_exp
  have hexp : r.d2_fx_exp = wrap16 (2 * d_fx_exp + r.smax) := by
    rw [hfin]
    unfold add wrap16 wrap32
    omega
  have hall : ∀ band, 0 ≤ band → band < n →
      ∃ e, rd r.pre band = some 0 ∧ rd r.d2_band_fx_exp band = some e ∧ in16 e ∧
        (band < b2 → e = -29) := by
    intro band h0 h1
    by_cases c1 : band < b1
    · obtain ⟨v, e, hs, he, hv, hee⟩ := hone band h0 c1
      obtain ⟨hv0, he0⟩ := singleEnergy_zero hz hshl hs
      subst hv0
      exact ⟨e, hv, hee, he, fun _ => he0⟩
    · by_cases c2 : band < b2
      · obtain ⟨v, e, hs, he, hv, hee⟩ := htwo band (by omega) c2
        obtain ⟨hv0, he0⟩ := widthTwoVal_zero hz hshl hshr hs
        subst hv0
        exact ⟨e, hv, hee, he, fun _ => he0⟩
      · obtain ⟨v, e, hw, he, hv, hee⟩ := hwide band (by omega) h1
        obtain ⟨hlo, hlo0, -, hlo16, -, -, hw2⟩ := bandGeom_offset hg h0 (by omega : band ≤ n)
        obtain ⟨hhi, hhi0, hhilen, hhi16, -⟩ := bandGeom_offset hg (by omega : 0 ≤ band + 1)
          (by omega : band + 1 ≤ n)
        obtain ⟨hmono, hwidth⟩ := hw2 (by omega) h1
        have hA : wrap16 (sub (zext bo (band + 1)) (zext bo band)) < 32 := by
          rw [sub_exact (by omega) (by omega)]
          unfold wrap16
          omega
        have hm := hg.2.2.2.2.2.2.1
        unfold in16 MIN_16 MAX_16 at hm
        have hstop : wrap16 (s_min (zext bo (band + 1)) maxBwBin) ≤ zext bo (band + 1) := by
          rw [s_min_eq_min]
          unfold wrap16
          omega
        have hzz : ∀ k, zext bo band ≤ k →
            k < wrap16 (s_min (zext bo (band + 1)) maxBwBin) → rd d_fx k = some 0 := by
          intro k hk1 hk2
          obtain ⟨d, hd⟩ := rd_isSome (a := d_fx) (i := k) (by omega) (by omega)
          rw [hd, hz d (rd_mem hd)]
        obtain ⟨e2, hzero⟩ := wideVal_zero env hhi hlo hzz hA
          hg.2.2.2.2.2.2.2.2.2.2.2.2.1 hg.2.2.2.2.2.2.2.2.2.2.2.2.2 hmpy hshl
        rw [hzero] at hw
        obtain ⟨hv0, -⟩ := Prod.mk.inj (Option.some.inj hw)
        subst hv0
        exact ⟨e, hv, hee, he, fun h => absurd h c2⟩
  refine ⟨r, hr, ?_, hs16, hs31, hexp⟩
  intro band h0 h1
  obtain ⟨e, hv, he, he16, he29⟩ := hall band h0 h1
  have hle := hsge band h0 h1 e he
  have hs16b := hs16
  unfold in16 MIN_16 MAX_16 at hs16b
  have he16b := he16
  unfold in16 MIN_16 MAX_16 at he16b
  have hcount : s_min (sub r.smax e) 31 = min (r.smax - e) 31 := by
    rw [sub_exact (by omega) (by omega), s_min_eq_min]
  refine ⟨hv, ?_, e, he, he16, he29, hcount, by omega, by omega⟩
  rw [hres band h0 h1 0 e hv he, hshr]

theorem C19_zero_spectrum_witness :
    BandGeom (refBandEnv 0 true 400) 8 2 4 6
        [0, 0, 0, 0, 0, 0, 0, 0, 0, 0, 0, 0] [0, 1, 2, 4, 6, 9, 12]
        [5, 5, 5, 5, 5, 5] [1, 1, 1, 1, 1, 1, 1] ∧
      AllZero [0, 0, 0, 0, 0, 0, 0, 0, 0, 0, 0, 0] ∧
      (∀ r, (refBandEnv 0 true 400).Mpy_32_16 0 r = 0) ∧
      (∀ s, (refBandEnv 0 true 400).L_shl 0 s = 0) ∧
      (∀ s, (refBandEnv 0 true 400).L_shr 0 s = 0) ∧
      ∃ r, perBandEnergyFrom (refBandEnv 0 true 400) 8 2 4 6
          [0, 0, 0, 0, 0, 0, 0, 0, 0, 0, 0, 0] 3 [0, 1, 2, 4, 6, 9, 12]
          [5, 5, 5, 5, 5, 5] [1, 1, 1, 1, 1, 1, 1] = some r ∧
        (∀ band, 0 ≤ band → band < 6 →
          rd r.pre band = some 0 ∧ rd r.d2_fx band = some 0 ∧
          ∃ e, rd r.d2_band_fx_exp band = some e ∧ in16 e ∧ (band < 4 → e = -29) ∧
            s_min (sub r.smax e) 31 = min (r.smax - e) 31 ∧
            0 ≤ min (r.smax - e) 31 ∧ min (r.smax - e) 31 ≤ 31) ∧
        in16 r.smax ∧ -31 ≤ r.smax ∧ r.d2_fx_exp = wrap16 (2 * 3 + r.smax) :=
  ⟨by decide, by decide, Mpy_32_16_zero, L_shl_zero, L_shr_zero,
    C19_zero_spectrum (refBandEnv 0 true 400) 8 2 4 6
      [0, 0, 0, 0, 0, 0, 0, 0, 0, 0, 0, 0] [0, 1, 2, 4, 6, 9, 12]
      [5, 5, 5, 5, 5, 5] [1, 1, 1, 1, 1, 1, 1] 3 (by decide) (by decide)
      Mpy_32_16_zero L_shl_zero L_shr_zero⟩

/-- C11 (counterexample): the coefficients `2, 2` with `maxBwBin = 4`.  As one band of
width 2 they give the value `1` at exponent `-29`; as two bands of width 1 they give
`1` and `1`, both at exponent `-29`.  No bit is lost in `extract_h`
(`L_shl(2, 15) = 1 * 2^16`), and the width-2 energy is half the sum of the two width-1
energies. -/
theorem C11_width_two_half_counterexample :
    BandGeom (refBandEnv 0 false 400) 4 0 1 1 [2, 2] [0, 2] [0] [0] ∧
      BandGeom (refBandEnv 0 false 400) 4 2 2 2 [2, 2] [0, 1, 2] [0, 0] [0, 0] ∧
      perBandEnergyFrom (refBandEnv 0 false 400) 4 0 1 1 [2, 2] 0 [0, 2] [0] [0] =
        some ⟨[1], -29, [-29], [1], -29⟩ ∧
      perBandEnergyFrom (refBandEnv 0 false 400) 4 2 2 2 [2, 2] 0 [0, 1, 2] [0, 0] [0, 0] =
        some ⟨[1, 1], -29, [-29, -29], [1, 1], -29⟩ ∧
      L_shl 2 15 = 1 * 2 ^ 16 ∧
      2 * energySum [1] [-29] = energySum [1, 1] [-29, -29] ∧
      energySum [1] [-29] ≠ energySum [1, 1] [-29, -29] := by
  refine ⟨by decide, by decide, by decide, by decide, by decide, ?_, ?_⟩
  · norm_num [energySum]
  · norm_num [energySum]

theorem normShift_pair {env : BandEnv} (hnorm : ∀ v, 0 ≤ env.norm_l v ∧ env.norm_l v ≤ 31)
    (a b : Int) :
    normShift env b (normShift env a 15) =
        min (if a = 0 then 15 else min 15 (env.norm_l a))
          (if b = 0 then 15 else env.norm_l b) ∧
      0 ≤ normShift env b (normShift env a 15) ∧ normShift env b (normShift env a 15) ≤ 15 := by
  have ha := hnorm a
  have hb := hnorm b
  unfold normShift s_min wrap16
  split_ifs <;> omega

theorem pair_sum_exact {t0 t1 : Int} (h0 : in16 t0) (h1 : in16 t1) :
    L_mac0 (L_min (L_mult0 t0 t0) 1073741823) t1 t1 =
      min (t0 * t0) 1073741823 + t1 * t1 := by
  obtain ⟨p1, p2, p3⟩ := sq16 h0
  obtain ⟨q1, q2, q3⟩ := sq16 h1
  norm_num at p3 q3
  have e1 : L_min (L_mult0 t0 t0) 1073741823 = min (t0 * t0) 1073741823 := by
    rw [p1]
    unfold L_min
    split_ifs <;> omega
  rw [e1]
  unfold L_mac0 wrap32
  omega

/-- C11 (amended): an in-bandwidth band of width 2 with coefficients `a`, `b` stores,
before the rescale, `floor((min(t0*t0, 0x3FFFFFFF) + t1*t1) / 2)` with
`t0 = extract_h(L_shl(a, s2))`, `t1 = extract_h(L_shl(b, s2))` and the common shift
`s2`, at the exponent `1 - 2*s2` of a width-1 band: it represents half the sum of the
two normalized squares (within 1), the right shift by one bit not being added back to
the exponent. -/
theorem C11_width_two_mean (env : BandEnv) (maxBwBin b1 b2 n : Int)
    (d_fx bo d2 ex : List Int) (d_fx_exp : Int)
    (hg : BandGeom env maxBwBin b1 b2 n d_fx bo d2 ex)
    (hnorm : ∀ v, 0 ≤ env.norm_l v ∧ env.norm_l v ≤ 31)
    (hshr : ∀ v, env.L_shr v 1 = Int.shiftRight v 1)
    (band : Int) (h0 : b1 ≤ band) (h1 : band < b2)
    (hin : b1 + 2 * (band - b1) + 1 < maxBwBin) :
    ∃ r a b s2 t0 t1,
      perBandEnergyFrom env maxBwBin b1 b2 n d_fx d_fx_exp bo d2 ex = some r ∧
      rd d_fx (b1 + 2 * (band - b1)) = some a ∧
      rd d_fx (b1 + 2 * (band - b1) + 1) = some b ∧
      s2 = min (if a = 0 then 15 else min 15 (env.norm_l a))
        (if b = 0 then 15 else env.norm_l b) ∧
      t0 = extract_h (env.L_shl a s2) ∧ t1 = extract_h (env.L_shl b s2) ∧
      rd r.pre band = some ((min (t0 * t0) 1073741823 + t1 * t1) / 2) ∧
      rd r.d2_band_fx_exp band = some (1 - 2 * s2) ∧
      2 * ((min (t0 * t0) 1073741823 + t1 * t1) / 2) ≤ t0 * t0 + t1 * t1 ∧
      t0 * t0 + t1 * t1 ≤ 2 * ((min (t0 * t0) 1073741823 + t1 * t1) / 2) + 2 := by
  obtain ⟨r, hr, -, htwo, -⟩ := perBandEnergyFrom_bands hg d_fx_exp
  obtain ⟨v, e, hs, -, hv, he⟩ := htwo band h0 h1
  have hb1 := hg.1
  have hm := hg.2.2.2.2.2.2.1
  obtain ⟨-, hoff0, -, hoff16, -, hoffeq, -⟩ :=
    bandGeom_offset hg (by omega : 0 ≤ band) (by have := hg.2.2.1; omega : band ≤ n)
  have hoff := hoffeq h0 (by omega)
  rw [widthTwoVal_inside env d_fx band (by omega) hm hin] at hs
  cases hd0 : rd d_fx (b1 + 2 * (band - b1)) with
  | none => simp [pairEnergy, hd0] at hs
  | some a =>
    cases hd1 : rd d_fx (b1 + 2 * (band - b1) + 1) with
    | none => simp [pairEnergy, hd0, hd1] at hs
    | some b =>
      rw [pairEnergy_eq env hd0 hd1] at hs
      obtain ⟨hv2, he2⟩ := Prod.mk.inj (Option.some.inj hs)
      obtain ⟨hsh, hsh0, hsh15⟩ := normShift_pair hnorm a b
      have ht0 := in16_wrap16 (Int.shiftRight
        (env.L_shl a (normShift env b (normShift env a 15))) 16)
      have ht1 := in16_wrap16 (Int.shiftRight
        (env.L_shl b (normShift env b (normShift env a 15))) 16)
      obtain ⟨-, p2, p3⟩ := sq16 ht0
      obtain ⟨-, q2, q3⟩ := sq16 ht1
      norm_num at p3 q3
      have hsum := pair_sum_exact ht0 ht1
      have hpre : rd r.pre band = some ((min
          (extract_h (env.L_shl a (normShift env b (normShift env a 15))) *
            extract_h (env.L_shl a (normShift env b (normShift env a 15)))) 1073741823 +
          extract_h (env.L_shl b (normShift env b (normShift env a 15))) *
            extract_h (env.L_shl b (normShift env b (normShift env a 15)))) / 2) := by
        rw [hv, ← hv2, hshr, shiftRight_eq_div]
        unfold extract_h
        rw [hsum]
        norm_num
      have hexp : rd r.d2_band_fx_exp band =
          some (1 - 2 * normShift env b (normShift env a 15)) := by
        rw [he, ← he2, exp_of_shift (by omega)]
      rw [hsh] at hpre hexp
      refine ⟨r, a, b, _, _, _, hr, rfl, rfl, rfl, rfl, rfl, hpre, hexp, ?_, ?_⟩
      · rw [← hsh]
        unfold extract_h
        omega
      · rw [← hsh]
        unfold extract_h
        omega

theorem C11_width_two_mean_witness :
    BandGeom (refBandEnv 0 true 400) 8 2 4 6
        [100000, -3000, 70000, 5, 0, 123456789, 1, 2, 3, 4, 5, 6] [0, 1, 2, 4, 6, 9, 12]
        [0, 0, 0, 0, 0, 0] [0, 0, 0, 0, 0, 0, 0] ∧
      (∀ v, 0 ≤ (refBandEnv 0 true 400).norm_l v ∧ (refBandEnv 0 true 400).norm_l v ≤ 31) ∧
      (∀ v, (refBandEnv 0 true 400).L_shr v 1 = Int.shiftRight v 1) ∧
      ∃ r a b s2 t0 t1,
        perBandEnergyFrom (refBandEnv 0 true 400) 8 2 4 6
          [100000, -3000, 70000, 5, 0, 123456789, 1, 2, 3, 4, 5, 6] 3 [0, 1, 2, 4, 6, 9, 12]
          [0, 0, 0, 0, 0, 0] [0, 0, 0, 0, 0, 0, 0] = some r ∧
        rd [100000, -3000, 70000, 5, 0, 123456789, 1, 2, 3, 4, 5, 6] (2 + 2 * (2 - 2)) =
          some a ∧
        rd [100000, -3000, 70000, 5, 0, 123456789, 1, 2, 3, 4, 5, 6] (2 + 2 * (2 - 2) + 1) =
          some b ∧
        s2 = min (if a = 0 then 15 else min 15 ((refBandEnv 0 true 400).norm_l a))
          (if b = 0 then 15 else (refBandEnv 0 true 400).norm_l b) ∧
        t0 = extract_h ((refBandEnv 0 true 400).L_shl a s2) ∧
        t1 = extract_h ((refBandEnv 0 true 400).L_shl b s2) ∧
        rd r.pre 2 = some ((min (t0 * t0) 1073741823 + t1 * t1) / 2) ∧
        rd r.d2_band_fx_exp 2 = some (1 - 2 * s2) ∧
        2 * ((min (t0 * t0) 1073741823 + t1 * t1) / 2) ≤ t0 * t0 + t1 * t1 ∧
        t0 * t0 + t1 * t1 ≤ 2 * ((min (t0 * t0) 1073741823 + t1 * t1) / 2) + 2 :=
  ⟨by decide, norm_l_range, fun v => by simp [refBandEnv, L_shr],
    C11_width_two_mean (refBandEnv 0 true 400) 8 2 4 6
      [100000, -3000, 70000, 5, 0, 123456789, 1, 2, 3, 4, 5, 6] [0, 1, 2, 4, 6, 9, 12]
      [0, 0, 0, 0, 0, 0] [0, 0, 0, 0, 0, 0, 0] 3 (by decide) norm_l_range
      (fun v => by simp [refBandEnv, L_shr]) 2 (by decide) (by decide) (by decide)⟩

/-! Claims on the shift macros, on the access ranges of `processMdct_fx` and on the
set-up of `processPerBandEnergy_fx` -/

/-- C21 (counterexample): `shl(4, -1)` and `shr(4, -1)` are shifts by a negative count,
which C does not define, while `shr(4, 1) = 2` and `shl(4, 1) = 8`: the macros do not
flip the direction. -/
theorem C21_negative_count_counterexample :
    shl 4 (-1) = none ∧ shr 4 1 = some 2 ∧ shl 4 (-1) ≠ shr 4 1 ∧
      shr 4 (-1) = none ∧ shl 4 1 = some 8 ∧ shr 4 (-1) ≠ shl 4 1 := by
  decide

/-- C21 (amended): for a 16-bit `x` and `1 ≤ n ≤ 15`, `shl(x, n)` is `x * 2^n` (a 32-bit
value, no wrap) and `shr(x, n)` is `floor(x / 2^n)`, while `shl(x, -n)` and `shr(x, -n)`
have no defined value. -/
theorem C21_shift_by_count (x n : Int) (hx : in16 x) (h1 : 1 ≤ n) (h2 : n ≤ 15) :
    shl x n = some (x * 2 ^ n.toNat) ∧ in32 (x * 2 ^ n.toNat) ∧
      shr x n = some (x / 2 ^ n.toNat) ∧
      shl x (-n) = none ∧ shr x (-n) = none := by
  unfold in16 MIN_16 MAX_16 at hx
  have hp1 : (1 : Int) ≤ 2 ^ n.toNat := one_le_pow₀ (by norm_num)
  have hp2 : (2 : Int) ^ n.toNat ≤ 2 ^ 15 := pow_le_pow_right₀ (by norm_num) (by omega)
  norm_num at hp2
  have hin : in32 (x * 2 ^ n.toNat) := by
    unfold in32 MIN_32 MAX_32
    constructor <;> nlinarith
  refine ⟨?_, hin, ?_, ?_, ?_⟩
  · unfold shl
    rw [if_pos (by omega), wrap32_of_in32 hin]
  · unfold shr
    rw [if_pos (by omega), shiftRight_eq_div]
  · unfold shl
    rw [if_neg (by omega)]
  · unfold shr
    rw [if_neg (by omega)]

theorem C21_shift_by_count_witness :
    in16 (-12345) ∧ (1 : Int) ≤ 3 ∧ (3 : Int) ≤ 15 ∧
      shl (-12345) 3 = some (-12345 * 2 ^ (3 : Int).toNat) ∧
      in32 (-12345 * 2 ^ (3 : Int).toNat) ∧
      shr (-12345) 3 = some (-12345 / 2 ^ (3 : Int).toNat) ∧
      shl (-12345) (-3) = none ∧ shr (-12345) (-3) = none :=
  ⟨by decide, by decide, by decide,
    C21_shift_by_count (-12345) 3 (by decide) (by decide) (by decide)⟩

/-- C24 (counterexample): `N = 4`, `wLen = 8` (so `z = 0`) and `memLen = 2` satisfy
`memLen ≤ N` and `wLen ≤ 2N`, with buffers of the configured lengths, yet the third
fold loop reads `x[4m - memLen - 1 - i] = x[5]` at `i = 0`, outside `x`. -/
theorem C24_short_history_counterexample :
    (2 : Int) ≤ 4 ∧ (8 : Int) ≤ 2 * 4 ∧
      rd [1, 2, 3, 4] (4 * Int.shiftRight 4 1 - 2 - 1 - 0) = none ∧
      foldPairVal (Int.shiftRight 4 1) 2 [1, 1, 1, 1, 1, 1, 1, 1] [1, 2, 3, 4] 0 = none ∧
      mdctFold 4 8 2 [1, 1, 1, 1, 1, 1, 1, 1] [1, 2, 3, 4] [5, 6] [0, 0, 0, 0]
        [0, 0, 0, 0] = none ∧
      processMdct_fx (shiftEnv 0) 4 8 2 [1, 1, 1, 1, 1, 1, 1, 1] [1, 2, 3, 4] [5, 6]
        [0, 0, 0, 0] [0, 0, 0, 0] = none := by
  decide

/-- C24 (amended): with `N` even, `0 ≤ z = 2N - wLen ≤ N/2` and `N - z ≤ memLen ≤ N`
(and buffers of the configured lengths) every access of `processMdct_fx` is in range:
the call returns, `y` and `mem` keep their lengths, and the indices of the three fold
loops lie inside `x`, the working buffer, `w` and `y`. -/
theorem C24_accesses_in_range (env : MdctEnv) (N wLen memLen : Int)
    (w x mem y scratch : List Int) (hg : MdctGeom N wLen memLen w x mem y scratch) :
    ∃ r, processMdct_fx env N wLen memLen w x mem y scratch = some r ∧
      (r.y.length : Int) = N ∧ (r.mem.length : Int) = memLen ∧
      (∀ i, 0 ≤ i → i < N / 2 →
        0 ≤ 2 * (N / 2) - 1 - i ∧ 2 * (N / 2) - 1 - i < N ∧ 2 * (N / 2) - 1 - i < wLen ∧
        N / 2 + i < N) ∧
      (∀ i, 0 ≤ i → i < N / 2 →
        0 ≤ 2 * (N / 2) - memLen + i ∧ 2 * (N / 2) - memLen + i < N ∧
        2 * (N / 2) + i < wLen ∧ 0 ≤ N / 2 - 1 - i) ∧
      (∀ i, 2 * N - wLen ≤ i → i < N / 2 →
        0 ≤ 4 * (N / 2) - memLen - 1 - i ∧ 4 * (N / 2) - memLen - 1 - i < N ∧
        4 * (N / 2) - 1 - i < wLen) := by
  obtain ⟨f, r, hf, hr, hmem, -, hylen, -, -⟩ := processMdct_fx_spec env hg
  obtain ⟨-, hflen, -⟩ := mdctFold_spec hg
  obtain ⟨f2, hf2, hf2len, -⟩ := mdctFold_spec hg
  have hff : f2 = f := Option.some.inj (hf2.symm.trans hf)
  subst hff
  obtain ⟨h0, h1, h2, hz0, hz1, hm0, hm1, hw, hx, hml, hy, hs⟩ := hg
  refine ⟨r, hr, hylen, by rw [hmem]; exact hf2len, ?_, ?_, ?_⟩
  · intro i hi0 hi1
    omega
  · intro i hi0 hi1
    omega
  · intro i hi0 hi1
    omega

theorem C24_accesses_in_range_witness :
    MdctGeom 4 7 3 [1, 2, 3, 4, 5, 6, 7] [10, 20, 30, 40] [5, 6, 7] [0, 0, 0, 0]
        [0, 0, 0, 0] ∧
      ∃ r, processMdct_fx (shiftEnv 1) 4 7 3 [1, 2, 3, 4, 5, 6, 7] [10, 20, 30, 40]
          [5, 6, 7] [0, 0, 0, 0] [0, 0, 0, 0] = some r ∧
        (r.y.length : Int) = 4 ∧ (r.mem.length : Int) = 3 ∧
        (∀ i, 0 ≤ i → i < (4 : Int) / 2 →
          0 ≤ 2 * ((4 : Int) / 2) - 1 - i ∧ 2 * ((4 : Int) / 2) - 1 - i < 4 ∧
          2 * ((4 : Int) / 2) - 1 - i < 7 ∧ (4 : Int) / 2 + i < 4) ∧
        (∀ i, 0 ≤ i → i < (4 : Int) / 2 →
          0 ≤ 2 * ((4 : Int) / 2) - 3 + i ∧ 2 * ((4 : Int) / 2) - 3 + i < 4 ∧
          2 * ((4 : Int) / 2) + i < 7 ∧ 0 ≤ (4 : Int) / 2 - 1 - i) ∧
        (∀ i, 2 * 4 - 7 ≤ i → i < (4 : Int) / 2 →
          0 ≤ 4 * ((4 : Int) / 2) - 3 - 1 - i ∧ 4 * ((4 : Int) / 2) - 3 - 1 - i < 4 ∧
          4 * ((4 : Int) / 2) - 1 - i < 7) :=
  ⟨by decide, C24_accesses_in_range (shiftEnv 1) 4 7 3 [1, 2, 3, 4, 5, 6, 7]
    [10, 20, 30, 40] [5, 6, 7] [0, 0, 0, 0] [0, 0, 0, 0] (by decide)⟩

/-- C25 (the code at the failing input): in the build without `BTLLC_5MS_MODE` and
with `frame_dms = 100` the set-up assigns neither band count, for `linear = 0` and for
`linear = 1`, and the call stops at the first read of `bandsOffsetOne`; with
`frame_dms = 50` both are assigned from the tables. -/
theorem C25_band_counts_unassigned :
    bandSetup (refBandEnv 0 true 400) 0 0 100 = some ⟨400, none, none⟩ ∧
      bandSetup (refBandEnv 0 true 400) 0 1 100 = some ⟨400, none, none⟩ ∧
      bandSetup (refBandEnv 0 true 400) 0 0 50 = some ⟨200, some 2, some 3⟩ ∧
      processPerBandEnergy_fx (refBandEnv 0 true 400) [0, 0, 0] [0, 0, 0]
        [100000, -3000, 70000, 5, 0, 123456789] 3 [0, 1, 2, 4] 0 3 0 100 = none ∧
      processPerBandEnergy_fx (refBandEnv 0 true 400) [0, 0, 0] [0, 0, 0]
        [100000, -3000, 70000, 5, 0, 123456789] 3 [0, 1, 2, 4] 0 3 1 100 = none ∧
      (processPerBandEnergy_fx (refBandEnv 0 true 400) [0, 0, 0] [0, 0, 0]
        [100000, -3000, 70000, 5, 0, 123456789] 3 [0, 1, 2, 4] 0 3 0 50).isSome = true := by
  decide

/-- C28: the accumulation of the in-bandwidth width-2 path never overflows.  For all
16-bit `t0`, `t1` the value `L_mac0(L_min(t0*t0, 0x3FFFFFFF), t1, t1)` is the integer
`min(t0*t0, 0x3FFFFFFF) + t1*t1`, which lies in `[0, 2^31 - 1]`; and the energy stored
for an in-bandwidth width-2 band, after the right shift by 1, lies in `[0, 2^30 - 1]`. -/
theorem C28_width_two_no_overflow (env : BandEnv) (maxBwBin b1 b2 n : Int)
    (d_fx bo d2 ex : List Int) (d_fx_exp : Int)
    (hg : BandGeom env maxBwBin b1 b2 n d_fx bo d2 ex)
    (hshr : ∀ v, env.L_shr v 1 = Int.shiftRight v 1)
    (band : Int) (h0 : b1 ≤ band) (h1 : band < b2)
    (hin : b1 + 2 * (band - b1) + 1 < maxBwBin) :
    (∀ t0 t1, in16 t0 → in16 t1 →
      L_mac0 (L_min (L_mult0 t0 t0) 1073741823) t1 t1 = min (t0 * t0) 1073741823 + t1 * t1 ∧
      0 ≤ L_mac0 (L_min (L_mult0 t0 t0) 1073741823) t1 t1 ∧
      L_mac0 (L_min (L_mult0 t0 t0) 1073741823) t1 t1 ≤ 2 ^ 31 - 1) ∧
    ∃ r v, perBandEnergyFrom env maxBwBin b1 b2 n d_fx d_fx_exp bo d2 ex = some r ∧
      rd r.pre band = some v ∧ 0 ≤ v ∧ v ≤ 2 ^ 30 - 1 := by
  have hop : ∀ t0 t1, in16 t0 → in16 t1 →
      L_mac0 (L_min (L_mult0 t0 t0) 1073741823) t1 t1 = min (t0 * t0) 1073741823 + t1 * t1 ∧
      0 ≤ L_mac0 (L_min (L_mult0 t0 t0) 1073741823) t1 t1 ∧
      L_mac0 (L_min (L_mult0 t0 t0) 1073741823) t1 t1 ≤ 2 ^ 31 - 1 := by
    intro t0 t1 ht0 ht1
    obtain ⟨-, p2, p3⟩ := sq16 ht0
    obtain ⟨-, q2, q3⟩ := sq16 ht1
    norm_num at p3 q3
    rw [pair_sum_exact ht0 ht1]
    norm_num
    omega
  refine ⟨hop, ?_⟩
  obtain ⟨r, hr, -, htwo, -⟩ := perBandEnergyFrom_bands hg d_fx_exp
  obtain ⟨v, e, hs, -, hv, -⟩ := htwo band h0 h1
  have hb1 := hg.1
  have hm := hg.2.2.2.2.2.2.1
  obtain ⟨-, hoff0, -, hoff16, -, hoffeq, -⟩ :=
    bandGeom_offset hg (by omega : 0 ≤ band) (by have := hg.2.2.1; omega : band ≤ n)
  have hoff := hoffeq h0 (by omega)
  rw [widthTwoVal_inside env d_fx band (by omega) hm hin] at hs
  cases hd0 : rd d_fx (b1 + 2 * (band - b1)) with
  | none => simp [pairEnergy, hd0] at hs
  | some a =>
    cases hd1 : rd d_fx (b1 + 2 * (band - b1) + 1) with
    | none => simp [pairEnergy, hd0, hd1] at hs
    | some b =>
      rw [pairEnergy_eq env hd0 hd1] at hs
      obtain ⟨hv2, -⟩ := Prod.mk.inj (Option.some.inj hs)
      obtain ⟨-, k0, k1⟩ := hop _ _
        (in16_wrap16 (Int.shiftRight (env.L_shl a (normShift env b (normShift env a 15))) 16))
        (in16_wrap16 (Int.shiftRight (env.L_shl b (normShift env b (normShift env a 15))) 16))
      norm_num at k1
      refine ⟨r, v, hr, hv, ?_, ?_⟩
      · rw [← hv2, hshr, shiftRight_eq_div]
        unfold extract_h
        omega
      · rw [← hv2, hshr, shiftRight_eq_div]
        unfold extract_h
        norm_num
        omega

theorem C28_width_two_no_overflow_witness :
    BandGeom (refBandEnv 0 true 400) 8 2 4 6
        [100000, -3000, 70000, 5, 0, 123456789, 1, 2, 3, 4, 5, 6] [0, 1, 2, 4, 6, 9, 12]
        [0, 0, 0, 0, 0, 0] [0, 0, 0, 0, 0, 0, 0] ∧
      (∀ v, (refBandEnv 0 true 400).L_shr v 1 = Int.shiftRight v 1) ∧
      (∀ t0 t1, in16 t0 → in16 t1 →
        L_mac0 (L_min (L_mult0 t0 t0) 1073741823) t1 t1 =
          min (t0 * t0) 1073741823 + t1 * t1 ∧
        0 ≤ L_mac0 (L_min (L_mult0 t0 t0) 1073741823) t1 t1 ∧
        L_mac0 (L_min (L_mult0 t0 t0) 1073741823) t1 t1 ≤ 2 ^ 31 - 1) ∧
      ∃ r v, perBandEnergyFrom (refBandEnv 0 true 400) 8 2 4 6
          [100000, -3000, 70000, 5, 0, 123456789, 1, 2, 3, 4, 5, 6] 3 [0, 1, 2, 4, 6, 9, 12]
          [0, 0, 0, 0, 0, 0] [0, 0, 0, 0, 0, 0, 0] = some r ∧
        rd r.pre 3 = some v ∧ 0 ≤ v ∧ v ≤ 2 ^ 30 - 1 :=
  ⟨by decide, fun v => by simp [refBandEnv, L_shr],
    C28_width_two_no_overflow (refBandEnv 0 true 400) 8 2 4 6
      [100000, -3000, 70000, 5, 0, 123456789, 1, 2, 3, 4, 5, 6] [0, 1, 2, 4, 6, 9, 12]
      [0, 0, 0, 0, 0, 0] [0, 0, 0, 0, 0, 0, 0] 3 (by decide)
      (fun v => by simp [refBandEnv, L_shr]) 3 (by decide) (by decide) (by decide)⟩

/-- C27: the normalization of `processMdct_fx` keeps the represented values.  With
`s = s_max(0, getScaleFactor32(y, N))`, a 16-bit headroom answer within the headroom of
every folded value (`v * 2^s` is a 32-bit word) and `L_shl` the exact left shift there,
`s` is at least `0`, every folded value `v` becomes exactly `v * 2^s`, the exponent is
`X_EXP - 2 - s` plus the block-size correction, and `v_after * 2^(E - s) = v * 2^E` for
every exponent `E`, in particular `E = X_EXP - 2`. -/
theorem C27_normalization_exact (env : MdctEnv) (N wLen memLen : Int)
    (w x mem y scratch : List Int) (f : MdctFolded)
    (hg : MdctGeom N wLen memLen w x mem y scratch)
    (hf : mdctFold N wLen memLen w x mem y scratch = some f)
    (hs16 : in16 (env.getScaleFactor32 f.y N))
    (hhead : ∀ v ∈ f.y, in32 (v * 2 ^ (s_max 0 (env.getScaleFactor32 f.y N)).toNat))
    (hshl : ∀ v k, 0 ≤ k → in32 (v * 2 ^ k.toNat) → env.L_shl v k = v * 2 ^ k.toNat) :
    ∃ r, processMdct_fx env N wLen memLen w x mem y scratch = some r ∧
      r.s = s_max 0 (env.getScaleFactor32 f.y N) ∧ 0 ≤ r.s ∧
      r.y_e = wrap16 (env.X_EXP - 2 - r.s + (if N ≤ 20 then 2 else if N ≤ 120 then 1 else 0)) ∧
      ∀ j, 0 ≤ j → j < N →
        ∃ v, rd f.y j = some v ∧ rd r.y j = some (v * 2 ^ r.s.toNat) ∧
          in32 (v * 2 ^ r.s.toNat) ∧
          ∀ E : Int, ((v * 2 ^ r.s.toNat : Int) : ℚ) * 2 ^ (E - r.s) = (v : ℚ) * 2 ^ E := by
  obtain ⟨f2, r, hf2, hr, -, hs, hylen, hy, hye⟩ := processMdct_fx_spec env hg
  have hff : f2 = f := Option.some.inj (hf2.symm.trans hf)
  subst hff
  obtain ⟨-, hflen, -⟩ := mdctFold_spec hg
  obtain ⟨f3, hf3, -, hf3len, -⟩ := mdctFold_spec hg
  have hff : f3 = f2 := Option.some.inj (hf3.symm.trans hf)
  subst hff
  obtain ⟨q1, -, q3, -, -⟩ := s_max_in16 (by decide : in16 0) hs16
  rw [q1] at hs
  refine ⟨r, hr, hs, by rw [hs]; exact q3, hye, ?_⟩
  intro j hj0 hj1
  obtain ⟨v, hv⟩ := rd_isSome (a := f3.y) hj0 (by omega)
  have hin : in32 (v * 2 ^ r.s.toNat) := by
    rw [hs]
    exact hhead v (rd_mem hv)
  refine ⟨v, hv, ?_, hin, ?_⟩
  · rw [hy j hj0 hj1, hv]
    show some (env.L_shl v r.s) = _
    rw [hshl v r.s (by rw [hs]; exact q3) hin]
  · intro E
    have hs0 : 0 ≤ r.s := by rw [hs]; exact q3
    obtain ⟨k, hk⟩ := Int.eq_ofNat_of_zero_le hs0
    rw [hk]
    push_cast
    rw [Int.toNat_natCast, zpow_sub₀ (by norm_num : (2 : ℚ) ≠ 0), zpow_natCast]
    field_simp
    ring

theorem C27_normalization_exact_witness :
    MdctGeom 4 7 3 [1, 2, 3, 4, 5, 6, 7] [10, 20, 30, 40] [5, 6, 7] [0, 0, 0, 0]
        [0, 0, 0, 0] ∧
      mdctFold 4 7 3 [1, 2, 3, 4, 5, 6, 7] [10, 20, 30, 40] [5, 6, 7] [0, 0, 0, 0]
        [0, 0, 0, 0] = some ⟨[20, 30, 40], [5, 6, 7, 10], [460, 100, -35, -9]⟩ ∧
      in16 ((shiftEnv 3).getScaleFactor32 [460, 100, -35, -9] 4) ∧
      (∀ v ∈ [460, 100, -35, -9],
        in32 (v * 2 ^ (s_max 0 ((shiftEnv 3).getScaleFactor32 [460, 100, -35, -9] 4)).toNat)) ∧
      ∃ r, processMdct_fx (shiftEnv 3) 4 7 3 [1, 2, 3, 4, 5, 6, 7] [10, 20, 30, 40]
          [5, 6, 7] [0, 0, 0, 0] [0, 0, 0, 0] = some r ∧
        r.s = s_max 0 ((shiftEnv 3).getScaleFactor32 [460, 100, -35, -9] 4) ∧ 0 ≤ r.s ∧
        r.y_e = wrap16 ((shiftEnv 3).X_EXP - 2 - r.s +
          (if (4 : Int) ≤ 20 then 2 else if (4 : Int) ≤ 120 then 1 else 0)) ∧
        ∀ j, 0 ≤ j → j < 4 →
          ∃ v, rd [460, 100, -35, -9] j = some v ∧ rd r.y j = some (v * 2 ^ r.s.toNat) ∧
            in32 (v * 2 ^ r.s.toNat) ∧
            ∀ E : Int, ((v * 2 ^ r.s.toNat : Int) : ℚ) * 2 ^ (E - r.s) = (v : ℚ) * 2 ^ E :=
  ⟨by decide, by decide, by decide, by decide,
    C27_normalization_exact (shiftEnv 3) 4 7 3 [1, 2, 3, 4, 5, 6, 7] [10, 20, 30, 40]
      [5, 6, 7] [0, 0, 0, 0] [0, 0, 0, 0] ⟨[20, 30, 40], [5, 6, 7, 10], [460, 100, -35, -9]⟩
      (by decide) (by decide) (by decide) (by decide)
      (fun v k hk hin => by
        show wrap32 (v * 2 ^ k.toNat) = _
        exact wrap32_of_in32 hin)⟩

/-! The running coefficient index of the band loops -/

theorem widthOneStep_ok {env : BandEnv} {maxBwBin b1 b2 n : Int} {d_fx bo d2 ex : List Int}
    (hg : BandGeom env maxBwBin b1 b2 n d_fx bo d2 ex) {band : Int} (h0 : 0 ≤ band)
    (h1 : band < b1) :
    ∃ v e, singleEnergy env d_fx band = some (v, e) ∧
      ∀ i, widthOneStep env maxBwBin bo d_fx band i = some (i, v, e) := by
  have hg0 := hg
  obtain ⟨hb1, hb12, hb2n, hbo, hd2, hexl, hmax, hb1max, -⟩ := hg
  obtain ⟨r0, -, -, -, l0, -, -⟩ := bandGeom_offset hg0 h0 (by omega)
  obtain ⟨r1, -, u1, -, l1, -, -⟩ := bandGeom_offset hg0 (by omega : 0 ≤ band + 1)
    (by omega : band + 1 ≤ n)
  rw [l0 (by omega)] at r0
  rw [l1 (by omega)] at r1 u1
  obtain ⟨d, hd⟩ := rd_isSome (a := d_fx) h0 (by omega)
  have hs := singleEnergy_eq env hd
  refine ⟨_, _, hs, ?_⟩
  intro i
  have ha := assertWidth_ok env r1 r0 (by unfold wrap32; omega : wrap32 (_ - _) = 1)
  have hb : ASSERT env (band < maxBwBin) = some () := by
    cases ha : env.asserts with
    | false => exact ASSERT_off ha _
    | true => exact ASSERT_true env (by have := hb1max ha; omega)
  simp [widthOneStep, ha, hb, hs]

theorem widthTwoStep_ok {env : BandEnv} {maxBwBin b1 b2 n : Int} {d_fx bo d2 ex : List Int}
    (hg : BandGeom env maxBwBin b1 b2 n d_fx bo d2 ex) {band : Int} (h0 : b1 ≤ band)
    (h1 : band < b2) :
    ∃ v e, widthTwoVal env maxBwBin d_fx band (b1 + 2 * (band - b1)) = some (v, e) ∧
      widthTwoStep env maxBwBin bo d_fx band (b1 + 2 * (band - b1)) =
        some (b1 + 2 * (band + 1 - b1), v, e) := by
  obtain ⟨st, -, -, -, -, htwo, -⟩ := bandLoops_spec hg
  obtain ⟨v, e, hv, -, -, -⟩ := htwo band h0 h1
  have hg0 := hg
  obtain ⟨hb1, hb12, hb2n, hbo, hd2, hexl, hmax, hb1max, -⟩ := hg
  obtain ⟨r0, p0, -, q0, -, l0, -⟩ := bandGeom_offset hg0 (by omega : 0 ≤ band)
    (by omega : band ≤ n)
  obtain ⟨r1, -, u1, q1, -, l1, -⟩ := bandGeom_offset hg0 (by omega : 0 ≤ band + 1)
    (by omega : band + 1 ≤ n)
  rw [l0 h0 (by omega)] at r0 p0 q0
  rw [l1 (by omega) (by omega)] at r1 u1 q1
  have ha := assertWidth_ok env r1 r0 (by unfold wrap32; omega : wrap32 (_ - _) = 2)
  have hadd : add (b1 + 2 * (band - b1)) 2 = b1 + 2 * (band + 1 - b1) := by
    rw [add_exact (by omega) (by omega)]
    ring
  exact ⟨v, e, hv, by simp [widthTwoStep, ha, hv, hadd]⟩

theorem wideStep_ok {env : BandEnv} {maxBwBin b1 b2 n : Int} {d_fx bo d2 ex : List Int}
    (hg : BandGeom env maxBwBin b1 b2 n d_fx bo d2 ex) {band : Int} (h0 : b2 ≤ band)
    (h1 : band < n) :
    ∃ v e, wideVal env maxBwBin bo d_fx band (zext bo band) = some (v, e) ∧
      wideStep env maxBwBin bo d_fx band (zext bo band) =
        some (zext bo (band + 1), v, e) := by
  obtain ⟨st, -, -, -, -, -, hwide⟩ := bandLoops_spec hg
  obtain ⟨v, e, hv, -, -, -⟩ := hwide band h0 h1
  have hb1 := hg.1
  have hb12 := hg.2.1
  obtain ⟨r1, -⟩ := bandGeom_offset hg (by omega : 0 ≤ band + 1) (by omega : band + 1 ≤ n)
  exact ⟨v, e, hv, by simp [wideStep, hv, r1]⟩

/-- The band loops run up to the start of band `m` (their bounds cut at `m`), on
buffers at least `m` long: the running index is then `band_offsets[m]`, every band
below `m` holds the values of its regime, and every entry from `m` on is untouched. -/
theorem bandLoops_upTo {env : BandEnv} {maxBwBin b1 b2 n : Int} {d_fx bo d2 ex : List Int}
    (hg : BandGeom env maxBwBin b1 b2 n d_fx bo d2 ex) (D E : List Int) (m : Int)
    (hm1 : b1 ≤ m) (hm2 : m ≤ n) (hD : m ≤ D.length) (hE : m ≤ E.length) :
    ∃ st, bandLoops env maxBwBin b1 (min b2 m) m d_fx bo D E = some st ∧
      st.i = zext bo m ∧ st.d2_fx.length = D.length ∧
      st.d2_band_fx_exp.length = E.length ∧
      (∀ b, 0 ≤ b → b < m →
        ∃ v e, bandVal env maxBwBin b1 b2 bo d_fx b = some (v, e) ∧
          rd st.d2_fx b = some v ∧ rd st.d2_band_fx_exp b = some e) ∧
      (∀ b, m ≤ b → rd st.d2_fx b = rd D b ∧ rd st.d2_band_fx_exp b = rd E b) := by
  have hb1 := hg.1
  have hb12 := hg.2.1
  have hb2n := hg.2.2.1
  obtain ⟨st1, hl1, -, hd2a, hexa, hin1, hout1⟩ := bandLoop_spec
    (widthOneStep env maxBwBin bo d_fx) (fun _ => 0)
    (fun b => ((singleEnergy env d_fx b).getD (0, 0)).1)
    (fun b => ((singleEnergy env d_fx b).getD (0, 0)).2) 0 b1 ⟨0, D, E⟩ hb1 le_rfl rfl
    (by show b1 ≤ (D.length : Int); omega) (by show b1 ≤ (E.length : Int); omega)
    (by
      intro b h0 h1
      obtain ⟨v, e, hs, hstep⟩ := widthOneStep_ok hg h0 h1
      rw [hstep 0]
      dsimp only
      rw [hs]
      rfl)
  try dsimp only at hd2a hexa hin1 hout1
  obtain ⟨st2, hl2, hi2, hd2b, hexb, hin2, hout2⟩ := bandLoop_spec
    (widthTwoStep env maxBwBin bo d_fx) (fun b => b1 + 2 * (b - b1))
    (fun b => ((widthTwoVal env maxBwBin d_fx b (b1 + 2 * (b - b1))).getD (0, 0)).1)
    (fun b => ((widthTwoVal env maxBwBin d_fx b (b1 + 2 * (b - b1))).getD (0, 0)).2)
    b1 (min b2 m) ⟨b1, st1.d2_fx, st1.d2_band_fx_exp⟩ (by omega) hb1
    (by show b1 = b1 + 2 * (b1 - b1); ring)
    (by show min b2 m ≤ (st1.d2_fx.length : Int); omega)
    (by show min b2 m ≤ (st1.d2_band_fx_exp.length : Int); omega)
    (by
      intro b h0 h1
      obtain ⟨v, e, hs, hstep⟩ := widthTwoStep_ok hg h0 (by omega : b < b2)
      rw [hstep]
      dsimp only
      rw [hs]
      rfl)
  try dsimp only at hi2 hd2b hexb hin2 hout2
  have hlay : zext bo (min b2 m) = b1 + 2 * (min b2 m - b1) :=
    (bandGeom_offset hg (by omega : 0 ≤ min b2 m) (by omega : min b2 m ≤ n)).2.2.2.2.2.1
      (by omega) (by omega)
  obtain ⟨st3, hl3, hi3, hd2c, hexc, hin3, hout3⟩ := bandLoop_spec
    (wideStep env maxBwBin bo d_fx) (fun b => zext bo b)
    (fun b => ((wideVal env maxBwBin bo d_fx b (zext bo b)).getD (0, 0)).1)
    (fun b => ((wideVal env maxBwBin bo d_fx b (zext bo b)).getD (0, 0)).2)
    (min b2 m) m st2 (by omega) (by omega) (by dsimp only; rw [hi2, hlay])
    (by omega) (by omega)
    (by
      intro b h0 h1
      obtain ⟨v, e, hs, hstep⟩ := wideStep_ok hg (by omega : b2 ≤ b) (by omega : b < n)
      rw [hstep]
      dsimp only
      rw [hs]
      rfl)
  try dsimp only at hi3 hin3 hout3
  refine ⟨st3, ?_, hi3, by omega, by omega, ?_, ?_⟩
  · simp [bandLoops, hl1, hl2, hl3]
  · intro b h0 h1
    by_cases c1 : b < b1
    · obtain ⟨v, e, hs, -⟩ := widthOneStep_ok hg h0 c1
      refine ⟨v, e, by simp [bandVal, c1, hs], ?_, ?_⟩
      · rw [(hout3 b (Or.inl (by omega))).1, (hout2 b (Or.inl c1)).1, (hin1 b h0 c1).1, hs]
        rfl
      · rw [(hout3 b (Or.inl (by omega))).2, (hout2 b (Or.inl c1)).2, (hin1 b h0 c1).2, hs]
        rfl
    · by_cases c2 : b < b2
      · obtain ⟨v, e, hs, -⟩ := widthTwoStep_ok hg (by omega : b1 ≤ b) c2
        refine ⟨v, e, by simp [bandVal, c1, c2, hs], ?_, ?_⟩
        · rw [(hout3 b (Or.inl (by omega))).1, (hin2 b (by omega) (by omega)).1, hs]
          rfl
        · rw [(hout3 b (Or.inl (by omega))).2, (hin2 b (by omega) (by omega)).2, hs]
          rfl
      · obtain ⟨v, e, hs, -⟩ := wideStep_ok hg (by omega : b2 ≤ b) (by omega : b < n)
        refine ⟨v, e, by simp [bandVal, c1, c2, hs], ?_, ?_⟩
        · rw [(hin3 b (by omega) h1).1, hs]
          rfl
        · rw [(hin3 b (by omega) h1).2, hs]
          rfl
  · intro b hb
    rw [(hout3 b (Or.inr hb)).1, (hout3 b (Or.inr hb)).2,
      (hout2 b (Or.inr (by omega))).1, (hout2 b (Or.inr (by omega))).2,
      (hout1 b (Or.inr (by omega))).1, (hout1 b (Or.inr (by omega))).2]
    exact ⟨rfl, rfl⟩

/-- C30: in the asserted band layout, on buffers at least `n_bands` long, the band
loops cut at any band `band ≥ bandsOffsetOne` (the run up to the start of the
processing of `band`) return with the running index `i = band_offsets[band]`; the
whole run writes every entry `d2_fx[0 .. n_bands - 1]`, each with the energy of its
band whatever the buffer held, and leaves every entry from `n_bands` on untouched. -/
theorem C30_running_index (env : BandEnv) (maxBwBin b1 b2 n : Int)
    (d_fx bo d2 ex : List Int) (hg : BandGeom env maxBwBin b1 b2 n d_fx bo d2 ex)
    (D E : List Int) (hD : n ≤ D.length) (hE : n ≤ E.length) :
    (∀ band, b1 ≤ band → band ≤ n →
      ∃ st, bandLoops env maxBwBin b1 (min b2 band) band d_fx bo D E = some st ∧
        rd bo band = some st.i) ∧
    ∃ st, bandLoops env maxBwBin b1 b2 n d_fx bo D E = some st ∧
      st.d2_fx.length = D.length ∧
      (∀ b, 0 ≤ b → b < n →
        ∃ v e, bandVal env maxBwBin b1 b2 bo d_fx b = some (v, e) ∧
          rd st.d2_fx b = some v) ∧
      (∀ b, n ≤ b → rd st.d2_fx b = rd D b) := by
  have hb1 := hg.1
  have hb12 := hg.2.1
  have hb2n := hg.2.2.1
  constructor
  · intro band h0 h1
    obtain ⟨st, hst, hi, -⟩ := bandLoops_upTo hg D E band h0 h1 (by omega) (by omega)
    obtain ⟨hrd, -⟩ := bandGeom_offset hg (by omega : 0 ≤ band) h1
    exact ⟨st, hst, by rw [hi]; exact hrd⟩
  · obtain ⟨st, hst, -, hlen, -, hin, hout⟩ :=
      bandLoops_upTo hg D E n (by omega) le_rfl hD hE
    rw [min_eq_left hb2n] at hst
    refine ⟨st, hst, hlen, ?_, fun b hb => (hout b hb).1⟩
    intro b hb0 hb1
    obtain ⟨v, e, hv, hr, -⟩ := hin b hb0 hb1
    exact ⟨v, e, hv, hr⟩

theorem C30_running_index_witness :
    BandGeom (refBandEnv 0 true 400) 8 2 4 6
        [100000, -3000, 70000, 5, 0, 123456789, 1, 2, 3, 4, 5, 6] [0, 1, 2, 4, 6, 9, 12]
        [0, 0, 0, 0, 0, 0] [0, 0, 0, 0, 0, 0, 0] ∧
      (6 : Int) ≤ [7, 7, 7, 7, 7, 7, 77, 88].length ∧
      (6 : Int) ≤ [0, 0, 0, 0, 0, 0, 0].length ∧
      (∀ band, 2 ≤ band → band ≤ 6 →
        ∃ st, bandLoops (refBandEnv 0 true 400) 8 2 (min 4 band) band
            [100000, -3000, 70000, 5, 0, 123456789, 1, 2, 3, 4, 5, 6]
            [0, 1, 2, 4, 6, 9, 12] [7, 7, 7, 7, 7, 7, 77, 88] [0, 0, 0, 0, 0, 0, 0] =
            some st ∧
          rd [0, 1, 2, 4, 6, 9, 12] band = some st.i) ∧
      ∃ st, bandLoops (refBandEnv 0 true 400) 8 2 4 6
          [100000, -3000, 70000, 5, 0, 123456789, 1, 2, 3, 4, 5, 6]
          [0, 1, 2, 4, 6, 9, 12] [7, 7, 7, 7, 7, 7, 77, 88] [0, 0, 0, 0, 0, 0, 0] = some st ∧
        st.d2_fx.length = [7, 7, 7, 7, 7, 7, 77, 88].length ∧
        (∀ b, 0 ≤ b → b < 6 →
          ∃ v e, bandVal (refBandEnv 0 true 400) 8 2 4 [0, 1, 2, 4, 6, 9, 12]
              [100000, -3000, 70000, 5, 0, 123456789, 1, 2, 3, 4, 5, 6] b = some (v, e) ∧
            rd st.d2_fx b = some v) ∧
        (∀ b, 6 ≤ b → rd st.d2_fx b = rd [7, 7, 7, 7, 7, 7, 77, 88] b) :=
  ⟨by decide, by decide, by decide,
    C30_running_index (refBandEnv 0 true 400) 8 2 4 6
      [100000, -3000, 70000, 5, 0, 123456789, 1, 2, 3, 4, 5, 6] [0, 1, 2, 4, 6, 9, 12]
      [0, 0, 0, 0, 0, 0] [0, 0, 0, 0, 0, 0, 0] (by decide) [7, 7, 7, 7, 7, 7, 77, 88]
      [0, 0, 0, 0, 0, 0, 0] (by decide) (by decide)⟩

/-! Wide bands: the loops as folds over the coefficients -/

theorem forLoopAux_fold {σ : Type} (f : Int → σ → σ) (a : List Int) :
    ∀ (n : Nat) (lo : Int) (s0 : σ), 0 ≤ lo → lo + n ≤ a.length →
      forLoopAux (fun k s => (rd a k).map (fun d => f d s)) n lo s0 =
        some (lo + n, ((List.range n).map (fun k : Nat => zext a (lo + (k : Int)))).foldl
          (fun s d => f d s) s0) := by
  intro n
  induction n with
  | zero =>
    intro lo s0 _ _
    simp [forLoopAux]
  | succ n ih =>
    intro lo s0 h0 h1
    have hrd : rd a lo = some (zext a lo) := rd_zext h0 (by push_cast at h1; omega)
    have hfun : (fun k : Nat => zext a (lo + ((k + 1 : Nat) : Int))) =
        (fun k : Nat => zext a (lo + 1 + (k : Int))) := by
      funext k
      congr 1
      push_cast
      ring
    have hstep := ih (lo + 1) (f (zext a lo) s0) (by omega) (by push_cast at h1 ⊢; omega)
    simp only [forLoopAux, hrd, Option.map_some']
    rw [hstep, List.range_succ_eq_map, List.map_cons, List.map_map, List.foldl_cons]
    congr 2
    · push_cast
      ring
    · simp only [Nat.cast_zero, add_zero]
      congr 2
      funext k
      simp only [Function.comp_apply, Nat.succ_eq_add_one]
      congr 1
      push_cast
      ring

/-- A loop that reads `a[lo .. hi - 1]` and updates an accumulator is the fold of the
update over those entries. -/
theorem forLoop_fold {σ : Type} (f : Int → σ → σ) (a : List Int) (lo hi : Int) (s0 : σ)
    (h0 : 0 ≤ lo) (h1 : hi ≤ a.length) (h2 : lo ≤ a.length) :
    ∃ c, forLoop lo hi (fun k s => (rd a k).map (fun d => f d s)) s0 =
      some (c, (coeffRange a lo hi).foldl (fun s d => f d s) s0) := by
  refine ⟨lo + ((hi - lo).toNat : Nat), ?_⟩
  unfold forLoop coeffRange
  exact forLoopAux_fold f a (hi - lo).toNat lo s0 h0 (by omega)

theorem coeffRange_length (a : List Int) (lo hi : Int) :
    ((coeffRange a lo hi).length : Int) = max 0 (hi - lo) := by
  unfold coeffRange
  rw [List.length_map, List.length_range]
  omega

theorem coeffRange_mem {a : List Int} {lo hi d : Int} (h0 : 0 ≤ lo) (h1 : hi ≤ a.length)
    (hd : d ∈ coeffRange a lo hi) : d ∈ a := by
  unfold coeffRange at hd
  rw [List.mem_map] at hd
  obtain ⟨k, hk, rfl⟩ := hd
  rw [List.mem_range] at hk
  exact rd_mem (rd_zext (by omega) (by omega))

/-- The normalization loop computes the headroom of the claim, a shift in `[0, 15]`. -/
theorem headroom_fold {env : BandEnv} (hnorm : ∀ v, 0 ≤ env.norm_l v ∧ env.norm_l v ≤ 31)
    (ds : List Int) :
    ∀ s, 0 ≤ s → s ≤ 15 →
      ds.foldl (fun s d => normShift env d s) s =
        ds.foldl (fun s d => if d = 0 then s else min s (env.norm_l d)) s ∧
      0 ≤ ds.foldl (fun s d => if d = 0 then s else min s (env.norm_l d)) s ∧
      ds.foldl (fun s d => if d = 0 then s else min s (env.norm_l d)) s ≤ s ∧
      ∀ d ∈ ds, d ≠ 0 →
        ds.foldl (fun s d => if d = 0 then s else min s (env.norm_l d)) s ≤ env.norm_l d := by
  induction ds with
  | nil =>
    intro s h0 h1
    simp [h0]
  | cons d ds ih =>
    intro s h0 h1
    have hn := hnorm d
    have hstep : normShift env d s = (if d = 0 then s else min s (env.norm_l d)) := by
      unfold normShift s_min wrap16
      split_ifs <;> omega
    have hr0 : 0 ≤ (if d = 0 then s else min s (env.norm_l d)) := by
      split_ifs <;> omega
    have hr1 : (if d = 0 then s else min s (env.norm_l d)) ≤ s := by
      split_ifs <;> omega
    obtain ⟨e1, e2, e3, e4⟩ := ih (if d = 0 then s else min s (env.norm_l d)) hr0 (by omega)
    simp only [List.foldl_cons]
    rw [hstep]
    refine ⟨e1, e2, by omega, ?_⟩
    intro d2 hd2 hne
    rcases List.mem_cons.mp hd2 with h | h
    · subst h
      simp only [if_neg hne] at e3 ⊢
      omega
    · exact e4 d2 h hne

/-- The accumulation loop computes the integer sum of the squares as long as the sum
fits a 32-bit word. -/
theorem sum_fold (t : Int → Int) (ht : ∀ d, in16 (t d)) (ds : List Int) :
    ∀ acc, 0 ≤ acc → acc + (ds.map (fun d => t d ^ 2)).sum ≤ 2147483647 →
      ds.foldl (fun nrg d => L_mac0 nrg (t d) (t d)) acc =
        acc + (ds.map (fun d => t d ^ 2)).sum := by
  induction ds with
  | nil =>
    intro acc _ _
    simp
  | cons d ds ih =>
    intro acc h0 h1
    simp only [List.map_cons, List.sum_cons, List.foldl_cons] at h1 ⊢
    obtain ⟨-, p2, p3⟩ := sq16 (ht d)
    norm_num at p3
    have hnn : 0 ≤ (ds.map (fun d => t d ^ 2)).sum :=
      List.sum_nonneg (by
        intro x hx
        rw [List.mem_map] at hx
        obtain ⟨y, -, rfl⟩ := hx
        positivity)
    have hsq : t d ^ 2 = t d * t d := by ring
    have hstep : L_mac0 acc (t d) (t d) = acc + t d ^ 2 := by
      unfold L_mac0 wrap32
      rw [hsq] at h1 ⊢
      omega
    rw [hstep, ih (acc + t d ^ 2) (by rw [hsq]; omega) (by omega)]
    ring

/-- The third-regime step in the words of the claim on wide bands, for a band whose
sum of squares fits a 32-bit word: the value stored is the mean normalized by its own
headroom, the exponent is `1 - (2*s2 + norm_l(mean))`. -/
theorem wideVal_ref {env : BandEnv} {maxBwBin b1 b2 n : Int} {d_fx bo d2 ex : List Int}
    (hg : BandGeom env maxBwBin b1 b2 n d_fx bo d2 ex)
    (hnorm : ∀ v, 0 ≤ env.norm_l v ∧ env.norm_l v ≤ 31)
    (htab : ∀ c ∈ env.bands_nrg_scale, 0 ≤ c ∧ c ≤ 15)
    {band : Int} (h0 : b2 ≤ band) (h1 : band < n)
    (hfit : wideSumRef env maxBwBin bo d_fx band ≤ 2147483647) :
    wideVal env maxBwBin bo d_fx band (zext bo band) =
      some (env.L_shl (wideMeanRef env maxBwBin bo d_fx band)
          (env.norm_l (wideMeanRef env maxBwBin bo d_fx band)),
        1 - (2 * wideShiftRef env maxBwBin bo d_fx band +
          env.norm_l (wideMeanRef env maxBwBin bo d_fx band))) := by
  have hb1 := hg.1
  have hb12 := hg.2.1
  have hm := hg.2.2.2.2.2.2.1
  have ht1 := hg.2.2.2.2.2.2.2.2.2.2.2.2.1
  have ht2 := hg.2.2.2.2.2.2.2.2.2.2.2.2.2
  unfold in16 MIN_16 MAX_16 at hm
  obtain ⟨hlo, hlo0, hlolen, hlo16, -, -, hw2⟩ :=
    bandGeom_offset hg (by omega : 0 ≤ band) (by omega : band ≤ n)
  obtain ⟨hhi, hhi0, hhilen, hhi16, -⟩ := bandGeom_offset hg (by omega : 0 ≤ band + 1)
    (by omega : band + 1 ≤ n)
  obtain ⟨hmono, hwidth⟩ := hw2 h0 h1
  have hstop : wrap16 (s_min (zext bo (band + 1)) maxBwBin) =
      min (zext bo (band + 1)) maxBwBin := by
    rw [s_min_eq_min]
    unfold wrap16
    omega
  have hnb : wrap16 (s_min (s_max 0 (wrap16 (sub (zext bo (band + 1)) (zext bo band)))) 31) =
      wideWidthRef bo band := by
    rw [sub_exact (by omega) (by omega)]
    unfold wideWidthRef s_min s_max wrap16
    split_ifs <;> omega
  have hnbr : 0 ≤ wideWidthRef bo band ∧ wideWidthRef bo band ≤ 31 := by
    unfold wideWidthRef
    omega
  have hA : env.asserts = true → wrap16 (sub (zext bo (band + 1)) (zext bo band)) < 32 := by
    intro _
    rw [sub_exact (by omega) (by omega)]
    unfold wrap16
    omega
  -- the normalization loop
  obtain ⟨c1, hl1⟩ := forLoop_fold (fun d s => normShift env d s) d_fx (zext bo band)
    (min (zext bo (band + 1)) maxBwBin) 15 hlo0 (by omega) hlolen
  obtain ⟨e1, e2, e3, -⟩ := headroom_fold hnorm
    (coeffRange d_fx (zext bo band) (min (zext bo (band + 1)) maxBwBin)) 15 (by norm_num) le_rfl
  rw [e1] at hl1
  -- the margin
  have hc := rd_zext (l := env.bands_nrg_scale) hnbr.1 (by rw [ht1]; omega)
  have hcr := htab _ (rd_mem hc)
  have hr := rd_zext (l := env.InvIntTable) hnbr.1 (by rw [ht2]; omega)
  have hs2 : wrap16 (sub (headroomRef env (wideCoeffsRef maxBwBin bo d_fx band))
      (zext env.bands_nrg_scale (wideWidthRef bo band))) =
      wideShiftRef env maxBwBin bo d_fx band := by
    unfold wideShiftRef
    have q1 : 0 ≤ headroomRef env (wideCoeffsRef maxBwBin bo d_fx band) := e2
    have q2 : headroomRef env (wideCoeffsRef maxBwBin bo d_fx band) ≤ 15 := e3
    rw [sub_exact (by omega) (by omega)]
    unfold wrap16
    omega
  have hs2r : -15 ≤ wideShiftRef env maxBwBin bo d_fx band ∧
      wideShiftRef env maxBwBin bo d_fx band ≤ 15 := by
    unfold wideShiftRef
    have q1 : 0 ≤ headroomRef env (wideCoeffsRef maxBwBin bo d_fx band) := e2
    have q2 : headroomRef env (wideCoeffsRef maxBwBin bo d_fx band) ≤ 15 := e3
    omega
  -- the accumulation loop
  obtain ⟨c2, hl2⟩ := forLoop_fold
    (fun d nrg => L_mac0 nrg (extract_h (env.L_shl d (wideShiftRef env maxBwBin bo d_fx band)))
      (extract_h (env.L_shl d (wideShiftRef env maxBwBin bo d_fx band))))
    d_fx (zext bo band) (min (zext bo (band + 1)) maxBwBin) 0 hlo0 (by omega) hlolen
  have hsum := sum_fold
    (fun d => extract_h (env.L_shl d (wideShiftRef env maxBwBin bo d_fx band)))
    (fun d => in16_wrap16 _)
    (coeffRange d_fx (zext bo band) (min (zext bo (band + 1)) maxBwBin)) 0 le_rfl
    (by rw [zero_add]; exact hfit)
  rw [zero_add] at hsum
  dsimp only at hl2 hsum
  rw [hsum] at hl2
  have hl1b : forLoop (zext bo band) (wrap16 (s_min (zext bo (band + 1)) maxBwBin))
      (fun k s1 => (rd d_fx k).map (fun d => normShift env d s1)) 15 =
      some (c1, headroomRef env (wideCoeffsRef maxBwBin bo d_fx band)) := by
    rw [hstop]
    exact hl1
  have hl2b : forLoop (zext bo band) (wrap16 (s_min (zext bo (band + 1)) maxBwBin))
      (fun i nrg => (rd d_fx i).map (fun d =>
        L_mac0 nrg
          (extract_h (env.L_shl d (wrap16 (sub (headroomRef env
            (wideCoeffsRef maxBwBin bo d_fx band))
            (zext env.bands_nrg_scale (wideWidthRef bo band))))))
          (extract_h (env.L_shl d (wrap16 (sub (headroomRef env
            (wideCoeffsRef maxBwBin bo d_fx band))
            (zext env.bands_nrg_scale (wideWidthRef bo band)))))))) 0 =
      some (c2, wideSumRef env maxBwBin bo d_fx band) := by
    rw [hs2, hstop]
    exact hl2
  have hval := wideVal_eq env hhi hlo hl1b hA
    (by rw [hnb]; exact hc) hl2b (by rw [hnb]; exact hr)
  rw [hval, hs2]
  have hmean : env.Mpy_32_16 (wideSumRef env maxBwBin bo d_fx band)
      (zext env.InvIntTable (wideWidthRef bo band)) =
      wideMeanRef env maxBwBin bo d_fx band := rfl
  rw [hmean]
  have hnm := hnorm (wideMeanRef env maxBwBin bo d_fx band)
  have hw1 : wrap16 (env.norm_l (wideMeanRef env maxBwBin bo d_fx band)) =
      env.norm_l (wideMeanRef env maxBwBin bo d_fx band) := by
    unfold wrap16
    omega
  rw [hw1]
  congr 2
  unfold sub add wrap16 wrap32
  omega

/-- C26: a band of the third regime whose sum of squares fits a 32-bit word.  With
`n` the band width clamped to `[0, 31]`, `s1` the headroom `min(15, norm_l of the
nonzero coefficients)` over the indices `band_offsets[band] ≤ k < min(band_offsets[band+1],
maxBwBin)` and `s2 = s1 - bands_nrg_scale[n]`, the accumulated energy is the sum of
`extract_h(L_shl(d_fx[k], s2))^2` over those indices only, the mean is
`Mpy_32_16(sum, InvIntTable[n])`, the band stores the mean shifted left by
`norm_l(mean)`, and the exponent is `1 - (2*s2 + norm_l(mean))`. -/
theorem C26_wide_band_mean (env : BandEnv) (maxBwBin b1 b2 n : Int)
    (d_fx bo d2 ex : List Int) (d_fx_exp : Int)
    (hg : BandGeom env maxBwBin b1 b2 n d_fx bo d2 ex)
    (hnorm : ∀ v, 0 ≤ env.norm_l v ∧ env.norm_l v ≤ 31)
    (htab : ∀ c ∈ env.bands_nrg_scale, 0 ≤ c ∧ c ≤ 15)
    (band : Int) (h0 : b2 ≤ band) (h1 : band < n)
    (hfit : wideSumRef env maxBwBin bo d_fx band ≤ 2147483647) :
    ∃ r, perBandEnergyFrom env maxBwBin b1 b2 n d_fx d_fx_exp bo d2 ex = some r ∧
      rd r.pre band = some (env.L_shl (wideMeanRef env maxBwBin bo d_fx band)
        (env.norm_l (wideMeanRef env maxBwBin bo d_fx band))) ∧
      rd r.d2_band_fx_exp band = some (1 - (2 * wideShiftRef env maxBwBin bo d_fx band +
        env.norm_l (wideMeanRef env maxBwBin bo d_fx band))) ∧
      ((wideCoeffsRef maxBwBin bo d_fx band).length : Int) =
        max 0 (min (zext bo (band + 1)) maxBwBin - zext bo band) := by
  obtain ⟨r, hr, -, -, hwide, -⟩ := perBandEnergyFrom_bands hg d_fx_exp
  obtain ⟨v, e, hw, -, hv, he⟩ := hwide band h0 h1
  rw [wideVal_ref hg hnorm htab h0 h1 hfit] at hw
  obtain ⟨hv2, he2⟩ := Prod.mk.inj (Option.some.inj hw)
  refine ⟨r, hr, by rw [hv, ← hv2], by rw [he, ← he2], coeffRange_length _ _ _⟩

/-! Wide bands: the accumulation stays in range -/

theorem in32_of_mul {y p : Int} (hp : 1 ≤ p) (h : in32 (y * p)) : in32 y := by
  unfold in32 MIN_32 MAX_32 at *
  obtain ⟨h1, h2⟩ := h
  constructor
  · by_cases hy : 0 ≤ y
    · omega
    · nlinarith
  · by_cases hy : 0 ≤ y
    · nlinarith
    · omega

theorem in32_pow_mono {x : Int} {k m : Nat} (hkm : k ≤ m) (h : in32 (x * 2 ^ m)) :
    in32 (x * 2 ^ k) := by
  have e : x * 2 ^ m = x * 2 ^ k * 2 ^ (m - k) := by
    rw [mul_assoc, ← pow_add, Nat.add_sub_cancel' hkm]
  rw [e] at h
  exact in32_of_mul (one_le_pow₀ (by norm_num)) h

/-- A coefficient shifted by `s1 - c`, where `d * 2^s1` is a 32-bit word, lies in
`[-2^(31-c), 2^(31-c))`. -/
theorem shifted_bound {env : BandEnv}
    (hshl : ∀ d (k : Nat), in32 (d * 2 ^ k) → env.L_shl d k = d * 2 ^ k)
    (hshr : ∀ d (k : Nat), in32 d → env.L_shl d (-(k : Int)) = d / 2 ^ k)
    {d : Int} {a b : Nat} (hb : b ≤ 15) (hD : in32 (d * 2 ^ a)) :
    -2 ^ (31 - b) ≤ env.L_shl d ((a : Int) - b) ∧ env.L_shl d ((a : Int) - b) < 2 ^ (31 - b) := by
  have hK : (2 : Int) ^ 31 = 2 ^ (31 - b) * 2 ^ b := by
    rw [← pow_add, Nat.sub_add_cancel (by omega)]
  have hpb : (0 : Int) < 2 ^ b := by positivity
  have hd32 : in32 d := in32_of_mul (one_le_pow₀ (by norm_num)) hD
  unfold in32 MIN_32 MAX_32 at hD
  obtain ⟨hD1, hD2⟩ := hD
  have h31 : (2 : Int) ^ 31 = 2147483648 := by norm_num
  by_cases hle : b ≤ a
  · obtain ⟨k, rfl⟩ := Nat.exists_eq_add_of_le hle
    have hx : in32 (d * 2 ^ k) := by
      refine in32_pow_mono (Nat.le_add_left k b) ?_
      unfold in32 MIN_32 MAX_32
      exact ⟨hD1, hD2⟩
    have e : ((b + k : Nat) : Int) - b = (k : Int) := by
      push_cast
      ring
    rw [e, hshl d k hx]
    have hprod : d * 2 ^ (b + k) = d * 2 ^ k * 2 ^ b := by
      rw [mul_assoc, ← pow_add, Nat.add_comm]
    rw [hprod] at hD1 hD2
    constructor
    · refine le_of_mul_le_mul_right ?_ hpb
      rw [neg_mul, ← hK]
      omega
    · refine lt_of_mul_lt_mul_right ?_ hpb.le
      rw [← hK]
      omega
  · obtain ⟨k, hk⟩ := Nat.exists_eq_add_of_le (Nat.le_of_lt (Nat.lt_of_not_le hle))
    have e : (a : Int) - b = -(k : Int) := by
      rw [hk]
      push_cast
      ring
    rw [e, hshr d k hd32]
    have hpk : (0 : Int) < 2 ^ k := by positivity
    have hpa : (0 : Int) < 2 ^ a := by positivity
    have hK2 : (2 : Int) ^ 31 = 2 ^ (31 - b) * 2 ^ k * 2 ^ a := by
      rw [mul_assoc, ← pow_add, ← pow_add]
      congr 1
      omega
    constructor
    · rw [Int.le_ediv_iff_mul_le hpk]
      refine le_of_mul_le_mul_right ?_ hpa
      rw [neg_mul, neg_mul, ← hK2]
      omega
    · rw [Int.ediv_lt_iff_lt_mul hpk]
      refine lt_of_mul_lt_mul_right ?_ hpa.le
      rw [← hK2]
      omega

/-- The upper half of a word in `[-2^(31-b), 2^(31-b))` has a square of at most
`2^(30 - 2b)`. -/
theorem extract_square_bound {v : Int} {b : Nat} (hb : b ≤ 15)
    (h : -2 ^ (31 - b) ≤ v ∧ v < 2 ^ (31 - b)) :
    extract_h v ^ 2 ≤ 2 ^ (30 - 2 * b) := by
  have hM : (2 : Int) ^ (31 - b) = 2 ^ (15 - b) * 65536 := by
    have : (65536 : Int) = 2 ^ 16 := by norm_num
    rw [this, ← pow_add]
    congr 1
    omega
  have hM2 : (2 : Int) ^ (30 - 2 * b) = 2 ^ (15 - b) * 2 ^ (15 - b) := by
    rw [← pow_add]
    congr 1
    omega
  have hMle : (2 : Int) ^ (15 - b) ≤ 2 ^ 15 := pow_le_pow_right₀ (by norm_num) (by omega)
  have hMpos : (0 : Int) < 2 ^ (15 - b) := by positivity
  norm_num at hMle
  obtain ⟨h1, h2⟩ := h
  rw [hM] at h1 h2
  have ht : extract_h v = v / 65536 := by
    unfold extract_h
    rw [shiftRight_eq_div]
    unfold wrap16
    norm_num
    omega
  have hlo : -2 ^ (15 - b) ≤ v / 65536 := by
    rw [Int.le_ediv_iff_mul_le (by norm_num)]
    omega
  have hhi : v / 65536 < 2 ^ (15 - b) := by
    rw [Int.ediv_lt_iff_lt_mul (by norm_num)]
    omega
  rw [ht, hM2]
  nlinarith

theorem sum_le_of_bound (f : Int → Int) (B : Int) (ds : List Int) (h : ∀ d ∈ ds, f d ≤ B) :
    (ds.map f).sum ≤ ds.length * B := by
  induction ds with
  | nil => simp
  | cons d ds ih =>
    have h1 := h d (List.mem_cons_self d ds)
    have h2 := ih (fun x hx => h x (List.mem_cons_of_mem d hx))
    simp only [List.map_cons, List.sum_cons, List.length_cons]
    push_cast
    linarith

theorem margin_bound {w : Int} {b : Nat} (hb : b ≤ 15) (hw : w < 2 ^ (2 * b + 1)) :
    w * 2 ^ (30 - 2 * b) ≤ 2147483647 := by
  have e : (2 : Int) ^ (2 * b + 1) * 2 ^ (30 - 2 * b) = 2147483648 := by
    rw [← pow_add]
    have : 2 * b + 1 + (30 - 2 * b) = 31 := by omega
    rw [this]
    norm_num
  have hp : (1 : Int) ≤ 2 ^ (30 - 2 * b) := one_le_pow₀ (by norm_num)
  nlinarith

theorem coeffRange_prefix {a : List Int} {lo j hi d : Int} (hj : j ≤ hi)
    (hd : d ∈ coeffRange a lo j) : d ∈ coeffRange a lo hi := by
  unfold coeffRange at hd ⊢
  rw [List.mem_map] at hd ⊢
  obtain ⟨k, hk, rfl⟩ := hd
  rw [List.mem_range] at hk
  exact ⟨k, by rw [List.mem_range]; omega, rfl⟩

theorem forLoopAux_counter {σ : Type} (body : Int → σ → Option σ) :
    ∀ (n : Nat) (i : Int) (st : σ) (c : Int) (s1 : σ),
      forLoopAux body n i st = some (c, s1) → c = i + n := by
  intro n
  induction n with
  | zero =>
    intro i st c s1 h
    simp only [forLoopAux, Option.some.injEq, Prod.mk.injEq] at h
    simp [← h.1]
  | succ n ih =>
    intro i st c s1 h
    cases hb : body i st with
    | none => simp [forLoopAux, hb] at h
    | some st1 =>
      simp only [forLoopAux, hb] at h
      have := ih (i + 1) st1 c s1 h
      push_cast
      omega

theorem forLoopAux_add {σ : Type} (body : Int → σ → Option σ) :
    ∀ (m k : Nat) (i : Int) (st : σ),
      forLoopAux body (m + k) i st =
        (forLoopAux body m i st).bind (fun p => forLoopAux body k p.1 p.2) := by
  intro m
  induction m with
  | zero =>
    intro k i st
    simp [forLoopAux]
  | succ m ih =>
    intro k i st
    rw [Nat.succ_add]
    cases hb : body i st with
    | none => simp [forLoopAux, hb]
    | some st1 =>
      simp only [forLoopAux, hb]
      exact ih k (i + 1) st1

/-- A loop that has reached the counter `j` in the state `s1` goes on as the loop
started at `j` in `s1`. -/
theorem forLoop_split {σ : Type} (body : Int → σ → Option σ) {lo j hi c : Int} {s s1 : σ}
    (hlj : lo ≤ j) (hjh : j ≤ hi) (h : forLoop lo j body s = some (c, s1)) :
    c = j ∧ forLoop lo hi body s = forLoop j hi body s1 := by
  unfold forLoop at h ⊢
  have hc := forLoopAux_counter body _ _ _ _ _ h
  have hcj : c = j := by omega
  subst hcj
  refine ⟨rfl, ?_⟩
  have e : (hi - lo).toNat = (c - lo).toNat + (hi - c).toNat := by omega
  rw [e, forLoopAux_add, h]
  rfl

/-- The first part of the third-regime step in terms of the result of the
normalization loop and of the read of the margin. -/
theorem wideShift_eq (env : BandEnv) {maxBwBin : Int} {bo d_fx : List Int}
    {band i hi lo c1 s1 c : Int}
    (h1 : rd bo (band + 1) = some hi) (h2 : rd bo band = some lo)
    (hl1 : forLoop i (wrap16 (s_min hi maxBwBin))
      (fun k s1 => (rd d_fx k).map (fun d => normShift env d s1)) 15 = some (c1, s1))
    (hA : env.asserts = true → wrap16 (sub hi lo) < 32)
    (hc : rd env.bands_nrg_scale (wrap16 (s_min (s_max 0 (wrap16 (sub hi lo))) 31)) = some c) :
    wideShift env maxBwBin bo d_fx band i =
      some (wrap16 (s_min hi maxBwBin), wrap16 (s_min (s_max 0 (wrap16 (sub hi lo))) 31),
        wrap16 (sub s1 c)) := by
  have hassert : ASSERT env (wrap16 (sub hi lo) < 32) = some () := by
    cases ha : env.asserts with
    | false => exact ASSERT_off ha _
    | true => exact ASSERT_true env (hA ha)
  simp [wideShift, h1, h2, hl1, hassert, hc]

/-- The first part of the third-regime step in the words of the claim on wide bands:
it stops at `min(band_offsets[band + 1], maxBwBin)`, the width is clamped to
`[0, 31]`, and the shift is the headroom less the margin. -/
theorem wideShift_ref {env : BandEnv} {maxBwBin b1 b2 n : Int} {d_fx bo d2 ex : List Int}
    (hg : BandGeom env maxBwBin b1 b2 n d_fx bo d2 ex)
    (hnorm : ∀ v, 0 ≤ env.norm_l v ∧ env.norm_l v ≤ 31)
    (htab : ∀ c ∈ env.bands_nrg_scale, 0 ≤ c ∧ c ≤ 15)
    {band : Int} (h0 : b2 ≤ band) (h1 : band < n) :
    wideShift env maxBwBin bo d_fx band (zext bo band) =
      some (min (zext bo (band + 1)) maxBwBin, wideWidthRef bo band,
        wideShiftRef env maxBwBin bo d_fx band) := by
  have hb1 := hg.1
  have hb12 := hg.2.1
  have hm := hg.2.2.2.2.2.2.1
  have ht1 := hg.2.2.2.2.2.2.2.2.2.2.2.2.1
  unfold in16 MIN_16 MAX_16 at hm
  obtain ⟨hlo, hlo0, hlolen, hlo16, -, -, hw2⟩ :=
    bandGeom_offset hg (by omega : 0 ≤ band) (by omega : band ≤ n)
  obtain ⟨hhi, hhi0, hhilen, hhi16, -⟩ := bandGeom_offset hg (by omega : 0 ≤ band + 1)
    (by omega : band + 1 ≤ n)
  obtain ⟨hmono, hwidth⟩ := hw2 h0 h1
  have hstop : wrap16 (s_min (zext bo (band + 1)) maxBwBin) =
      min (zext bo (band + 1)) maxBwBin := by
    rw [s_min_eq_min]
    unfold wrap16
    omega
  have hnb : wrap16 (s_min (s_max 0 (wrap16 (sub (zext bo (band + 1)) (zext bo band)))) 31) =
      wideWidthRef bo band := by
    rw [sub_exact (by omega) (by omega)]
    unfold wideWidthRef s_min s_max wrap16
    split_ifs <;> omega
  have hnbr : 0 ≤ wideWidthRef bo band ∧ wideWidthRef bo band ≤ 31 := by
    unfold wideWidthRef
    omega
  have hA : env.asserts = true → wrap16 (sub (zext bo (band + 1)) (zext bo band)) < 32 := by
    intro _
    rw [sub_exact (by omega) (by omega)]
    unfold wrap16
    omega
  obtain ⟨c1, hl1⟩ := forLoop_fold (fun d s => normShift env d s) d_fx (zext bo band)
    (min (zext bo (band + 1)) maxBwBin) 15 hlo0 (by omega) hlolen
  obtain ⟨e1, e2, e3, -⟩ := headroom_fold hnorm
    (coeffRange d_fx (zext bo band) (min (zext bo (band + 1)) maxBwBin)) 15 (by norm_num) le_rfl
  rw [e1] at hl1
  have hc := rd_zext (l := env.bands_nrg_scale) hnbr.1 (by rw [ht1]; omega)
  have hcr := htab _ (rd_mem hc)
  have hs2 : wrap16 (sub (headroomRef env (wideCoeffsRef maxBwBin bo d_fx band))
      (zext env.bands_nrg_scale (wideWidthRef bo band))) =
      wideShiftRef env maxBwBin bo d_fx band := by
    unfold wideShiftRef
    have q1 : 0 ≤ headroomRef env (wideCoeffsRef maxBwBin bo d_fx band) := e2
    have q2 : headroomRef env (wideCoeffsRef maxBwBin bo d_fx band) ≤ 15 := e3
    rw [sub_exact (by omega) (by omega)]
    unfold wrap16
    omega
  have hl1b : forLoop (zext bo band) (wrap16 (s_min (zext bo (band + 1)) maxBwBin))
      (fun k s1 => (rd d_fx k).map (fun d => normShift env d s1)) 15 =
      some (c1, headroomRef env (wideCoeffsRef maxBwBin bo d_fx band)) := by
    rw [hstop]
    exact hl1
  rw [wideShift_eq env hhi hlo hl1b hA (by rw [hnb]; exact hc), hstop, hnb, hs2]

theorem wideAccum_prefix {env : BandEnv} {maxBwBin b1 b2 n : Int}
    {d_fx bo d2 ex : List Int} (hg : BandGeom env maxBwBin b1 b2 n d_fx bo d2 ex)
    (hnorm : ∀ v, 0 ≤ env.norm_l v ∧ env.norm_l v ≤ 31)
    (htab : ∀ c ∈ env.bands_nrg_scale, 0 ≤ c ∧ c ≤ 15)
    (hwords : ∀ d ∈ d_fx, in32 d)
    (hhead : ∀ d, in32 d → d ≠ 0 → in32 (d * 2 ^ (env.norm_l d).toNat))
    (hshl : ∀ d (k : Nat), in32 (d * 2 ^ k) → env.L_shl d k = d * 2 ^ k)
    (hshr : ∀ d (k : Nat), in32 d → env.L_shl d (-(k : Int)) = d / 2 ^ k)
    {band : Int} (h0 : b2 ≤ band) (h1 : band < n)
    (hmargin : wideWidthRef bo band <
      2 ^ (2 * zext env.bands_nrg_scale (wideWidthRef bo band) + 1).toNat)
    {j : Int} (hj1 : j ≤ min (zext bo (band + 1)) maxBwBin) :
    ∃ c nrg, wideAccum env d_fx (wideShiftRef env maxBwBin bo d_fx band) (zext bo band) j 0 =
        some (c, nrg) ∧
      nrg = ((coeffRange d_fx (zext bo band) j).map (fun d =>
        extract_h (env.L_shl d (wideShiftRef env maxBwBin bo d_fx band)) ^ 2)).sum ∧
      0 ≤ nrg ∧ nrg ≤ 2 ^ 31 - 1 := by
  unfold wideAccum
  have hb1 := hg.1
  have hb12 := hg.2.1
  have ht1 := hg.2.2.2.2.2.2.2.2.2.2.2.2.1
  obtain ⟨hlo, hlo0, hlolen, hlo16, -, -, hw2⟩ :=
    bandGeom_offset hg (by omega : 0 ≤ band) (by omega : band ≤ n)
  obtain ⟨hhi, hhi0, hhilen, hhi16, -⟩ := bandGeom_offset hg (by omega : 0 ≤ band + 1)
    (by omega : band + 1 ≤ n)
  obtain ⟨hmono, hwidth⟩ := hw2 h0 h1
  have hwd : wideWidthRef bo band = zext bo (band + 1) - zext bo band := by
    unfold wideWidthRef
    omega
  -- the margin and the headroom
  have hc := rd_zext (l := env.bands_nrg_scale) (j := wideWidthRef bo band) (by omega)
    (by rw [ht1]; omega)
  have hcr := htab _ (rd_mem hc)
  obtain ⟨-, e2, e3, e4⟩ := headroom_fold hnorm (wideCoeffsRef maxBwBin bo d_fx band) 15
    (by norm_num) le_rfl
  have hs2 : wideShiftRef env maxBwBin bo d_fx band =
      (((headroomRef env (wideCoeffsRef maxBwBin bo d_fx band)).toNat : Nat) : Int) -
        (((zext env.bands_nrg_scale (wideWidthRef bo band)).toNat : Nat) : Int) := by
    unfold wideShiftRef
    have q1 : 0 ≤ headroomRef env (wideCoeffsRef maxBwBin bo d_fx band) := e2
    omega
  have hbb : (zext env.bands_nrg_scale (wideWidthRef bo band)).toNat ≤ 15 := by omega
  have hexp : (2 * zext env.bands_nrg_scale (wideWidthRef bo band) + 1).toNat =
      2 * (zext env.bands_nrg_scale (wideWidthRef bo band)).toNat + 1 := by omega
  rw [hexp] at hmargin
  -- every square is bounded
  have hsq : ∀ d ∈ coeffRange d_fx (zext bo band) j,
      extract_h (env.L_shl d (wideShiftRef env maxBwBin bo d_fx band)) ^ 2 ≤
        2 ^ (30 - 2 * (zext env.bands_nrg_scale (wideWidthRef bo band)).toNat) := by
    intro d hd
    have hfull : d ∈ wideCoeffsRef maxBwBin bo d_fx band := coeffRange_prefix hj1 hd
    have hd32 : in32 d := hwords d (coeffRange_mem hlo0 (by omega) hfull)
    have hD : in32 (d * 2 ^ (headroomRef env (wideCoeffsRef maxBwBin bo d_fx band)).toNat) := by
      by_cases hz : d = 0
      · subst hz
        rw [zero_mul]
        decide
      · have hle : headroomRef env (wideCoeffsRef maxBwBin bo d_fx band) ≤ env.norm_l d :=
          e4 d hfull hz
        have q1 : 0 ≤ headroomRef env (wideCoeffsRef maxBwBin bo d_fx band) := e2
        exact in32_pow_mono (by omega) (hhead d hd32 hz)
    rw [hs2]
    exact extract_square_bound hbb (shifted_bound hshl hshr hbb hD)
  have hlen := coeffRange_length d_fx (zext bo band) j
  have hsumle := sum_le_of_bound
    (fun d => extract_h (env.L_shl d (wideShiftRef env maxBwBin bo d_fx band)) ^ 2)
    (2 ^ (30 - 2 * (zext env.bands_nrg_scale (wideWidthRef bo band)).toNat))
    (coeffRange d_fx (zext bo band) j) hsq
  have hB0 : (0 : Int) ≤ 2 ^ (30 - 2 * (zext env.bands_nrg_scale (wideWidthRef bo band)).toNat) := by
    positivity
  have hmb := margin_bound hbb hmargin
  have hfit : ((coeffRange d_fx (zext bo band) j).map (fun d =>
      extract_h (env.L_shl d (wideShiftRef env maxBwBin bo d_fx band)) ^ 2)).sum ≤
      2147483647 := by
    have hlw : ((coeffRange d_fx (zext bo band) j).length : Int) ≤ wideWidthRef bo band := by
      omega
    have := mul_le_mul_of_nonneg_right hlw hB0
    linarith
  have hnn : 0 ≤ ((coeffRange d_fx (zext bo band) j).map (fun d =>
      extract_h (env.L_shl d (wideShiftRef env maxBwBin bo d_fx band)) ^ 2)).sum :=
    List.sum_nonneg (by
      intro x hx
      rw [List.mem_map] at hx
      obtain ⟨y, -, rfl⟩ := hx
      positivity)
  obtain ⟨c2, hl2⟩ := forLoop_fold
    (fun d nrg => L_mac0 nrg (extract_h (env.L_shl d (wideShiftRef env maxBwBin bo d_fx band)))
      (extract_h (env.L_shl d (wideShiftRef env maxBwBin bo d_fx band))))
    d_fx (zext bo band) j 0 hlo0 (by omega) hlolen
  have hsum := sum_fold
    (fun d => extract_h (env.L_shl d (wideShiftRef env maxBwBin bo d_fx band)))
    (fun d => in16_wrap16 _) (coeffRange d_fx (zext bo band) j) 0 le_rfl
    (by rw [zero_add]; exact hfit)
  rw [zero_add] at hsum
  dsimp only at hl2 hsum
  rw [hsum] at hl2
  refine ⟨c2, _, hl2, rfl, hnn, ?_⟩
  norm_num
  exact hfit

/-- C29: the accumulation of a band of the third regime stays in 32-bit range.  With
32-bit coefficients, `norm_l(d)` a headroom of `d` (`d * 2^norm_l(d)` is a 32-bit word),
`L_shl` the exact shift (left by a count within the headroom, arithmetic right by a
negative count) and a margin `c = bands_nrg_scale[n]` in `[0, 15]` with `n < 2^(2c+1)`
for the band width `n`: the first part of the step of the band returns the bound
`stop = min(band_offsets[band + 1], maxBwBin)`, the width `n` and the shift
`s2 = s1 - c`, `s1` the headroom of the coefficients of the band; the accumulation
loop at this shift reaches every index `j` of the band with the integer sum of the
squares summed so far, which lies in `[0, 2^31 - 1]`, and goes on from there to its
end: no `L_mac0` wraps.  The total lies in `[0, 2^31 - 1]`, and the call stores for
the band the mean of this total, normalized. -/
theorem C29_wide_sum_in_range (env : BandEnv) (maxBwBin b1 b2 n : Int)
    (d_fx bo d2 ex : List Int) (d_fx_exp : Int)
    (hg : BandGeom env maxBwBin b1 b2 n d_fx bo d2 ex)
    (hnorm : ∀ v, 0 ≤ env.norm_l v ∧ env.norm_l v ≤ 31)
    (htab : ∀ c ∈ env.bands_nrg_scale, 0 ≤ c ∧ c ≤ 15)
    (hwords : ∀ d ∈ d_fx, in32 d)
    (hhead : ∀ d, in32 d → d ≠ 0 → in32 (d * 2 ^ (env.norm_l d).toNat))
    (hshl : ∀ d (k : Nat), in32 (d * 2 ^ k) → env.L_shl d k = d * 2 ^ k)
    (hshr : ∀ d (k : Nat), in32 d → env.L_shl d (-(k : Int)) = d / 2 ^ k)
    (band : Int) (h0 : b2 ≤ band) (h1 : band < n)
    (hmargin : wideWidthRef bo band <
      2 ^ (2 * zext env.bands_nrg_scale (wideWidthRef bo band) + 1).toNat) :
    ∃ r stop nb s2 c total,
      perBandEnergyFrom env maxBwBin b1 b2 n d_fx d_fx_exp bo d2 ex = some r ∧
      wideShift env maxBwBin bo d_fx band (zext bo band) = some (stop, nb, s2) ∧
      stop = min (zext bo (band + 1)) maxBwBin ∧
      nb = min (max 0 (zext bo (band + 1) - zext bo band)) 31 ∧
      s2 = headroomRef env (wideCoeffsRef maxBwBin bo d_fx band) -
        zext env.bands_nrg_scale nb ∧
      (∀ j, zext bo band ≤ j → j ≤ stop →
        ∃ nrg, wideAccum env d_fx s2 (zext bo band) j 0 = some (j, nrg) ∧
          nrg = ((coeffRange d_fx (zext bo band) j).map
            (fun d => extract_h (env.L_shl d s2) ^ 2)).sum ∧
          0 ≤ nrg ∧ nrg ≤ 2 ^ 31 - 1 ∧
          wideAccum env d_fx s2 (zext bo band) stop 0 = wideAccum env d_fx s2 j stop nrg) ∧
      wideAccum env d_fx s2 (zext bo band) stop 0 = some (c, total) ∧
      total = ((coeffRange d_fx (zext bo band) stop).map
        (fun d => extract_h (env.L_shl d s2) ^ 2)).sum ∧
      0 ≤ total ∧ total ≤ 2 ^ 31 - 1 ∧
      wideVal env maxBwBin bo d_fx band (zext bo band) =
        some (env.L_shl (env.Mpy_32_16 total (zext env.InvIntTable nb))
            (env.norm_l (env.Mpy_32_16 total (zext env.InvIntTable nb))),
          1 - (2 * s2 + env.norm_l (env.Mpy_32_16 total (zext env.InvIntTable nb)))) ∧
      rd r.pre band = some (env.L_shl (env.Mpy_32_16 total (zext env.InvIntTable nb))
        (env.norm_l (env.Mpy_32_16 total (zext env.InvIntTable nb)))) := by
  obtain ⟨r, hr, -, -, hwide, -⟩ := perBandEnergyFrom_bands hg d_fx_exp
  obtain ⟨v, e, hw, -, hv, -⟩ := hwide band h0 h1
  obtain ⟨c, total, htot, hsum, htot0, htot1⟩ :=
    wideAccum_prefix hg hnorm htab hwords hhead hshl hshr h0 h1 hmargin
      (le_refl (min (zext bo (band + 1)) maxBwBin))
  have hfit : wideSumRef env maxBwBin bo d_fx band ≤ 2147483647 := by
    have e1 : wideSumRef env maxBwBin bo d_fx band = total := by
      rw [hsum]
      rfl
    rw [e1]
    norm_num at htot1
    exact htot1
  have hval := wideVal_ref hg hnorm htab h0 h1 hfit
  have hmean : wideMeanRef env maxBwBin bo d_fx band =
      env.Mpy_32_16 total (zext env.InvIntTable (wideWidthRef bo band)) := by
    rw [hsum]
    rfl
  rw [hmean] at hval
  rw [hval] at hw
  obtain ⟨hv2, -⟩ := Prod.mk.inj (Option.some.inj hw)
  refine ⟨r, _, _, _, c, total, hr, wideShift_ref hg hnorm htab h0 h1, rfl, rfl, rfl, ?_,
    htot, hsum, htot0, htot1, hval, by rw [hv, ← hv2]⟩
  intro j hj0 hj1
  obtain ⟨cj, nrg, hacc, hnrg, hn0, hn1⟩ :=
    wideAccum_prefix hg hnorm htab hwords hhead hshl hshr h0 h1 hmargin hj1
  have hsp := forLoop_split _ hj0 hj1 hacc
  obtain ⟨hcj, hgo⟩ := hsp
  subst hcj
  exact ⟨nrg, hacc, hnrg, hn0, hn1, hgo⟩

/-! The reference operators meet the hypotheses on the collaborators -/

theorem filter_downward (P : Nat → Bool) (hP : ∀ i j, i ≤ j → P j = true → P i = true) :
    ∀ m, ((List.range m).filter P).length = 0 ∨
      P (((List.range m).filter P).length - 1) = true := by
  intro m
  induction m with
  | zero => simp
  | succ m ih =>
    rw [List.range_succ, List.filter_append]
    by_cases hm : P m = true
    · have hall : (List.range m).filter P = List.range m := by
        rw [List.filter_eq_self]
        intro i hi
        rw [List.mem_range] at hi
        exact hP i m (by omega) hm
      right
      rw [hall]
      simp [hm]
    · simp only [List.filter_cons, hm, List.filter_nil, List.append_nil]
      simpa using ih

/-- The reference `norm_l` is a headroom: shifting a nonzero 32-bit word left by it
stays inside 32 bits. -/
theorem norm_l_headroom (d : Int) (hd : in32 d) (hz : d ≠ 0) :
    in32 (d * 2 ^ (norm_l d).toNat) := by
  unfold norm_l
  rw [if_neg hz]
  have hdown := filter_downward (fun n => decide (in32 (d * 2 ^ (n + 1))))
    (by
      intro i j hij hj
      simp only [decide_eq_true_eq] at hj ⊢
      exact in32_pow_mono (by omega) hj) 31
  rw [Int.toNat_natCast]
  rcases hdown with h | h
  · rw [h, pow_zero, mul_one]
    exact hd
  · simp only [decide_eq_true_eq] at h
    by_cases hk : ((List.range 31).filter (fun n => decide (in32 (d * 2 ^ (n + 1))))).length = 0
    · rw [hk, pow_zero, mul_one]
      exact hd
    · rw [Nat.sub_add_cancel (by omega)] at h
      exact h

theorem L_shl_left (d : Int) (k : Nat) (h : in32 (d * 2 ^ k)) : L_shl d k = d * 2 ^ k := by
  unfold L_shl
  rw [if_pos (by omega), Int.toNat_natCast, wrap32_of_in32 h]

theorem L_shl_right (d : Int) (k : Nat) (h : in32 d) : L_shl d (-(k : Int)) = d / 2 ^ k := by
  unfold L_shl
  by_cases hk : k = 0
  · subst hk
    simp [wrap32_of_in32 h]
  · rw [if_neg (by omega), shiftRight_eq_div]
    congr 2
    omega

theorem C26_wide_band_mean_witness :
    BandGeom (refBandEnv 0 true 400) 12 2 4 6
        [100000, -3000, 70000, 5, 0, 123456789, 40000000, -2000000000, 3, 400000000, 5,
          600000000] [0, 1, 2, 4, 6, 9, 12] [0, 0, 0, 0, 0, 0] [0, 0, 0, 0, 0, 0, 0] ∧
      (∀ v, 0 ≤ (refBandEnv 0 true 400).norm_l v ∧ (refBandEnv 0 true 400).norm_l v ≤ 31) ∧
      (∀ c ∈ (refBandEnv 0 true 400).bands_nrg_scale, 0 ≤ c ∧ c ≤ 15) ∧
      wideSumRef (refBandEnv 0 true 400) 12 [0, 1, 2, 4, 6, 9, 12]
        [100000, -3000, 70000, 5, 0, 123456789, 40000000, -2000000000, 3, 400000000, 5,
          600000000] 4 ≤ 2147483647 ∧
      ∃ r, perBandEnergyFrom (refBandEnv 0 true 400) 12 2 4 6
          [100000, -3000, 70000, 5, 0, 123456789, 40000000, -2000000000, 3, 400000000, 5,
            600000000] 3 [0, 1, 2, 4, 6, 9, 12] [0, 0, 0, 0, 0, 0] [0, 0, 0, 0, 0, 0, 0] =
          some r ∧
        rd r.pre 4 = some ((refBandEnv 0 true 400).L_shl
          (wideMeanRef (refBandEnv 0 true 400) 12 [0, 1, 2, 4, 6, 9, 12]
            [100000, -3000, 70000, 5, 0, 123456789, 40000000, -2000000000, 3, 400000000, 5,
              600000000] 4)
          ((refBandEnv 0 true 400).norm_l
            (wideMeanRef (refBandEnv 0 true 400) 12 [0, 1, 2, 4, 6, 9, 12]
              [100000, -3000, 70000, 5, 0, 123456789, 40000000, -2000000000, 3, 400000000,
                5, 600000000] 4))) ∧
        rd r.d2_band_fx_exp 4 = some (1 -
          (2 * wideShiftRef (refBandEnv 0 true 400) 12 [0, 1, 2, 4, 6, 9, 12]
            [100000, -3000, 70000, 5, 0, 123456789, 40000000, -2000000000, 3, 400000000, 5,
              600000000] 4 +
            (refBandEnv 0 true 400).norm_l
              (wideMeanRef (refBandEnv 0 true 400) 12 [0, 1, 2, 4, 6, 9, 12]
                [100000, -3000, 70000, 5, 0, 123456789, 40000000, -2000000000, 3, 400000000,
                  5, 600000000] 4))) ∧
        ((wideCoeffsRef 12 [0, 1, 2, 4, 6, 9, 12]
          [100000, -3000, 70000, 5, 0, 123456789, 40000000, -2000000000, 3, 400000000, 5,
            600000000] 4).length : Int) =
          max 0 (min (zext [0, 1, 2, 4, 6, 9, 12] (4 + 1)) 12 - zext [0, 1, 2, 4, 6, 9, 12] 4) :=
  ⟨by decide, norm_l_range, by decide, by decide,
    C26_wide_band_mean (refBandEnv 0 true 400) 12 2 4 6
      [100000, -3000, 70000, 5, 0, 123456789, 40000000, -2000000000, 3, 400000000, 5,
        600000000] [0, 1, 2, 4, 6, 9, 12] [0, 0, 0, 0, 0, 0] [0, 0, 0, 0, 0, 0, 0] 3
      (by decide) norm_l_range (by decide) 4 (by decide) (by decide) (by decide)⟩

theorem C29_wide_sum_in_range_witness :
    BandGeom (refBandEnv 0 true 400) 12 2 4 6
        [100000, -3000, 70000, 5, 0, 123456789, 40000000, -2000000000, 3, 400000000, 5,
          600000000] [0, 1, 2, 4, 6, 9, 12] [0, 0, 0, 0, 0, 0] [0, 0, 0, 0, 0, 0, 0] ∧
      (∀ c ∈ (refBandEnv 0 true 400).bands_nrg_scale, 0 ≤ c ∧ c ≤ 15) ∧
      (∀ d ∈ [100000, -3000, 70000, 5, 0, 123456789, 40000000, -2000000000, 3, 400000000, 5,
        600000000], in32 d) ∧
      wideWidthRef [0, 1, 2, 4, 6, 9, 12] 4 <
        2 ^ (2 * zext (refBandEnv 0 true 400).bands_nrg_scale
          (wideWidthRef [0, 1, 2, 4, 6, 9, 12] 4) + 1).toNat ∧
      ∃ r stop nb s2 c total,
        perBandEnergyFrom (refBandEnv 0 true 400) 12 2 4 6
          [100000, -3000, 70000, 5, 0, 123456789, 40000000, -2000000000, 3, 400000000, 5,
            600000000] 3 [0, 1, 2, 4, 6, 9, 12] [0, 0, 0, 0, 0, 0] [0, 0, 0, 0, 0, 0, 0] =
          some r ∧
        wideShift (refBandEnv 0 true 400) 12 [0, 1, 2, 4, 6, 9, 12]
          [100000, -3000, 70000, 5, 0, 123456789, 40000000, -2000000000, 3, 400000000, 5,
            600000000] 4 (zext [0, 1, 2, 4, 6, 9, 12] 4) = some (stop, nb, s2) ∧
        stop = min (zext [0, 1, 2, 4, 6, 9, 12] (4 + 1)) 12 ∧
        nb = min (max 0 (zext [0, 1, 2, 4, 6, 9, 12] (4 + 1) -
          zext [0, 1, 2, 4, 6, 9, 12] 4)) 31 ∧
        s2 = headroomRef (refBandEnv 0 true 400) (wideCoeffsRef 12 [0, 1, 2, 4, 6, 9, 12]
            [100000, -3000, 70000, 5, 0, 123456789, 40000000, -2000000000, 3, 400000000, 5,
              600000000] 4) -
          zext (refBandEnv 0 true 400).bands_nrg_scale nb ∧
        (∀ j, zext [0, 1, 2, 4, 6, 9, 12] 4 ≤ j → j ≤ stop →
          ∃ nrg, wideAccum (refBandEnv 0 true 400)
              [100000, -3000, 70000, 5, 0, 123456789, 40000000, -2000000000, 3, 400000000, 5,
                600000000] s2 (zext [0, 1, 2, 4, 6, 9, 12] 4) j 0 = some (j, nrg) ∧
            nrg = ((coeffRange [100000, -3000, 70000, 5, 0, 123456789, 40000000, -2000000000,
              3, 400000000, 5, 600000000] (zext [0, 1, 2, 4, 6, 9, 12] 4) j).map
              (fun d => extract_h ((refBandEnv 0 true 400).L_shl d s2) ^ 2)).sum ∧
            0 ≤ nrg ∧ nrg ≤ 2 ^ 31 - 1 ∧
            wideAccum (refBandEnv 0 true 400)
              [100000, -3000, 70000, 5, 0, 123456789, 40000000, -2000000000, 3, 400000000, 5,
                600000000] s2 (zext [0, 1, 2, 4, 6, 9, 12] 4) stop 0 =
              wideAccum (refBandEnv 0 true 400)
                [100000, -3000, 70000, 5, 0, 123456789, 40000000, -2000000000, 3, 400000000,
                  5, 600000000] s2 j stop nrg) ∧
        wideAccum (refBandEnv 0 true 400)
          [100000, -3000, 70000, 5, 0, 123456789, 40000000, -2000000000, 3, 400000000, 5,
            600000000] s2 (zext [0, 1, 2, 4, 6, 9, 12] 4) stop 0 = some (c, total) ∧
        total = ((coeffRange [100000, -3000, 70000, 5, 0, 123456789, 40000000, -2000000000,
          3, 400000000, 5, 600000000] (zext [0, 1, 2, 4, 6, 9, 12] 4) stop).map
          (fun d => extract_h ((refBandEnv 0 true 400).L_shl d s2) ^ 2)).sum ∧
        0 ≤ total ∧ total ≤ 2 ^ 31 - 1 ∧
        wideVal (refBandEnv 0 true 400) 12 [0, 1, 2, 4, 6, 9, 12]
          [100000, -3000, 70000, 5, 0, 123456789, 40000000, -2000000000, 3, 400000000, 5,
            600000000] 4 (zext [0, 1, 2, 4, 6, 9, 12] 4) =
          some ((refBandEnv 0 true 400).L_shl
              ((refBandEnv 0 true 400).Mpy_32_16 total
                (zext (refBandEnv 0 true 400).InvIntTable nb))
              ((refBandEnv 0 true 400).norm_l ((refBandEnv 0 true 400).Mpy_32_16 total
                (zext (refBandEnv 0 true 400).InvIntTable nb))),
            1 - (2 * s2 + (refBandEnv 0 true 400).norm_l
              ((refBandEnv 0 true 400).Mpy_32_16 total
                (zext (refBandEnv 0 true 400).InvIntTable nb)))) ∧
        rd r.pre 4 = some ((refBandEnv 0 true 400).L_shl
          ((refBandEnv 0 true 400).Mpy_32_16 total
            (zext (refBandEnv 0 true 400).InvIntTable nb))
          ((refBandEnv 0 true 400).norm_l ((refBandEnv 0 true 400).Mpy_32_16 total
            (zext (refBandEnv 0 true 400).InvIntTable nb)))) :=
  ⟨by decide, by decide, by decide, by decide,
    C29_wide_sum_in_range (refBandEnv 0 true 400) 12 2 4 6
      [100000, -3000, 70000, 5, 0, 123456789, 40000000, -2000000000, 3, 400000000, 5,
        600000000] [0, 1, 2, 4, 6, 9, 12] [0, 0, 0, 0, 0, 0] [0, 0, 0, 0, 0, 0, 0] 3
      (by decide) norm_l_range (by decide) (by decide) norm_l_headroom L_shl_left L_shl_right
      4 (by decide) (by decide) (by decide)⟩

/-! Claims on `parseCmdl` -/

theorem Run.bind_eq_ret {α β : Type} {r : Run α} {f : α → Run β} {b : β} :
    (r >>= f) = Run.ret b ↔ ∃ a, r = Run.ret a ∧ f a = Run.ret b := by
  cases r <;> simp [Bind.bind, Run.bind]

theorem Run.pure_eq_ret {α : Type} {a b : α} :
    (pure a : Run α) = Run.ret b ↔ a = b := by
  simp [pure]

theorem strAt_mem {av : List String} {pos : Int} {s : String}
    (h : strAt av pos = Run.ret s) : s ∈ av := by
  unfold strAt at h
  split at h
  · split at h
    · rename_i s2 hs2
      rw [← Run.ret.inj h]
      exact List.getElem?_mem hs2
    · exact absurd h (by simp)
  · exact absurd h (by simp)

theorem flagOpt_bips {name : String} {set : Arguments → Arguments} {av : List String}
    {st st1 : ParseState} (h : flagOpt name set av st = Run.ret st1)
    (hset : ∀ a, (set a).bipsOut = a.bipsOut) :
    st1.arg.bipsOut = st.arg.bipsOut ∧ st.pos ≤ st1.pos := by
  unfold flagOpt at h
  rw [Run.bind_eq_ret] at h
  obtain ⟨s, -, h2⟩ := h
  rw [Run.pure_eq_ret] at h2
  subst h2
  split_ifs
  · exact ⟨hset _, le_rfl⟩
  · exact ⟨rfl, le_rfl⟩

theorem valueOpt_bips {name : String} {ac : Int} {av : List String}
    {set : String → Arguments → Run Arguments} {st st1 : ParseState}
    (h : valueOpt name ac av set st = Run.ret st1)
    (hset : ∀ v a a1, set v a = Run.ret a1 → a1.bipsOut = a.bipsOut) :
    st1.arg.bipsOut = st.arg.bipsOut ∧ st.pos ≤ st1.pos := by
  unfold valueOpt at h
  rw [Run.bind_eq_ret] at h
  obtain ⟨s, -, h2⟩ := h
  split_ifs at h2
  · rw [Run.bind_eq_ret] at h2
    obtain ⟨v, -, h3⟩ := h2
    rw [Run.bind_eq_ret] at h3
    obtain ⟨a, ha, h4⟩ := h3
    rw [Run.pure_eq_ret] at h4
    subst h4
    exact ⟨hset v _ a ha, by show st.pos ≤ st.pos + 1; omega⟩
  · rw [Run.pure_eq_ret] at h2
    subst h2
    exact ⟨rfl, le_rfl⟩

theorem valueOpt_absent {name : String} {ac : Int} {av : List String}
    {set : String → Arguments → Run Arguments} {st st1 : ParseState}
    (hname : ∀ s ∈ av, s ≠ name) (h : valueOpt name ac av set st = Run.ret st1) :
    st1 = st := by
  unfold valueOpt at h
  rw [Run.bind_eq_ret] at h
  obtain ⟨s, hs, h2⟩ := h
  rw [if_neg (fun hc => hname s (strAt_mem hs) hc.1), Run.pure_eq_ret] at h2
  exact h2.symm

theorem dcSet_bips {env : CmdEnv} {v : String} {a a1 : Arguments}
    (h : dcSet env v a = Run.ret a1) : a1.bipsOut = a.bipsOut := by
  unfold dcSet at h
  simp only [Run.bind_eq_ret, Run.pure_eq_ret] at h
  obtain ⟨-, -, h2⟩ := h
  rw [← h2]

theorem epmodeSet_bips {env : CmdEnv} {v : String} {a a1 : Arguments}
    (h : epmodeSet env v a = Run.ret a1) : a1.bipsOut = a.bipsOut := by
  unfold epmodeSet at h
  simp only [Run.bind_eq_ret, Run.pure_eq_ret] at h
  obtain ⟨-, -, h2⟩ := h
  rw [← h2]
  split_ifs <;> rfl

/-- One round of the option loop on an argument vector without `-bps` keeps `bipsOut`
and does not move `pos` backwards. -/
theorem optionBody_bips {env : CmdEnv} {ac : Int} {av : List String} {st st1 : ParseState}
    (hname : ∀ s ∈ av, s ≠ "-bps") (h : optionBody env ac av st = Run.ret st1) :
    st1.arg.bipsOut = st.arg.bipsOut ∧ st.pos ≤ st1.pos := by
  unfold optionBody at h
  simp only [Run.bind_eq_ret] at h
  obtain ⟨s, -, t0, h0, t1, h1, t2, h2, t3, h3, t4, h4, t5, h5, t6, h6, t7, h7, t8, h8,
    t9, h9, t10, h10, t11, h11, t12, h12, t13, h13, t14, h14, t15, h15, h16⟩ := h
  have e0 : t0 = st := by
    split_ifs at h0
    exact (Run.ret.inj h0).symm
  subst e0
  have k1 := flagOpt_bips h1 (fun _ => rfl)
  have k2 := flagOpt_bips h2 (fun _ => rfl)
  have k3 := flagOpt_bips h3 (fun _ => rfl)
  have k4 := flagOpt_bips h4 (fun _ => rfl)
  have k5 := flagOpt_bips h5 (fun _ => rfl)
  have k6 := valueOpt_bips h6 (fun v a a1 ha => by rw [← Run.ret.inj ha])
  have k7 := valueOpt_bips h7 (fun v a a1 ha => by rw [← Run.ret.inj ha])
  have k8 := flagOpt_bips h8 (fun _ => rfl)
  have k9 := valueOpt_absent hname h9
  have k10 := valueOpt_bips h10 (fun v a a1 ha => dcSet_bips ha)
  have k11 := valueOpt_bips h11 (fun v a a1 ha => by rw [← Run.ret.inj ha])
  have k12 := valueOpt_bips h12 (fun v a a1 ha => by rw [← Run.ret.inj ha])
  have k13 := valueOpt_bips h13 (fun v a a1 ha => by rw [← Run.ret.inj ha])
  have k14 := valueOpt_bips h14 (fun v a a1 ha => epmodeSet_bips ha)
  have k15 := valueOpt_bips h15 (fun v a a1 ha => by rw [← Run.ret.inj ha])
  have k16 := valueOpt_bips h16 (fun v a a1 ha => by rw [← Run.ret.inj ha])
  subst k9
  constructor
  · rw [k16.1, k15.1, k14.1, k13.1, k12.1, k11.1, k10.1, k8.1, k7.1, k6.1, k5.1, k4.1,
      k3.1, k2.1, k1.1]
  · omega

theorem optionLoop_bips {env : CmdEnv} {ac : Int} {av : List String}
    (hname : ∀ s ∈ av, s ≠ "-bps") :
    ∀ (fuel : Nat) (st st1 : ParseState), optionLoop env ac av fuel st = Run.ret st1 →
      st1.arg.bipsOut = st.arg.bipsOut := by
  intro fuel
  induction fuel with
  | zero =>
    intro st st1 h
    rw [← Run.ret.inj h]
  | succ fuel ih =>
    intro st st1 h
    unfold optionLoop at h
    split_ifs at h with hpos
    · simp only [Run.bind_eq_ret] at h
      obtain ⟨s, -, h2⟩ := h
      split_ifs at h2
      · simp only [Run.bind_eq_ret] at h2
        obtain ⟨st2, hb, hl⟩ := h2
        rw [ih _ _ hl]
        exact (optionBody_bips hname hb).1
      · rw [← Run.ret.inj h2]
    · rw [← Run.ret.inj h]

theorem flagOpt_pos {name : String} {set : Arguments → Arguments} {av : List String}
    {st st1 : ParseState} (h : flagOpt name set av st = Run.ret st1) : st.pos ≤ st1.pos := by
  unfold flagOpt at h
  rw [Run.bind_eq_ret] at h
  obtain ⟨s, -, h2⟩ := h
  rw [Run.pure_eq_ret] at h2
  subst h2
  split_ifs <;> exact le_rfl

theorem valueOpt_pos {name : String} {ac : Int} {av : List String}
    {set : String → Arguments → Run Arguments} {st st1 : ParseState}
    (h : valueOpt name ac av set st = Run.ret st1) : st.pos ≤ st1.pos := by
  unfold valueOpt at h
  rw [Run.bind_eq_ret] at h
  obtain ⟨s, -, h2⟩ := h
  split_ifs at h2
  · rw [Run.bind_eq_ret] at h2
    obtain ⟨v, -, h3⟩ := h2
    rw [Run.bind_eq_ret] at h3
    obtain ⟨a, -, h4⟩ := h3
    rw [Run.pure_eq_ret] at h4
    subst h4
    show st.pos ≤ st.pos + 1
    omega
  · rw [Run.pure_eq_ret] at h2
    subst h2
    exact le_rfl

/-- No round of the option loop moves `pos` backwards. -/
theorem optionBody_pos {env : CmdEnv} {ac : Int} {av : List String} {st st1 : ParseState}
    (h : optionBody env ac av st = Run.ret st1) : st.pos ≤ st1.pos := by
  unfold optionBody at h
  simp only [Run.bind_eq_ret] at h
  obtain ⟨s, -, t0, h0, t1, h1, t2, h2, t3, h3, t4, h4, t5, h5, t6, h6, t7, h7, t8, h8,
    t9, h9, t10, h10, t11, h11, t12, h12, t13, h13, t14, h14, t15, h15, h16⟩ := h
  have e0 : t0 = st := by
    split_ifs at h0
    exact (Run.ret.inj h0).symm
  subst e0
  have k1 := flagOpt_pos h1
  have k2 := flagOpt_pos h2
  have k3 := flagOpt_pos h3
  have k4 := flagOpt_pos h4
  have k5 := flagOpt_pos h5
  have k6 := valueOpt_pos h6
  have k7 := valueOpt_pos h7
  have k8 := flagOpt_pos h8
  have k9 := valueOpt_pos h9
  have k10 := valueOpt_pos h10
  have k11 := valueOpt_pos h11
  have k12 := valueOpt_pos h12
  have k13 := valueOpt_pos h13
  have k14 := valueOpt_pos h14
  have k15 := valueOpt_pos h15
  have k16 := valueOpt_pos h16
  omega

/-- With `ac - pos` rounds to spend, the option loop returns only when its own test
`pos < ac && av[pos][0] == '-'` fails: the bound on the rounds is never what ends it. -/
theorem optionLoop_ends {env : CmdEnv} {ac : Int} {av : List String} :
    ∀ (fuel : Nat) (st st1 : ParseState), ac - st.pos ≤ fuel →
      optionLoop env ac av fuel st = Run.ret st1 →
      ac ≤ st1.pos ∨ ∃ s, strAt av st1.pos = Run.ret s ∧ s.data.head? ≠ some '-' := by
  intro fuel
  induction fuel with
  | zero =>
    intro st st1 hf h
    rw [← Run.ret.inj h]
    left
    simpa using hf
  | succ fuel ih =>
    intro st st1 hf h
    unfold optionLoop at h
    split_ifs at h with hpos
    · simp only [Run.bind_eq_ret] at h
      obtain ⟨s, hs, h2⟩ := h
      split_ifs at h2 with hd
      · simp only [Run.bind_eq_ret] at h2
        obtain ⟨st2, hb, hl⟩ := h2
        have hp := optionBody_pos hb
        refine ih _ _ ?_ hl
        show ac - (st2.pos + 1) ≤ fuel
        push_cast at hf
        omega
      · rw [← Run.ret.inj h2]
        exact Or.inr ⟨s, hs, hd⟩
    · rw [← Run.ret.inj h]
      left
      omega

/-- A round of the option loop that meets `-bps NUM` with `NUM` none of 16, 24, 32
exits with status 1 (when `1 < LC3_WARNING`). -/
theorem optionBody_bps_exit {env : CmdEnv} {ac : Int} {av : List String} {st : ParseState}
    {num : String} (hw : 1 < env.LC3_WARNING) (hs : strAt av st.pos = Run.ret "-bps")
    (hpos : st.pos + 1 < ac) (hv : strAt av (st.pos + 1) = Run.ret num)
    (h16 : wrap32 (env.atoi num) ≠ 16) (h24 : wrap32 (env.atoi num) ≠ 24)
    (h32 : wrap32 (env.atoi num) ≠ 32) :
    optionBody env ac av st = Run.exit 1 := by
  simp [optionBody, flagOpt, valueOpt, bpsSet, exit_if, truth, hs, hpos, hv, h16, h24, h32,
    hw, Bind.bind, Run.bind, pure]

theorem parseCmdl_bps_exit {env : CmdEnv} (hw : 1 < env.LC3_WARNING) (prog num : String)
    (rest : List String) (h16 : wrap32 (env.atoi num) ≠ 16)
    (h24 : wrap32 (env.atoi num) ≠ 24) (h32 : wrap32 (env.atoi num) ≠ 32) :
    parseCmdl env (prog :: "-bps" :: num :: rest).length (prog :: "-bps" :: num :: rest) =
      Run.exit 1 := by
  have hlen : (((prog :: "-bps" :: num :: rest).length : Nat) : Int) = rest.length + 3 := by
    simp only [List.length_cons]
    push_cast
    ring
  have hf : ((rest.length : Int) + 3 - 1).toNat = (rest.length + 1) + 1 := by omega
  have hbody := @optionBody_bps_exit env ((rest.length : Int) + 3)
    (prog :: "-bps" :: num :: rest)
    ⟨1, { Arguments.cleared with
      bipsOut := 16, frame_ms := FloatVal.ten, dc := 0, plcMeth := env.LC3_PLC_ADVANCED }⟩
    num hw (by simp [strAt]) (by show (1 : Int) + 1 < rest.length + 3; omega)
    (by simp [strAt]) h16 h24 h32
  have h1 : ¬ ((rest.length : Int) + 3 ≤ 1) := by omega
  have h2 : (1 : Int) < rest.length + 3 := by omega
  rw [hlen]
  unfold parseCmdl
  rw [hf]
  simp [exit_if, truth, h1, optionLoop, h2, strAt, hbody, Bind.bind, Run.bind]

/-- The struct that `parseCmdl` returns for an argument vector without `-bps` has
`bipsOut = 16`. -/
theorem parseCmdl_bips {env : CmdEnv} {ac : Int} {av : List String} {a : Arguments}
    (hname : ∀ s ∈ av, s ≠ "-bps") (h : parseCmdl env ac av = Run.ret a) :
    a.bipsOut = 16 := by
  unfold parseCmdl at h
  simp only [Run.bind_eq_ret] at h
  obtain ⟨-, -, st, hl, -, -, -, -, -, -, inF, -, outF, -, h2⟩ := h
  have hb := optionLoop_bips hname _ _ _ hl
  split_ifs at h2
  · simp only [Run.bind_eq_ret] at h2
    obtain ⟨-, -, s, -, h3⟩ := h2
    split_ifs at h3
    · rw [← Run.ret.inj h3]
      exact hb
    · rw [← Run.ret.inj h3]
      exact hb
  · rw [← Run.ret.inj h2]
    exact hb

/-- C22 (the code at the failing input): without `-dc` on the command line `parseCmdl`
returns `dc = 0`, the value set at line 487, for the plain call and for a call with
other options; the usage text names `1` as the default.  With `-dc 1` it returns
`dc = 1`. -/
theorem C22_dc_default_is_zero :
    parseCmdl refCmdEnv 4 ["LC3plus", "in.wav", "out.wav", "64000"] =
      Run.ret { Arguments.cleared with
        inputFilename := some "in.wav", outputFilename := some "out.wav", bitrate := 64000,
        bipsOut := 16, frame_ms := FloatVal.ten, plcMeth := 1, dc := 0 } ∧
    parseCmdl refCmdEnv 7 ["LC3plus", "-E", "-bps", "24", "in.wav", "out.bin", "32000"] =
      Run.ret { Arguments.cleared with
        inputFilename := some "in.wav", outputFilename := some "out.bin", bitrate := 32000,
        encoder_only := 1, bipsOut := 24, frame_ms := FloatVal.ten, plcMeth := 1, dc := 0 } ∧
    parseCmdl refCmdEnv 6 ["LC3plus", "-dc", "1", "in.wav", "out.wav", "64000"] =
      Run.ret { Arguments.cleared with
        inputFilename := some "in.wav", outputFilename := some "out.wav", bitrate := 64000,
        bipsOut := 16, frame_ms := FloatVal.ten, plcMeth := 1, dc := 1 } := by
  decide

/-- C23 (counterexample): `-bps 32` is accepted: the call returns with `bipsOut = 32`,
although `32` is neither `16` nor `24`. -/
theorem C23_bps_32_counterexample :
    parseCmdl refCmdEnv 6 ["LC3plus", "-bps", "32", "in.wav", "out.wav", "64000"] =
      Run.ret { Arguments.cleared with
        inputFilename := some "in.wav", outputFilename := some "out.wav", bitrate := 64000,
        bipsOut := 32, frame_ms := FloatVal.ten, plcMeth := 1, dc := 0 } ∧
    (32 : Int) ≠ 16 ∧ (32 : Int) ≠ 24 := by
  decide

/-- C23 (amended): with `1 < LC3_WARNING`, `parseCmdl` exits with status 1 when its
first option is `-bps NUM` with `atoi(NUM)` none of 16, 24 and 32, and so does any round
of the option loop that meets such a `-bps NUM`; for an argument vector without `-bps`
the returned struct has `bipsOut = 16`. -/
theorem C23_bps_values (env : CmdEnv) (hw : 1 < env.LC3_WARNING)
    (prog num : String) (rest : List String)
    (h16 : wrap32 (env.atoi num) ≠ 16) (h24 : wrap32 (env.atoi num) ≠ 24)
    (h32 : wrap32 (env.atoi num) ≠ 32)
    (av : List String) (a : Arguments) (habs : ∀ s ∈ av, s ≠ "-bps")
    (hret : parseCmdl env av.length av = Run.ret a) :
    parseCmdl env (prog :: "-bps" :: num :: rest).length (prog :: "-bps" :: num :: rest) =
        Run.exit 1 ∧
      (∀ (ac : Int) (av2 : List String) (st : ParseState) (num2 : String),
        strAt av2 st.pos = Run.ret "-bps" → st.pos + 1 < ac →
        strAt av2 (st.pos + 1) = Run.ret num2 →
        wrap32 (env.atoi num2) ≠ 16 → wrap32 (env.atoi num2) ≠ 24 →
        wrap32 (env.atoi num2) ≠ 32 → optionBody env ac av2 st = Run.exit 1) ∧
      a.bipsOut = 16 :=
  ⟨parseCmdl_bps_exit hw prog num rest h16 h24 h32,
    fun _ _ _ _ hs hpos hv k16 k24 k32 => optionBody_bps_exit hw hs hpos hv k16 k24 k32,
    parseCmdl_bips habs hret⟩

theorem C23_bps_values_witness :
    1 < refCmdEnv.LC3_WARNING ∧
      wrap32 (refCmdEnv.atoi "20") ≠ 16 ∧ wrap32 (refCmdEnv.atoi "20") ≠ 24 ∧
      wrap32 (refCmdEnv.atoi "20") ≠ 32 ∧
      (∀ s ∈ ["LC3plus", "-E", "-dc", "2", "in.wav", "out.bin", "32000"], s ≠ "-bps") ∧
      parseCmdl refCmdEnv
        (["LC3plus", "-E", "-dc", "2", "in.wav", "out.bin", "32000"].length : Nat)
        ["LC3plus", "-E", "-dc", "2", "in.wav", "out.bin", "32000"] =
        Run.ret { Arguments.cleared with
          inputFilename := some "in.wav", outputFilename := some "out.bin",
          bitrate := 32000, encoder_only := 1, bipsOut := 16, frame_ms := FloatVal.ten,
          plcMeth := 1, dc := 2 } ∧
      parseCmdl refCmdEnv ("LC3plus" :: "-bps" :: "20" :: ["in.wav", "out.wav", "64000"]).length
          ("LC3plus" :: "-bps" :: "20" :: ["in.wav", "out.wav", "64000"]) = Run.exit 1 ∧
      (∀ (ac : Int) (av2 : List String) (st : ParseState) (num2 : String),
        strAt av2 st.pos = Run.ret "-bps" → st.pos + 1 < ac →
        strAt av2 (st.pos + 1) = Run.ret num2 →
        wrap32 (refCmdEnv.atoi num2) ≠ 16 → wrap32 (refCmdEnv.atoi num2) ≠ 24 →
        wrap32 (refCmdEnv.atoi num2) ≠ 32 → optionBody refCmdEnv ac av2 st = Run.exit 1) ∧
      ({ Arguments.cleared with
          inputFilename := some "in.wav", outputFilename := some "out.bin",
          bitrate := 32000, encoder_only := 1, bipsOut := 16, frame_ms := FloatVal.ten,
          plcMeth := 1, dc := 2 } : Arguments).bipsOut = 16 :=
  ⟨by decide, by decide, by decide, by decide, by decide, by decide,
    C23_bps_values refCmdEnv (by decide) "LC3plus" "20" ["in.wav", "out.wav", "64000"]
      (by decide) (by decide) (by decide)
      ["LC3plus", "-E", "-dc", "2", "in.wav", "out.bin", "32000"]
      { Arguments.cleared with
        inputFilename := some "in.wav", outputFilename := some "out.bin",
        bitrate := 32000, encoder_only := 1, bipsOut := 16, frame_ms := FloatVal.ten,
        plcMeth := 1, dc := 2 }
      (by decide) (by decide)⟩

/-! Claims on `div_s`, on the fold loops and on the bitstream frames -/

/-- C35: for 16-bit `a`, `b` with `0 ≤ a ≤ b` and `b > 0` the division of `div_s` is
defined and `div_s(a, b) = min(32767, floor(a * 2^15 / b))`; the result lies in
`[0, 32767]`, and it is `32767` exactly when `a = b`, which is also exactly when
`a = b` or the quotient reaches `32767`. -/
theorem C35_div_s_fraction (a b : Int) (ha : in16 a) (hb : in16 b) (h0 : 0 ≤ a)
    (hab : a ≤ b) (hpos : 0 < b) :
    ∃ q, div_s a b = some q ∧ q = min 32767 (a * 2 ^ 15 / b) ∧
      q = min 32767 ⌊((a * 2 ^ 15 : Int) : ℚ) / (b : ℚ)⌋ ∧
      0 ≤ q ∧ q ≤ 32767 ∧ (q = 32767 ↔ a = b) ∧
      (q = 32767 ↔ (a = b ∨ 32767 ≤ a * 2 ^ 15 / b)) := by
  unfold in16 MIN_16 MAX_16 at ha hb
  have hq0 : 0 ≤ a * 32768 / b := Int.ediv_nonneg (by omega) (by omega)
  have hq1 : a * 32768 / b < 32769 := by
    rw [Int.ediv_lt_iff_lt_mul hpos]
    omega
  have hlt : a < b → a * 32768 / b < 32767 := by
    intro h
    rw [Int.ediv_lt_iff_lt_mul hpos]
    omega
  have heq : a = b → a * 32768 / b = 32768 := by
    intro h
    subst h
    exact Int.mul_ediv_cancel_left 32768 (by omega)
  have hfloor : ⌊((a * 2 ^ 15 : Int) : ℚ) / (b : ℚ)⌋ = a * 2 ^ 15 / b := by
    have e : b = ((b.toNat : Nat) : Int) := by omega
    rw [e]
    exact Rat.floor_intCast_div_natCast (a * 2 ^ 15) b.toNat
  have e15 : (2 : Int) ^ (15 : Int).toNat = 32768 := by decide
  have hshl : shl a 15 = some (a * 32768) := by
    unfold shl
    rw [if_pos (by omega), e15]
    congr 1
    unfold wrap32
    omega
  have htd : Int.tdiv (a * 32768) b = a * 32768 / b :=
    Int.tdiv_eq_ediv (by omega) (by omega)
  have hval : div_s a b = some (saturate (a * 32768 / b)) := by
    unfold div_s
    rw [hshl]
    have hc : ¬ (b = 0 ∨ (a * 32768 = MIN_32 ∧ b = -1)) := by
      unfold MIN_32
      omega
    simp only [Option.bind_eq_bind, Option.some_bind, if_neg hc, htd, pure]
    congr 2
    unfold wrap32
    omega
  have hsat : saturate (a * 32768 / b) = min 32767 (a * 32768 / b) := by
    unfold saturate MAX_16 MIN_16
    split_ifs <;> omega
  have h15 : (2 : Int) ^ 15 = 32768 := by norm_num
  refine ⟨_, hval, ?_, ?_, ?_, ?_, ?_, ?_⟩
  · rw [hsat, h15]
  · rw [hsat, hfloor, h15]
  · rw [hsat]
    omega
  · rw [hsat]
    omega
  · rw [hsat]
    constructor
    · intro h
      by_contra hne
      have := hlt (by omega)
      omega
    · intro h
      have := heq h
      omega
  · rw [hsat, h15]
    constructor
    · intro h
      right
      omega
    · rintro (h | h)
      · have := heq h
        omega
      · omega

theorem C35_div_s_fraction_witness :
    in16 12345 ∧ in16 23456 ∧ (0 : Int) ≤ 12345 ∧ (12345 : Int) ≤ 23456 ∧ (0 : Int) < 23456 ∧
      ∃ q, div_s 12345 23456 = some q ∧ q = min 32767 (12345 * 2 ^ 15 / 23456) ∧
        q = min 32767 ⌊((12345 * 2 ^ 15 : Int) : ℚ) / ((23456 : Int) : ℚ)⌋ ∧
        0 ≤ q ∧ q ≤ 32767 ∧ (q = 32767 ↔ (12345 : Int) = 23456) ∧
        (q = 32767 ↔ ((12345 : Int) = 23456 ∨ 32767 ≤ (12345 : Int) * 2 ^ 15 / 23456)) :=
  ⟨by decide, by decide, by decide, by decide, by decide,
    C35_div_s_fraction 12345 23456 (by decide) (by decide) (by decide) (by decide)
      (by decide)⟩

/-- C31: under the geometry `N` even, `0 ≤ z = 2N - wLen ≤ N/2`, `N - z ≤ memLen ≤ N`
every access of `processMdct_fx` is in range (the call returns, `y` and `mem` keep
their lengths), every store of the three fold loops goes to an index `0 ≤ j < N`, and
every index `0 ≤ j < N` of `y` is stored by exactly one round of exactly one of the
three loops and holds the value of that round afterwards. -/
theorem C31_each_index_stored_once (env : MdctEnv) (N wLen memLen : Int)
    (w x mem y scratch : List Int) (hg : MdctGeom N wLen memLen w x mem y scratch) :
    ∃ f r, mdctFold N wLen memLen w x mem y scratch = some f ∧
      processMdct_fx env N wLen memLen w x mem y scratch = some r ∧
      (f.y.length : Int) = N ∧ (r.y.length : Int) = N ∧ (r.mem.length : Int) = memLen ∧
      (∀ k i j, foldStores N wLen k i j → 0 ≤ j ∧ j < N) ∧
      (∀ j, 0 ≤ j → j < N → ∃! p : Int × Int, foldStores N wLen p.1 p.2 j) ∧
      (∀ k i j, foldStores N wLen k i j →
        ∃ v, rd f.y j = some v ∧
          (if k = 1 then foldFirstVal (N / 2) w f.buf i
            else if k = 2 then foldSingleVal (N / 2) memLen w x i
            else foldPairVal (N / 2) memLen w x i) = some v) := by
  obtain ⟨f, r, hf, hr, hrmem, -, hrylen, -, -⟩ := processMdct_fx_spec env hg
  obtain ⟨f2, hf2, hmlen, hylen, -, -, -, hfirst, hsingle, hpair⟩ := mdctFold_spec hg
  have hff : f2 = f := Option.some.inj (hf2.symm.trans hf)
  subst hff
  obtain ⟨h0, h1, h2, hz0, hz1, hm0, hm1, hw, hx, hmemlen, hy, hs⟩ := hg
  have hz : wrap16 (2 * N - wLen) = 2 * N - wLen := by
    unfold wrap16
    omega
  have hm : Int.shiftRight N 1 = N / 2 := by
    rw [shiftRight_eq_div]
    norm_num
  refine ⟨f2, r, hf, hr, hylen, hrylen, by rw [hrmem]; exact hmlen, ?_, ?_, ?_⟩
  · intro k i j hst
    unfold foldStores at hst
    rw [hz, hm] at hst
    omega
  · intro j hj0 hj1
    by_cases c1 : N / 2 ≤ j
    · refine ⟨(1, j - N / 2), ?_, ?_⟩
      · unfold foldStores
        rw [hz, hm]
        left
        dsimp only
        omega
      · rintro ⟨k, i⟩ hst
        unfold foldStores at hst
        rw [hz, hm] at hst
        dsimp only at hst
        refine Prod.ext ?_ ?_ <;> dsimp only <;> omega
    · by_cases c2 : N / 2 - 1 - j < 2 * N - wLen
      · refine ⟨(2, N / 2 - 1 - j), ?_, ?_⟩
        · unfold foldStores
          rw [hz, hm]
          right
          left
          dsimp only
          omega
        · rintro ⟨k, i⟩ hst
          unfold foldStores at hst
          rw [hz, hm] at hst
          dsimp only at hst
          refine Prod.ext ?_ ?_ <;> dsimp only <;> omega
      · refine ⟨(3, N / 2 - 1 - j), ?_, ?_⟩
        · unfold foldStores
          rw [hz, hm]
          right
          right
          dsimp only
          omega
        · rintro ⟨k, i⟩ hst
          unfold foldStores at hst
          rw [hz, hm] at hst
          dsimp only at hst
          refine Prod.ext ?_ ?_ <;> dsimp only <;> omega
  · intro k i j hst
    unfold foldStores at hst
    rw [hz, hm] at hst
    rcases hst with ⟨hk, q1, q2, q3⟩ | ⟨hk, q1, q2, q3⟩ | ⟨hk, q1, q2, q3⟩
    · obtain ⟨v, hv, hyv⟩ := hfirst i q1 q2
      rw [q3] at hyv
      exact ⟨v, hyv, by rw [if_pos hk]; exact hv⟩
    · obtain ⟨v, hv, hyv⟩ := hsingle i q1 q2
      rw [q3] at hyv
      exact ⟨v, hyv, by rw [if_neg (by omega), if_pos hk]; exact hv⟩
    · obtain ⟨v, hv, hyv⟩ := hpair i q1 q2
      rw [q3] at hyv
      exact ⟨v, hyv, by rw [if_neg (by omega), if_neg (by omega)]; exact hv⟩

theorem C31_each_index_stored_once_witness :
    MdctGeom 4 7 3 [1, 2, 3, 4, 5, 6, 7] [10, 20, 30, 40] [5, 6, 7] [9, 9, 9, 9]
        [0, 0, 0, 0] ∧
      ∃ f r, mdctFold 4 7 3 [1, 2, 3, 4, 5, 6, 7] [10, 20, 30, 40] [5, 6, 7] [9, 9, 9, 9]
          [0, 0, 0, 0] = some f ∧
        processMdct_fx (shiftEnv 1) 4 7 3 [1, 2, 3, 4, 5, 6, 7] [10, 20, 30, 40] [5, 6, 7]
          [9, 9, 9, 9] [0, 0, 0, 0] = some r ∧
        (f.y.length : Int) = 4 ∧ (r.y.length : Int) = 4 ∧ (r.mem.length : Int) = 3 ∧
        (∀ k i j, foldStores 4 7 k i j → 0 ≤ j ∧ j < 4) ∧
        (∀ j, 0 ≤ j → j < 4 → ∃! p : Int × Int, foldStores 4 7 p.1 p.2 j) ∧
        (∀ k i j, foldStores 4 7 k i j →
          ∃ v, rd f.y j = some v ∧
            (if k = 1 then foldFirstVal (4 / 2) [1, 2, 3, 4, 5, 6, 7] f.buf i
              else if k = 2 then
                foldSingleVal (4 / 2) 3 [1, 2, 3, 4, 5, 6, 7] [10, 20, 30, 40] i
              else foldPairVal (4 / 2) 3 [1, 2, 3, 4, 5, 6, 7] [10, 20, 30, 40] i) =
              some v) :=
  ⟨by decide, C31_each_index_stored_once (shiftEnv 1) 4 7 3 [1, 2, 3, 4, 5, 6, 7]
    [10, 20, 30, 40] [5, 6, 7] [9, 9, 9, 9] [0, 0, 0, 0] (by decide)⟩

/-- C32: the fold does not wrap in 32 bits.  `L_msu0(L_mult0(a, b), c, d)` is the
integer `a*b - c*d` for all 16-bit operands; `L_mac0(L_mult0(a, b), c, d)` is the
integer `a*b + c*d`, inside `[-2^31 + 2^16, 2^31 - 2^16]`, whenever `b` and `d` are not
`-32768`.  So for 16-bit samples, history and window every first-half value of
`processMdct_fx` is the exact difference of its two products, and with no window
coefficient equal to `-32768` every second-half value is the exact product or sum of
products, inside that range. -/
theorem C32_fold_fits_32_bits (N wLen memLen : Int) (w x mem y scratch : List Int)
    (hg : MdctGeom N wLen memLen w x mem y scratch)
    (hw16 : Words16 w) (hx16 : Words16 x) (hmem16 : Words16 mem) :
    (∀ a b c d, in16 a → in16 b → in16 c → in16 d →
      L_msu0 (L_mult0 a b) c d = a * b - c * d ∧ in32 (a * b - c * d)) ∧
    (∀ a b c d, in16 a → in16 b → in16 c → in16 d → b ≠ -32768 → d ≠ -32768 →
      L_mac0 (L_mult0 a b) c d = a * b + c * d ∧
      -2 ^ 31 + 2 ^ 16 ≤ a * b + c * d ∧ a * b + c * d ≤ 2 ^ 31 - 2 ^ 16) ∧
    ∃ f, mdctFold N wLen memLen w x mem y scratch = some f ∧
      (∀ i, 0 ≤ i → i < N / 2 →
        ∃ a b c d, rd f.buf i = some a ∧ rd w i = some b ∧
          rd f.buf (N - 1 - i) = some c ∧ rd w (N - 1 - i) = some d ∧
          rd f.y (N / 2 + i) = some (a * b - c * d) ∧ in32 (a * b - c * d)) ∧
      ((∀ v ∈ w, v ≠ -32768) →
        (∀ i, 0 ≤ i → i < 2 * N - wLen →
          ∃ a b, rd x (N - memLen + i) = some a ∧ rd w (N + i) = some b ∧
            rd f.y (N / 2 - 1 - i) = some (a * b) ∧
            -2 ^ 31 + 2 ^ 16 ≤ a * b ∧ a * b ≤ 2 ^ 31 - 2 ^ 16) ∧
        (∀ i, 2 * N - wLen ≤ i → i < N / 2 →
          ∃ a b c d, rd x (N - memLen + i) = some a ∧ rd w (N + i) = some b ∧
            rd x (2 * N - memLen - 1 - i) = some c ∧ rd w (2 * N - 1 - i) = some d ∧
            rd f.y (N / 2 - 1 - i) = some (a * b + c * d) ∧
            -2 ^ 31 + 2 ^ 16 ≤ a * b + c * d ∧ a * b + c * d ≤ 2 ^ 31 - 2 ^ 16)) := by
  have hmac : ∀ a b c d, in16 a → in16 b → in16 c → in16 d → b ≠ -32768 → d ≠ -32768 →
      L_mac0 (L_mult0 a b) c d = a * b + c * d ∧
      -2 ^ 31 + 2 ^ 16 ≤ a * b + c * d ∧ a * b + c * d ≤ 2 ^ 31 - 2 ^ 16 := by
    intro a b c d ha hb hc hd hbn hdn
    have h1 := mul16_abs_le ha hb hbn
    have h2 := mul16_abs_le hc hd hdn
    have h32 : in32 (a * b + c * d) := by
      unfold in32 MIN_32 MAX_32
      omega
    rw [mac0_wrap ha hb hc hd, wrap32_of_in32 h32]
    norm_num
    omega
  refine ⟨fun a b c d ha hb hc hd => msu0_exact ha hb hc hd, hmac, ?_⟩
  obtain ⟨f, hf, -, -, -, hbuf1, hbuf2, hfirst, hsingle, hpair⟩ := mdctFold_spec hg
  obtain ⟨h0, h1, h2, hz0, hz1, hm0, hm1, hw, hx, hmemlen, hy, hs⟩ := hg
  have hbuf16 : ∀ k v, 0 ≤ k → k < N → rd f.buf k = some v → in16 v := by
    intro k v hk0 hk1 hkv
    by_cases hk : k < memLen
    · rw [hbuf1 k hk0 hk] at hkv
      exact hmem16 v (rd_mem hkv)
    · rw [hbuf2 k (by omega) hk1] at hkv
      exact hx16 v (rd_mem hkv)
  refine ⟨f, hf, ?_, ?_⟩
  · intro i hi0 hi1
    obtain ⟨v, hv, hyv⟩ := hfirst i hi0 hi1
    have h2m : 2 * (N / 2) - 1 - i = N - 1 - i := by omega
    cases ha : rd f.buf i with
    | none => simp [foldFirstVal, ha] at hv
    | some a =>
      cases hb : rd w i with
      | none => simp [foldFirstVal, ha, hb] at hv
      | some b =>
        cases hc : rd f.buf (N - 1 - i) with
        | none => simp [foldFirstVal, ha, hb, h2m, hc] at hv
        | some c =>
          cases hd : rd w (N - 1 - i) with
          | none => simp [foldFirstVal, ha, hb, h2m, hc, hd] at hv
          | some d =>
            have hval := foldFirstVal_eq ha hb (by rw [h2m]; exact hc) (by rw [h2m]; exact hd)
            obtain ⟨hexact, h32⟩ := msu0_exact (hbuf16 i a hi0 (by omega) ha)
              (hw16 b (rd_mem hb)) (hbuf16 _ c (by omega) (by omega) hc) (hw16 d (rd_mem hd))
            refine ⟨a, b, c, d, rfl, rfl, rfl, rfl, ?_, h32⟩
            rw [hyv, ← hexact]
            exact hv.symm.trans hval
  · intro hne
    constructor
    · intro i hi0 hi1
      obtain ⟨v, hv, hyv⟩ := hsingle i hi0 hi1
      have e1 : 2 * (N / 2) - memLen + i = N - memLen + i := by omega
      have e2 : 2 * (N / 2) + i = N + i := by omega
      obtain ⟨a, ha⟩ := rd_isSome (a := x) (i := N - memLen + i) (by omega) (by omega)
      obtain ⟨b, hb⟩ := rd_isSome (a := w) (i := N + i) (by omega) (by omega)
      have ha16 : in16 a := hx16 a (rd_mem ha)
      have hb16 : in16 b := hw16 b (rd_mem hb)
      have hval : foldSingleVal (N / 2) memLen w x i = some (L_mult0 a b) :=
        foldSingleVal_eq (by rw [e1]; exact ha) (by rw [e2]; exact hb)
      have hva : v = a * b := by
        have := Option.some.inj (hv.symm.trans hval)
        rw [this]
        exact mult0_exact ha16 hb16
      have hr := mul16_abs_le ha16 hb16 (hne b (rd_mem hb))
      refine ⟨a, b, ha, hb, by rw [hyv, hva], ?_, ?_⟩
      · norm_num
        omega
      · norm_num
        omega
    · intro i hi0 hi1
      obtain ⟨v, hv, hyv⟩ := hpair i hi0 hi1
      have e1 : 2 * (N / 2) - memLen + i = N - memLen + i := by omega
      have e2 : 2 * (N / 2) + i = N + i := by omega
      have e3 : 4 * (N / 2) - memLen - 1 - i = 2 * N - memLen - 1 - i := by omega
      have e4 : 4 * (N / 2) - 1 - i = 2 * N - 1 - i := by omega
      obtain ⟨a, ha⟩ := rd_isSome (a := x) (i := N - memLen + i) (by omega) (by omega)
      obtain ⟨b, hb⟩ := rd_isSome (a := w) (i := N + i) (by omega) (by omega)
      obtain ⟨c, hc⟩ := rd_isSome (a := x) (i := 2 * N - memLen - 1 - i) (by omega) (by omega)
      obtain ⟨d, hd⟩ := rd_isSome (a := w) (i := 2 * N - 1 - i) (by omega) (by omega)
      have hval : foldPairVal (N / 2) memLen w x i = some (L_mac0 (L_mult0 a b) c d) :=
        foldPairVal_eq (by rw [e1]; exact ha) (by rw [e2]; exact hb) (by rw [e3]; exact hc)
          (by rw [e4]; exact hd)
      obtain ⟨q1, q2, q3⟩ := hmac a b c d (hx16 a (rd_mem ha)) (hw16 b (rd_mem hb))
        (hx16 c (rd_mem hc)) (hw16 d (rd_mem hd)) (hne b (rd_mem hb)) (hne d (rd_mem hd))
      refine ⟨a, b, c, d, ha, hb, hc, hd, ?_, q2, q3⟩
      rw [hyv, ← q1]
      exact hv.symm.trans hval

theorem C32_fold_fits_32_bits_witness :
    MdctGeom 4 7 3 [1, 2, 3, 4, 5, 6, 7] [10, 20, 30, 40] [7, 8, 9] [0, 0, 0, 0]
        [0, 0, 0, 0, 0] ∧
      Words16 [1, 2, 3, 4, 5, 6, 7] ∧ Words16 [10, 20, 30, 40] ∧ Words16 [7, 8, 9] ∧
      (∀ v ∈ [1, 2, 3, 4, 5, 6, 7], v ≠ (-32768 : Int)) ∧
      (∀ a b c d, in16 a → in16 b → in16 c → in16 d →
        L_msu0 (L_mult0 a b) c d = a * b - c * d ∧ in32 (a * b - c * d)) ∧
      (∀ a b c d, in16 a → in16 b → in16 c → in16 d → b ≠ -32768 → d ≠ -32768 →
        L_mac0 (L_mult0 a b) c d = a * b + c * d ∧
        -2 ^ 31 + 2 ^ 16 ≤ a * b + c * d ∧ a * b + c * d ≤ 2 ^ 31 - 2 ^ 16) ∧
      ∃ f, mdctFold 4 7 3 [1, 2, 3, 4, 5, 6, 7] [10, 20, 30, 40] [7, 8, 9] [0, 0, 0, 0]
          [0, 0, 0, 0, 0] = some f ∧
        (∀ i, 0 ≤ i → i < 4 / 2 →
          ∃ a b c d, rd f.buf i = some a ∧ rd [1, 2, 3, 4, 5, 6, 7] i = some b ∧
            rd f.buf (4 - 1 - i) = some c ∧ rd [1, 2, 3, 4, 5, 6, 7] (4 - 1 - i) = some d ∧
            rd f.y (4 / 2 + i) = some (a * b - c * d) ∧ in32 (a * b - c * d)) ∧
        ((∀ v ∈ [1, 2, 3, 4, 5, 6, 7], v ≠ (-32768 : Int)) →
          (∀ i, 0 ≤ i → i < 2 * 4 - 7 →
            ∃ a b, rd [10, 20, 30, 40] (4 - 3 + i) = some a ∧
              rd [1, 2, 3, 4, 5, 6, 7] (4 + i) = some b ∧
              rd f.y (4 / 2 - 1 - i) = some (a * b) ∧
              -2 ^ 31 + 2 ^ 16 ≤ a * b ∧ a * b ≤ 2 ^ 31 - 2 ^ 16) ∧
          (∀ i, 2 * 4 - 7 ≤ i → i < 4 / 2 →
            ∃ a b c d, rd [10, 20, 30, 40] (4 - 3 + i) = some a ∧
              rd [1, 2, 3, 4, 5, 6, 7] (4 + i) = some b ∧
              rd [10, 20, 30, 40] (2 * 4 - 3 - 1 - i) = some c ∧
              rd [1, 2, 3, 4, 5, 6, 7] (2 * 4 - 1 - i) = some d ∧
              rd f.y (4 / 2 - 1 - i) = some (a * b + c * d) ∧
              -2 ^ 31 + 2 ^ 16 ≤ a * b + c * d ∧ a * b + c * d ≤ 2 ^ 31 - 2 ^ 16)) :=
  ⟨by decide, by decide, by decide, by decide, by decide,
    C32_fold_fits_32_bits 4 7 3 [1, 2, 3, 4, 5, 6, 7] [10, 20, 30, 40] [7, 8, 9]
      [0, 0, 0, 0] [0, 0, 0, 0, 0] (by decide) (by decide) (by decide) (by decide)⟩

theorem allZero_of_rd {l : List Int}
    (h : ∀ j : Int, 0 ≤ j → j < (l.length : Int) → rd l j = some 0) : AllZero l := by
  intro v hv
  obtain ⟨k, hk, hkv⟩ := List.getElem_of_mem hv
  have hr := h (k : Int) (by omega) (by omega)
  unfold rd at hr
  rw [if_pos (by omega), Int.toNat_natCast, List.getElem?_eq_getElem hk, hkv] at hr
  exact Option.some.inj hr

/-- The fold of an all-zero block: the history afterwards is all zero, and so is
every folded value when the history before was all zero. -/
theorem mdctFold_zero {N wLen memLen : Int} {w x mem y scratch : List Int}
    (hg : MdctGeom N wLen memLen w x mem y scratch) (hx0 : AllZero x) :
    ∃ f, mdctFold N wLen memLen w x mem y scratch = some f ∧
      (f.mem.length : Int) = memLen ∧ (f.y.length : Int) = N ∧
      AllZero f.mem ∧ (AllZero mem → AllZero f.y) := by
  obtain ⟨f, hf, hmlen, hylen, hmem, hbuf1, hbuf2, hfirst, hsingle, hpair⟩ := mdctFold_spec hg
  obtain ⟨h0, h1, h2, hz0, hz1, hm0, hm1, hw, hx, hmemlen, hy, hs⟩ := hg
  refine ⟨f, hf, hmlen, hylen, ?_, ?_⟩
  · apply allZero_of_rd
    intro j hj0 hj1
    obtain ⟨v, hv⟩ := rd_isSome (a := x) (i := N - memLen + j) (by omega) (by omega)
    rw [hmem j hj0 (by omega), hv, hx0 v (rd_mem hv)]
  · intro hmem0
    have hbz : ∀ k, 0 ≤ k → k < N → ∀ a, rd f.buf k = some a → a = 0 := by
      intro k hk0 hk1 a hka
      by_cases hk : k < memLen
      · rw [hbuf1 k hk0 hk] at hka
        exact hmem0 a (rd_mem hka)
      · rw [hbuf2 k (by omega) hk1] at hka
        exact hx0 a (rd_mem hka)
    apply allZero_of_rd
    intro j hj0 hj1
    by_cases hjl : j < N / 2
    · have hj : N / 2 - 1 - (N / 2 - 1 - j) = j := by omega
      by_cases hiz : N / 2 - 1 - j < 2 * N - wLen
      · obtain ⟨v, hv, hyv⟩ := hsingle (N / 2 - 1 - j) (by omega) hiz
        rw [hj] at hyv
        rw [hyv, foldSingleVal_zero hx0 hv]
      · obtain ⟨v, hv, hyv⟩ := hpair (N / 2 - 1 - j) (by omega) (by omega)
        rw [hj] at hyv
        rw [hyv, foldPairVal_zero hx0 hv]
    · obtain ⟨v, hv, hyv⟩ := hfirst (j - N / 2) (by omega) (by omega)
      have hj : N / 2 + (j - N / 2) = j := by omega
      rw [hj] at hyv
      rw [hyv, foldFirstVal_zero (hbz _ (by omega) (by omega))
        (hbz _ (by omega) (by omega)) hv]

/-- C33: the all-zero state is a fixed point of the fold.  With an all-zero block the
history after the call is all zero, and with an all-zero history as well every folded
value is zero; so from any history, the fold of the second of two consecutive all-zero
blocks is all zero, and so is the history after it. -/
theorem C33_zero_state_fixed (N wLen memLen : Int) (w x1 x2 mem y scratch y2 scratch2 : List Int)
    (hg : MdctGeom N wLen memLen w x1 mem y scratch) (hx1 : AllZero x1)
    (hx2 : AllZero x2) (hx2len : (x2.length : Int) = N) (hy2len : (y2.length : Int) = N)
    (hs2len : N ≤ (scratch2.length : Int)) :
    ∃ f1 f2, mdctFold N wLen memLen w x1 mem y scratch = some f1 ∧
      AllZero f1.mem ∧ (AllZero mem → AllZero f1.y) ∧
      mdctFold N wLen memLen w x2 f1.mem y2 scratch2 = some f2 ∧
      (f2.y.length : Int) = N ∧ AllZero f2.y ∧ AllZero f2.mem := by
  obtain ⟨f1, hf1, hm1len, -, hm1z, hy1z⟩ := mdctFold_zero hg hx1
  obtain ⟨h0, h1, h2, hz0, hz1, hm0, hm1, hw, hx, hmemlen, hy, hs⟩ := hg
  have hg2 : MdctGeom N wLen memLen w x2 f1.mem y2 scratch2 :=
    ⟨h0, h1, h2, hz0, hz1, hm0, hm1, hw, hx2len, hm1len, hy2len, hs2len⟩
  obtain ⟨f2, hf2, -, hy2l, hm2z, hy2z⟩ := mdctFold_zero hg2 hx2
  exact ⟨f1, f2, hf1, hm1z, hy1z, hf2, hy2l, hy2z hm1z, hm2z⟩

theorem C33_zero_state_fixed_witness :
    MdctGeom 4 7 3 [1, 2, 3, 4, 5, 6, 7] [0, 0, 0, 0] [7, -8, 9] [5, 5, 5, 5]
        [0, 0, 0, 0, 0] ∧
      AllZero [0, 0, 0, 0] ∧ (([0, 0, 0, 0] : List Int).length : Int) = 4 ∧
      (([3, 3, 3, 3] : List Int).length : Int) = 4 ∧
      (4 : Int) ≤ (([1, 1, 1, 1, 1] : List Int).length : Int) ∧
      ∃ f1 f2, mdctFold 4 7 3 [1, 2, 3, 4, 5, 6, 7] [0, 0, 0, 0] [7, -8, 9] [5, 5, 5, 5]
          [0, 0, 0, 0, 0] = some f1 ∧
        AllZero f1.mem ∧ (AllZero [7, -8, 9] → AllZero f1.y) ∧
        mdctFold 4 7 3 [1, 2, 3, 4, 5, 6, 7] [0, 0, 0, 0] f1.mem [3, 3, 3, 3]
          [1, 1, 1, 1, 1] = some f2 ∧
        (f2.y.length : Int) = 4 ∧ AllZero f2.y ∧ AllZero f2.mem :=
  ⟨by decide, by decide, by decide, by decide, by decide,
    C33_zero_state_fixed 4 7 3 [1, 2, 3, 4, 5, 6, 7] [0, 0, 0, 0] [0, 0, 0, 0] [7, -8, 9]
      [5, 5, 5, 5] [0, 0, 0, 0, 0] [3, 3, 3, 3] [1, 1, 1, 1, 1] (by decide) (by decide)
      (by decide) (by decide) (by decide) (by decide)⟩

/-! Bitstream frames -/

theorem u16_round_trip (le : Bool) {v : Int} (h0 : 0 ≤ v) (h1 : v ≤ 65535) :
    ∃ b0 b1, u16Bytes le (v % 65536) = [b0, b1] ∧ u16OfBytes le b0 b1 = v := by
  cases le
  · refine ⟨v % 65536 / 256 % 256, v % 65536 % 256, by simp [u16Bytes], ?_⟩
    simp only [u16OfBytes, Bool.false_eq_true, if_false]
    omega
  · refine ⟨v % 65536 % 256, v % 65536 / 256 % 256, by simp [u16Bytes], ?_⟩
    simp only [u16OfBytes, if_true]
    omega

theorem rd_natCast {l : List Int} {k : Nat} (hk : k < l.length) :
    rd l (k : Int) = some l[k] := by
  unfold rd
  rw [if_pos (by omega), Int.toNat_natCast, List.getElem?_eq_getElem hk]

/-- The loop of `write_bitstream_frame` appends the frame bytes to the file. -/
theorem write_loop (file bytes : List Int) (hb : ∀ b ∈ bytes, 0 ≤ b ∧ b < 256) :
    forLoop 0 (bytes.length : Int) (fun i f => (rd bytes i).map (fun b => f ++ [b % 256]))
      file = some ((bytes.length : Int), file ++ bytes) := by
  obtain ⟨st, hrun, hP⟩ := forLoop_inv
    (fun i f => (rd bytes i).map (fun b => f ++ [b % 256]))
    (fun i f => f = file ++ bytes.take i.toNat) 0 (bytes.length : Int) file (by omega)
    (by simp)
    (by
      intro i f hi0 hi1 hf
      have hk : i.toNat < bytes.length := by omega
      have hrd : rd bytes i = some bytes[i.toNat] := by
        have := rd_natCast hk
        rwa [Int.toNat_of_nonneg hi0] at this
      have hbyte := hb _ (List.getElem_mem hk)
      refine ⟨f ++ [bytes[i.toNat] % 256], by dsimp only; rw [hrd]; rfl, ?_⟩
      have e : (i + 1).toNat = i.toNat + 1 := by omega
      have hmod : bytes[i.toNat] % 256 = bytes[i.toNat] := by omega
      show f ++ [bytes[i.toNat] % 256] = file ++ bytes.take (i + 1).toNat
      rw [e, List.take_succ, hf, List.getElem?_eq_getElem hk, List.append_assoc, hmod]
      rfl)
  rw [hrun, hP]
  simp

/-- The loop of `read_bitstream_frame` moves the first `n` bytes of the stream into
the buffer. -/
theorem read_loop (bytes buf rest : List Int) (hlen : bytes.length ≤ buf.length) :
    forLoop 0 (bytes.length : Int)
      (fun i (st : List Int × List Int) =>
        match st.2 with
        | [] => (wr st.1 i 255).map (fun b => (b, []))
        | c :: t => (wr st.1 i c).map (fun b => (b, t)))
      (buf, bytes ++ rest) =
      some ((bytes.length : Int), (bytes ++ buf.drop bytes.length, rest)) := by
  obtain ⟨st, hrun, hP⟩ := forLoop_inv
    (fun i (st : List Int × List Int) =>
      match st.2 with
      | [] => (wr st.1 i 255).map (fun b => (b, []))
      | c :: t => (wr st.1 i c).map (fun b => (b, t)))
    (fun i st => st = (bytes.take i.toNat ++ buf.drop i.toNat, bytes.drop i.toNat ++ rest))
    0 (bytes.length : Int) (buf, bytes ++ rest) (by omega) (by simp)
    (by
      intro i st hi0 hi1 hst
      have hk : i.toNat < bytes.length := by omega
      have e : (i + 1).toNat = i.toNat + 1 := by omega
      have hdrop : bytes.drop i.toNat = bytes[i.toNat] :: bytes.drop (i.toNat + 1) :=
        List.drop_eq_getElem_cons hk
      have hbufk : i.toNat < buf.length := by omega
      have hdropb : buf.drop i.toNat = buf[i.toNat] :: buf.drop (i.toNat + 1) :=
        List.drop_eq_getElem_cons hbufk
      have hlen2 : (bytes.take i.toNat).length = i.toNat := by
        rw [List.length_take]
        omega
      have hwr : wr (bytes.take i.toNat ++ buf.drop i.toNat) i bytes[i.toNat] =
          some (bytes.take (i.toNat + 1) ++ buf.drop (i.toNat + 1)) := by
        unfold wr
        rw [if_pos ⟨hi0, by rw [List.length_append, List.length_drop, hlen2]; omega⟩]
        congr 1
        rw [List.set_append_right _ _ (by omega), hlen2, Nat.sub_self, hdropb,
          List.set_cons_zero, List.take_succ, List.getElem?_eq_getElem hk, List.append_assoc]
        rfl
      refine ⟨(bytes.take (i.toNat + 1) ++ buf.drop (i.toNat + 1),
        bytes.drop (i.toNat + 1) ++ rest), ?_, by dsimp only; rw [e]⟩
      subst hst
      dsimp only
      rw [hdrop, List.cons_append]
      dsimp only
      rw [hwr]
      rfl)
  rw [hrun, hP]
  simp

/-- C34: a frame written by `write_bitstream_frame` is read back by
`read_bitstream_frame`.  For every sequence `bytes` of bytes whose length is at most
65535 and at most the capacity `cap` of the buffer of the reader, the writer appends
`out`, of `size + 2` bytes, to the file; the reader applied to a stream that starts
with `out` returns `size`, puts the same bytes at the head of its buffer (the entries
behind them keep their values) and leaves of the stream exactly what follows `out`.  On
a stream with no byte left, or with one byte left, the reader returns `-1` and leaves
the buffer as it is.  This holds in both byte orders of the machine. -/
theorem C34_frame_round_trip (le : Bool) (file bytes buf rest : List Int) (cap : Int)
    (hb : ∀ b ∈ bytes, 0 ≤ b ∧ b < 256) (hsize : (bytes.length : Int) ≤ 65535)
    (hcap : (bytes.length : Int) ≤ cap) (hbuf : cap ≤ (buf.length : Int)) :
    ∃ out, write_bitstream_frame le file bytes (bytes.length : Int) = some (file ++ out) ∧
      (out.length : Int) = (bytes.length : Int) + 2 ∧
      read_bitstream_frame le (out ++ rest) buf cap =
        some ((bytes.length : Int), bytes ++ buf.drop bytes.length, rest) ∧
      (bytes ++ buf.drop bytes.length).take bytes.length = bytes ∧
      (bytes ++ buf.drop bytes.length).length = buf.length ∧
      read_bitstream_frame le [] buf cap = some (-1, buf, []) ∧
      ∀ b, read_bitstream_frame le [b] buf cap = some (-1, buf, []) := by
  obtain ⟨b0, b1, hu, hv⟩ := u16_round_trip le (Int.natCast_nonneg bytes.length) hsize
  have hlen : bytes.length ≤ buf.length := by omega
  refine ⟨b0 :: b1 :: bytes, ?_, ?_, ?_, ?_, ?_, rfl, fun _ => rfl⟩
  · unfold write_bitstream_frame
    simp only [hu, write_loop _ bytes hb]
    simp
  · simp only [List.length_cons]
    omega
  · show read_bitstream_frame le (b0 :: b1 :: (bytes ++ rest)) buf cap = _
    unfold read_bitstream_frame
    simp only [hv, min_eq_left hcap, read_loop bytes buf rest hlen]
    rfl
  · simp
  · rw [List.length_append, List.length_drop]
    omega

theorem C34_frame_round_trip_witness :
    (∀ b ∈ [1, 2, 255], (0 : Int) ≤ b ∧ b < 256) ∧
    (([1, 2, 255] : List Int).length : Int) ≤ 65535 ∧
    (([1, 2, 255] : List Int).length : Int) ≤ 4 ∧
    (4 : Int) ≤ (([7, 7, 7, 7, 7] : List Int).length : Int) ∧
    ∃ out, write_bitstream_frame true [42] [1, 2, 255] (([1, 2, 255] : List Int).length : Int) =
        some ([42] ++ out) ∧
      (out.length : Int) = (([1, 2, 255] : List Int).length : Int) + 2 ∧
      read_bitstream_frame true (out ++ [9, 8]) [7, 7, 7, 7, 7] 4 =
        some ((([1, 2, 255] : List Int).length : Int),
          [1, 2, 255] ++ ([7, 7, 7, 7, 7] : List Int).drop ([1, 2, 255] : List Int).length,
          [9, 8]) ∧
      ([1, 2, 255] ++ ([7, 7, 7, 7, 7] : List Int).drop ([1, 2, 255] : List Int).length).take
        ([1, 2, 255] : List Int).length = [1, 2, 255] ∧
      ([1, 2, 255] ++ ([7, 7, 7, 7, 7] : List Int).drop ([1, 2, 255] : List Int).length).length =
        ([7, 7, 7, 7, 7] : List Int).length ∧
      read_bitstream_frame true [] [7, 7, 7, 7, 7] 4 = some (-1, [7, 7, 7, 7, 7], []) ∧
      ∀ b, read_bitstream_frame true [b] [7, 7, 7, 7, 7] 4 = some (-1, [7, 7, 7, 7, 7], []) :=
  ⟨by decide, by decide, by decide, by decide,
    C34_frame_round_trip true [42] [1, 2, 255] [7, 7, 7, 7, 7] [9, 8] 4
      (by decide) (by decide) (by decide) (by decide)⟩

end LC3
